import Mathlib

/-!
Verification of the skip-list engine (skiplist.go of ironpark/skiplist).

The embedding instantiates the generic element type at `K = V = Int`, using
the repository's own `NumberComparator` as the active comparator.  Go
pointers are node ids (`Option Nat`, `none` = nil) into a heap `store`;
the Go header slice `list.levels` is a backing array plus a visible length,
so that re-slicing in `SetMaxLevel` (which can re-expose spare capacity)
is represented faithfully.  Loops are fuel recursion; lemmas show the fuel
chosen at each call site is sufficient on well-formed lists.  The float
draw inside `randLevel` is abstracted by a boolean function `keep`
(standing for `r < probTable[level]`), which covers every outcome of the
comparison.
-/

namespace SkipListVerify

/-- One skip-list element (`Element[K, V]` with `K = V = Int`).  `levels` is
the per-level forward-pointer array (its length is the node's level),
`prev` the level-0 predecessor, `prevTopLevel` the shortcut back pointer,
and `ownerId` models the `list` back reference (`none` once removed). -/
structure Node where
  key : Int
  value : Int
  levels : List (Option Nat)
  prev : Option Nat
  prevTopLevel : Option Nat
  ownerId : Option Nat
deriving DecidableEq, Repr

def defaultNode : Node :=
  { key := 0, value := 0, levels := [], prev := none, prevTopLevel := none, ownerId := none }

/-- The skip-list state (`SkipList[K, V]`).  `headerBacking`/`headerLen`
model the Go slice `list.levels` (visible part = first `headerLen` slots of
the backing array, capacity = backing length). -/
structure SL where
  store : List Node
  headerBacking : List (Option Nat)
  headerLen : Nat
  maxLevel : Nat
  length : Nat
  back : Option Nat
  listId : Nat
deriving DecidableEq, Repr

def headerVisible (s : SL) : List (Option Nat) := s.headerBacking.take s.headerLen

def nodeAt (s : SL) (id : Nat) : Node := s.store.getD id defaultNode

/-- The levels array behind an `*elementHeader`: `none` is the list's own
header, `some id` is element `id`. -/
def levelsPH (s : SL) (ph : Option Nat) : List (Option Nat) :=
  match ph with
  | none => headerVisible s
  | some id => (nodeAt s id).levels

def ptrPH (s : SL) (ph : Option Nat) (i : Nat) : Option Nat :=
  (levelsPH s ph).getD i none

def lenPH (s : SL) (ph : Option Nat) : Nat := (levelsPH s ph).length

/-- Write `h.levels[i] = v`.  (Go panics when `i` is out of range of the
visible slice; no operation below reaches that case on well-formed lists,
and `List.set` ignores such writes.) -/
def setPtrPH (s : SL) (ph : Option Nat) (i : Nat) (v : Option Nat) : SL :=
  match ph with
  | none => { s with headerBacking := s.headerBacking.set i v }
  | some id =>
      { s with store := s.store.set id { nodeAt s id with levels := (nodeAt s id).levels.set i v } }

def updNode (s : SL) (id : Nat) (f : Node → Node) : SL :=
  { s with store := s.store.set id (f (nodeAt s id)) }

/-- `NumberComparator` of comparable.go at `K = Int`. -/
def cmpInt (lk rk : Int) : Int := if lk > rk then 1 else if lk < rk then -1 else 0

/-- `list.compare(key, rhs)`. -/
def compareKN (s : SL) (k : Int) (id : Nat) : Int := cmpInt k (nodeAt s id).key

/-- The loop of `randLevel`: `for level = 1; level < maxLevel && r < probTable[level]; level++`.
`keep lvl` stands for the float comparison `r < probTable[lvl]` (`r` is drawn
once, before the loop).  The counter is an upper bound on iterations. -/
def randLevelLoop (maxLevel : Nat) (keep : Nat → Bool) : Nat → Nat → Nat
  | 0, level => level
  | cnt + 1, level =>
      if level < maxLevel && keep level then randLevelLoop maxLevel keep cnt (level + 1) else level

def randLevel (maxLevel : Nat) (keep : Nat → Bool) : Nat :=
  randLevelLoop maxLevel keep maxLevel 1

/-- `list.Front()` (Go reads `list.levels[0]`). -/
def FrontOp (s : SL) : Option Nat := (headerVisible s).getD 0 none

def BackOp (s : SL) : Option Nat := s.back

def LenOp (s : SL) : Nat := s.length

/-- The fresh empty list made by `New` (DefaultMaxLevel = 18). -/
def new0 : SL :=
  { store := [], headerBacking := List.replicate 18 none, headerLen := 18,
    maxLevel := 18, length := 0, back := none, listId := 0 }

/-- `Init()`: Go replaces the header slice by `make(..., len(list.levels))`. -/
def InitOp (s : SL) : SL :=
  { s with back := none, length := 0, headerBacking := List.replicate s.headerLen none }

/-! ### findNext -/

/-- Inner forward walk of `findNext` at Go level `i`:
`for next := prevHeader.levels[i]; next != nil; next = prevHeader.levels[i]`.
`Sum.inl id` is the `comp == 0` early return; otherwise the advanced
`prevHeader` and the recorded candidate `elem` are returned. -/
def findWalk (s : SL) (k : Int) (i : Nat) : Nat → Option Nat → Option Nat → Sum Nat (Option Nat × Option Nat)
  | 0, ph, elem => Sum.inr (ph, elem)
  | fuel + 1, ph, elem =>
      match ptrPH s ph i with
      | none => Sum.inr (ph, elem)
      | some nid =>
          if compareKN s k nid ≤ 0 then
            if compareKN s k nid = 0 then Sum.inl nid else Sum.inr (ph, some nid)
          else findWalk s k i fuel (some nid) elem

/-- The level-skipping loop `for i--; i >= 0 && prevHeader.levels[i] == topLevel; i--`.
The argument `n` means: the next Go level to examine is `n - 1`; the result
`m` means the next Go level to process normally is `m - 1` (`0` = done). -/
def findSkip (s : SL) (ph top : Option Nat) : Nat → Nat
  | 0 => 0
  | jp + 1 => if ptrPH s ph jp = top then findSkip s ph top jp else jp + 1

/-- Outer loop of `findNext`; `jp - 1` is the Go level being processed. -/
def findOuter (s : SL) (k : Int) : Nat → Nat → Option Nat → Option Nat → Option Nat
  | 0, _, _, elem => elem
  | fuel + 1, jp, ph, elem =>
      match jp with
      | 0 => elem
      | j + 1 =>
          match findWalk s k j (s.store.length + 1) ph elem with
          | Sum.inl found => some found
          | Sum.inr (ph2, elem2) =>
              let top := ptrPH s ph2 j
              findOuter s k fuel (findSkip s ph2 top j) ph2 elem2

/-- `findNext(start, key)` including its three fast paths.  (On a nonempty
well-formed list `Front`/`Back` are non-nil; Go would dereference nil
otherwise, which the `getD 0` below never reaches on such lists.) -/
def findNextOp (s : SL) (start : Option Nat) (k : Int) : Option Nat :=
  if s.length = 0 then none
  else
    match start with
    | none =>
        if cmpInt k (nodeAt s ((FrontOp s).getD 0)).key ≤ 0 then FrontOp s
        else if 0 < cmpInt k (nodeAt s (s.back.getD 0)).key then none
        else findOuter s k (lenPH s none + 1) (lenPH s none) none none
    | some sid =>
        if cmpInt k (nodeAt s sid).key ≤ 0 then some sid
        else if 0 < cmpInt k (nodeAt s (s.back.getD 0)).key then none
        else findOuter s k (lenPH s (some sid) + 1) (lenPH s (some sid)) (some sid) none

def FindNextOp (s : SL) (start : Option Nat) (k : Int) : Option Nat := findNextOp s start k

def FindOp (s : SL) (k : Int) : Option Nat := findNextOp s none k

/-- `Get(key)`: `findNext` filtered to exact equality. -/
def GetOp (s : SL) (k : Int) : Option Nat :=
  match findNextOp s none k with
  | none => none
  | some fid => if cmpInt k (nodeAt s fid).key ≠ 0 then none else some fid

def GetValueOp (s : SL) (k : Int) : Option Int :=
  (GetOp s k).map fun id => (nodeAt s id).value

/-- `MustGetValue`; the `none` result models the Go panic on a missing key. -/
def MustGetValueOp (s : SL) (k : Int) : Option Int :=
  match GetOp s k with
  | none => none
  | some id => some (nodeAt s id).value

/-! ### Set -/

/-- Inner forward walk of `Set`'s search at Go level `i`; `Sum.inl` is the
update-in-place early return (`comp == 0`). -/
def setWalk (s : SL) (k : Int) (i : Nat) : Nat → Option Nat → Sum Nat (Option Nat)
  | 0, ph => Sum.inr ph
  | fuel + 1, ph =>
      match ptrPH s ph i with
      | none => Sum.inr ph
      | some nid =>
          if compareKN s k nid ≤ 0 then
            if compareKN s k nid = 0 then Sum.inl nid else Sum.inr ph
          else setWalk s k i fuel (some nid)

/-- Level-skipping loop of `Set`'s search, also recording
`prevElemHeaders[i] = prevHeader` for each skipped level.  Argument/result
encoding as in `findSkip`. -/
def setSkip (s : SL) (ph top : Option Nat) : Nat → List (Option Nat) → Nat × List (Option Nat)
  | 0, acc => (0, acc)
  | jp + 1, acc =>
      if ptrPH s ph jp = top then setSkip s ph top jp (acc.set jp ph)
      else (jp + 1, acc)

/-- Outer search loop of `Set`: fills `prevElemHeaders` (here `acc`; the
net effect of the initial write plus in-walk rewrites at a level is its
final `prevHeader`, recorded after the walk). -/
def setSearch (s : SL) (k : Int) : Nat → Nat → Option Nat → List (Option Nat) → Sum Nat (List (Option Nat))
  | 0, _, _, acc => Sum.inr acc
  | fuel + 1, jp, ph, acc =>
      match jp with
      | 0 => Sum.inr acc
      | j + 1 =>
          match setWalk s k j (s.store.length + 1) ph with
          | Sum.inl found => Sum.inl found
          | Sum.inr ph2 =>
              let acc2 := acc.set j ph2
              let top := ptrPH s ph2 j
              let nxt := setSkip s ph2 top j acc2
              setSearch s k fuel nxt.1 ph2 nxt.2

/-- The splice loop
`elem.levels[i] = prevElemHeaders[i].levels[i]; prevElemHeaders[i].levels[i] = elem`,
run for `cnt` ascending levels starting at `i`. -/
def spliceLoop (nid : Nat) (prevs : List (Option Nat)) : Nat → Nat → SL → SL
  | _, 0, s => s
  | i, cnt + 1, s =>
      let pv := prevs.getD i none
      let s1 := updNode s nid fun nd => { nd with levels := nd.levels.set i (ptrPH s pv i) }
      let s2 := setPtrPH s1 pv i (some nid)
      spliceLoop nid prevs (i + 1) cnt s2

/-- `largestLevel` scan: from index `ip - 1` downward, the first index with a
non-nil forward pointer, plus one (0 when all nil). -/
def largestLevelScan (levels : List (Option Nat)) : Nat → Nat
  | 0 => 0
  | ip + 1 => if levels.getD ip none ≠ none then ip + 1 else largestLevelScan levels ip

/-- The `prevTopLevel` adjustment loop of `Set`: jump through the successors
captured during splice, repointing those whose own level is at most the new
node's level.  (Go dereferences the successor; `none` cannot occur below
`largest` on well-formed lists.) -/
def setPtlFix (nid lvl largest : Nat) : Nat → Nat → SL → SL
  | 0, _, s => s
  | fuel + 1, i, s =>
      if i < largest then
        match (nodeAt s nid).levels.getD i none with
        | none => s
        | some nx =>
            let nlvl := (nodeAt s nx).levels.length
            let s2 :=
              if nlvl ≤ lvl then updNode s nx fun nd => { nd with prevTopLevel := some nid }
              else s
            setPtlFix nid lvl largest fuel nlvl s2
      else s

/-- Header writes of `Set`'s empty-list fast path
(`for i := 0; i < level; i++ { list.levels[i] = elem }`). -/
def writeHeaderSlots (nid : Nat) : Nat → Nat → SL → SL
  | _, 0, s => s
  | i, cnt + 1, s => writeHeaderSlots nid (i + 1) cnt (setPtrPH s none i (some nid))

/-- The happy path of `Set` for an empty list: draw done, create the node,
point every header slot `0..lvl` at it, make it the back. -/
def setEmptyCore (s : SL) (k v : Int) (lvl : Nat) : SL × Nat :=
  let nid := s.store.length
  let nd : Node := { key := k, value := v, levels := List.replicate lvl none,
                     prev := none, prevTopLevel := none, ownerId := some s.listId }
  let s1 : SL := { s with store := s.store ++ [nd] }
  let s2 := writeHeaderSlots nid 0 lvl s1
  ({ s2 with back := some nid, length := s.length + 1 }, nid)

/-- The insertion path of `Set` after the search returned the per-level
predecessors `prevs`: create the node (with `prev`/`prevTopLevel` from
`prevs`), splice at every level below `lvl`, adjust the successors'
`prev`/`prevTopLevel`, and update `back`/`length`. -/
def setMissCore (s : SL) (k v : Int) (lvl : Nat) (prevs : List (Option Nat)) : SL × Nat :=
  let nid := s.store.length
  let nd : Node := { key := k, value := v, levels := List.replicate lvl none,
                     prev := prevs.getD 0 none,
                     prevTopLevel := prevs.getD (lvl - 1) none,
                     ownerId := some s.listId }
  let s1 : SL := { s with store := s.store ++ [nd] }
  let s2 := spliceLoop nid prevs 0 lvl s1
  let largest := largestLevelScan (nodeAt s2 nid).levels lvl
  let s3 :=
    match (nodeAt s2 nid).levels.getD 0 none with
    | none => s2
    | some nx => updNode s2 nx fun nd2 => { nd2 with prev := some nid }
  let s4 := setPtlFix nid lvl largest (largest + 1) 0 s3
  let s5 := if (nodeAt s4 nid).levels.getD 0 none = none then { s4 with back := some nid } else s4
  ({ s5 with length := s4.length + 1 }, nid)

/-- `Set(key, value)`, with the level draw `lvl` (the value of `randLevel`)
passed explicitly; it is unused on the update path, matching Go where
`randLevel` is only called after the search misses. -/
def SetOp (s : SL) (k v : Int) (lvl : Nat) : SL × Nat :=
  if s.length = 0 then setEmptyCore s k v lvl
  else
    match setSearch s k (s.headerLen + 1) s.headerLen none (List.replicate s.headerLen none) with
    | Sum.inl found =>
        ({ s with store := s.store.set found { nodeAt s found with value := v } }, found)
    | Sum.inr prevs => setMissCore s k v lvl prevs

/-! ### RemoveElement -/

/-- The backward skip
`for prev = prev.prevTopLevel; prev != nil && prev.Level() == prevLevel; prev = prev.prevTopLevel`
(called on the value after the initial move). -/
def removeSkip (s : SL) (pl : Nat) : Nat → Option Nat → Option Nat
  | 0, p => p
  | fuel + 1, p =>
      match p with
      | none => none
      | some pid =>
          if (nodeAt s pid).levels.length = pl then removeSkip s pl fuel (nodeAt s pid).prevTopLevel
          else p

/-- `for ; max < prevLevel && max < level; max++ { prevElems[max] = prev }`:
write `v` into `cnt` consecutive slots starting at `i`. -/
def fillRange (v : Option Nat) : Nat → Nat → List (Option Nat) → List (Option Nat)
  | _, 0, pe => pe
  | i, cnt + 1, pe => fillRange v (i + 1) cnt (pe.set i v)

/-- The predecessor-collection loop of `RemoveElement`. -/
def removePrevLoop (s : SL) (lvl : Nat) : Nat → Nat → Option Nat → List (Option Nat) → Nat × List (Option Nat)
  | 0, mx, _, pe => (mx, pe)
  | fuel + 1, mx, prev, pe =>
      match prev with
      | none => (mx, pe)
      | some pid =>
          if mx < lvl then
            let pl := (nodeAt s pid).levels.length
            let hi := min pl lvl
            let pe2 := fillRange (some pid) mx (hi - mx) pe
            let mx2 := max mx hi
            let prev2 := removeSkip s pl (s.store.length + 1) (nodeAt s pid).prevTopLevel
            removePrevLoop s lvl fuel mx2 prev2 pe2
          else (mx, pe)

/-- `for i := 0; i < max; i++ { prevElems[i].levels[i] = elem.levels[i] }`. -/
def removeUnspliceNodes (eid : Nat) (pe : List (Option Nat)) : Nat → Nat → SL → SL
  | _, 0, s => s
  | i, cnt + 1, s =>
      let s2 := setPtrPH s (pe.getD i none) i ((nodeAt s eid).levels.getD i none)
      removeUnspliceNodes eid pe (i + 1) cnt s2

/-- `for i := max; i < level; i++ { list.levels[i] = elem.levels[i] }`. -/
def removeUnspliceHeader (eid : Nat) : Nat → Nat → SL → SL
  | _, 0, s => s
  | i, cnt + 1, s =>
      let s2 := setPtrPH s none i ((nodeAt s eid).levels.getD i none)
      removeUnspliceHeader eid (i + 1) cnt s2

/-- The `prevTopLevel` adjustment loop of `RemoveElement`. -/
def removePtlFix (eid lvl : Nat) (pe : List (Option Nat)) : Nat → Nat → SL → SL
  | 0, _, s => s
  | fuel + 1, i, s =>
      if i < lvl then
        match (nodeAt s eid).levels.getD i none with
        | none => s
        | some nx =>
            if (nodeAt s nx).prevTopLevel ≠ some eid then s
            else
              let i2 := (nodeAt s nx).levels.length
              let s2 := updNode s nx fun nd => { nd with prevTopLevel := pe.getD (i2 - 1) none }
              removePtlFix eid lvl pe fuel i2 s2
      else s

/-- `elem.reset()`: clears `list`, `prev`, `prevTopLevel` and truncates
`levels` to length 0; key and value stay. -/
def resetNode (nd : Node) : Node :=
  { nd with ownerId := none, prev := none, prevTopLevel := none, levels := [] }

/-- Body of a successful `RemoveElement(elem)`, up to (excluding) the final
`elem.reset()`. -/
def removeCore (s : SL) (eid : Nat) : SL :=
  let lvl := (nodeAt s eid).levels.length
  let mp := removePrevLoop s lvl (s.store.length + 1) 0 (nodeAt s eid).prev (List.replicate lvl none)
  let mx := mp.1
  let pe := mp.2
  let s1 := removeUnspliceNodes eid pe 0 mx s
  let s2 := removeUnspliceHeader eid mx (lvl - mx) s1
  let s3 :=
    match (nodeAt s2 eid).levels.getD 0 none with
    | none => s2
    | some nx => updNode s2 nx fun nd => { nd with prev := (nodeAt s2 eid).prev }
  let s4 := removePtlFix eid lvl pe (lvl + 1) 0 s3
  let s5 := if s4.back = some eid then { s4 with back := (nodeAt s4 eid).prev } else s4
  { s5 with length := s5.length - 1 }

/-- `RemoveElement(elem)`. -/
def RemoveElementOp (s : SL) (elem : Option Nat) : SL :=
  match elem with
  | none => s
  | some eid =>
      if (nodeAt s eid).ownerId ≠ some s.listId then s
      else updNode (removeCore s eid) eid resetNode

def RemoveOp (s : SL) (k : Int) : Option Nat × SL :=
  match GetOp s k with
  | none => (none, s)
  | some eid => (some eid, RemoveElementOp s (some eid))

def RemoveFrontOp (s : SL) : Option Nat × SL :=
  if s.length = 0 then (none, s)
  else (FrontOp s, RemoveElementOp s (FrontOp s))

def RemoveBackOp (s : SL) : Option Nat × SL :=
  if s.length = 0 then (none, s)
  else (s.back, RemoveElementOp s s.back)

/-! ### SetMaxLevel -/

/-- The shrink scan `for i := old - 1; i >= level; i--`: from index `ip - 1`
downward to `lvl`, the first index holding a non-nil pointer (default
`lvl`).  Note the Go body is `level = i` (not `i + 1`). -/
def shrinkScan (b : List (Option Nat)) (lvl : Nat) : Nat → Nat
  | 0 => lvl
  | ip + 1 =>
      if ip < lvl then lvl
      else if b.getD ip none ≠ none then ip
      else shrinkScan b lvl ip

/-- `SetMaxLevel(level)`.  `none` models the panic on a non-positive level;
the result carries Go's return value `old = len(list.levels)`.  The
probTable recomputation (floats) is not modelled; `randLevel` abstracts
the table through its `keep` argument. -/
def SetMaxLevelOp (s : SL) (level : Int) : Option (SL × Nat) :=
  if level ≤ 0 then none
  else
    let lvl := level.toNat
    let s1 : SL := { s with maxLevel := lvl }
    let old := s1.headerLen
    if lvl = old then some (s1, old)
    else if old > lvl then
      let cut := shrinkScan s1.headerBacking lvl old
      some ({ s1 with headerLen := cut }, old)
    else if lvl ≤ s1.headerBacking.length then
      some ({ s1 with headerLen := lvl }, old)
    else
      some ({ s1 with
              headerBacking := headerVisible s1 ++ (List.replicate (lvl - s1.headerLen) none)
              headerLen := lvl }, old)

/-! ### The abstract view -/

/-- Abstract view of one stored element. -/
structure Entry where
  id : Nat
  key : Int
  value : Int
  level : Nat
deriving DecidableEq, Repr

def defaultEntry : Entry := { id := 0, key := 0, value := 0, level := 1 }

/-- Head of the level-`j` chain of `es` (first entry with level above `j`). -/
def nextGT (j : Nat) : List Entry → Option Nat
  | [] => none
  | e :: rest => if j < e.level then some e.id else nextGT j rest

/-- Last entry of `es` with level above `j`. -/
def lastGT (j : Nat) : List Entry → Option Entry
  | [] => none
  | e :: rest =>
      match lastGT j rest with
      | some r => some r
      | none => if j < e.level then some e else none

/-- The forward-pointer array required of an entry of level `lvl` whose
successors are `post`. -/
def levelsSpec (lvl : Nat) (post : List Entry) : List (Option Nat) :=
  (List.range lvl).map fun j => nextGT j post

def prevSpec (pre : List Entry) : Option Nat := pre.getLast?.map fun e => e.id

def ptlSpec (lvl : Nat) (pre : List Entry) : Option Nat := (lastGT (lvl - 1) pre).map fun e => e.id

def nodeSpec (listId : Nat) (pre : List Entry) (e : Entry) (post : List Entry) : Node :=
  { key := e.key, value := e.value, levels := levelsSpec e.level post,
    prev := prevSpec pre, prevTopLevel := ptlSpec e.level pre, ownerId := some listId }

def liveIds (es : List Entry) : List Nat := es.map fun e => e.id

/-- Well-formedness: the concrete state `s` realises the sorted abstract
sequence `es` (a default-constructed list, header length 18). -/
structure Abs (s : SL) (es : List Entry) : Prop where
  hBackLen : s.headerBacking.length = 18
  hHeadLen : s.headerLen = 18
  hMax : s.maxLevel = 18
  hListId : s.listId = 0
  hSorted : es.Pairwise fun a b => a.key < b.key
  hLevels : ∀ e ∈ es, 1 ≤ e.level ∧ e.level ≤ 18
  hIds : (liveIds es).Nodup
  hIdLt : ∀ e ∈ es, e.id < s.store.length
  hHeader : ∀ j, j < 18 → s.headerBacking.getD j none = nextGT j es
  hNodes : ∀ i, i < es.length →
    nodeAt s (es.getD i defaultEntry).id =
      nodeSpec 0 (es.take i) (es.getD i defaultEntry) (es.drop (i + 1))
  hDead : ∀ id, id < s.store.length → id ∉ liveIds es → (nodeAt s id).ownerId ≠ some 0
  hBack : s.back = es.getLast?.map fun e => e.id
  hLen : s.length = es.length

/-- The level-0 chain read off the concrete state (node ids in list order). -/
def chain0Aux (s : SL) : Nat → Option Nat → List Nat
  | 0, _ => []
  | _ + 1, none => []
  | fuel + 1, some id => id :: chain0Aux s fuel ((nodeAt s id).levels.getD 0 none)

def chain0 (s : SL) : List Nat := chain0Aux s (s.store.length + 1) (FrontOp s)

/-- Entries with keys strictly below the search key (the part of the list a
search walks through). -/
def lesOf (k : Int) (es : List Entry) : List Entry := es.takeWhile fun e => e.key < k

/-- Entries with keys at or above the search key. -/
def gesOf (k : Int) (es : List Entry) : List Entry := es.dropWhile fun e => e.key < k

/-- The per-level predecessor of the search for `k`: the last entry below
`k` whose level exceeds `j` (`none` = the list header). -/
def lastLT (k : Int) (j : Nat) (es : List Entry) : Option Entry := lastGT j (lesOf k es)

def posOf (oe : Option Entry) : Option Nat := oe.map fun e => e.id

/-- The entry holding key `k`, if any. -/
def findEq (k : Int) (es : List Entry) : Option Entry := es.find? fun e => e.key = k

/-- Validity of a search position for walking level `j`: the pointer is the
header with nothing before it, or the last entry of `pre`, whose own level
must exceed `j`. -/
def phFor (ph : Option Nat) (pre : List Entry) (j : Nat) : Prop :=
  (ph = none ∧ pre = []) ∨ ∃ p pp, pre = pp ++ [p] ∧ ph = some p.id ∧ j < p.level

/-- Where a level-`j` walk over the entries `l` ends up, starting at `ph`. -/
def phLast (ph : Option Nat) (l : List Entry) (j : Nat) : Option Nat :=
  match lastGT j l with
  | some e => some e.id
  | none => ph

/-- The entry a level-`j` walk for key `k` stops at: the first entry in the
level-`j` chain whose key is at least `k`. -/
def stopAt (k : Int) (j : Nat) (suf : List Entry) : Option Entry :=
  suf.find? fun e => decide (j < e.level) && decide (k ≤ e.key)

/-- Geometry invariant: a positive max level, a header at least that long,
and a backing array at least as long as the visible header. -/
def goodGeom (s : SL) : Prop :=
  1 ≤ s.maxLevel ∧ s.maxLevel ≤ s.headerLen ∧ s.headerLen ≤ s.headerBacking.length

/-- States reachable from `New` through the public mutating operations.
`Set`'s level argument ranges over the image of `randLevel`, whose bounds
`1 ≤ lvl ≤ maxLevel` are proved below (`randLevel_bounds`). -/
inductive ReachF : SL → Prop
  | init : ReachF new0
  | set {s : SL} (k v : Int) (lvl : Nat) : ReachF s → 1 ≤ lvl → lvl ≤ s.maxLevel →
      ReachF (SetOp s k v lvl).1
  | removeKey {s : SL} (k : Int) : ReachF s → ReachF (RemoveOp s k).2
  | removeFront {s : SL} : ReachF s → ReachF (RemoveFrontOp s).2
  | removeBack {s : SL} : ReachF s → ReachF (RemoveBackOp s).2
  | removeElem {s : SL} (e : Option Nat) : ReachF s → ReachF (RemoveElementOp s e)
  | setMax {s t : SL} {old : Nat} (lvl : Int) : ReachF s → SetMaxLevelOp s lvl = some (t, old) →
      ReachF t
  | initialise {s : SL} : ReachF s → ReachF (InitOp s)

/-- Ghost companion of `SetOp`: the header indices at which `Set` writes a
header slot — all of `0..lvl` on the empty-list fast path, and on the
splice path those levels below `lvl` whose recorded predecessor is the
list's own header.  (Derived from the same search; `SetOp` itself is
unchanged.) -/
def setHeaderWriteIdx (s : SL) (k : Int) (lvl : Nat) : List Nat :=
  if s.length = 0 then List.range lvl
  else
    match setSearch s k (s.headerLen + 1) s.headerLen none (List.replicate s.headerLen none) with
    | Sum.inl _ => []
    | Sum.inr prevs => (List.range lvl).filter fun i => prevs.getD i none = none

/-- Shape frame: `t` agrees with `s` on store size, header geometry and
identity (all fields no operation below ever resizes). -/
def frameEq (s t : SL) : Prop :=
  t.store.length = s.store.length ∧ t.headerBacking.length = s.headerBacking.length ∧
    t.headerLen = s.headerLen ∧ t.maxLevel = s.maxLevel ∧ t.listId = s.listId

/-- First entry of `l` whose level exceeds `j` (the entry behind `nextGT`). -/
def firstGT (j : Nat) (l : List Entry) : Option Entry :=
  l.find? fun e => decide (j < e.level)

/-- Validity of a search position while `jp` levels remain to process: the
pointer is the header with nothing before it, or the last entry of `pre`,
whose own level is at least `jp`. -/
def phForS (ph : Option Nat) (pre : List Entry) (jp : Nat) : Prop :=
  (ph = none ∧ pre = []) ∨ ∃ p pp, pre = pp ++ [p] ∧ ph = some p.id ∧ jp ≤ p.level

/-- Executable form of `Abs` (each clause decidable), used to establish the
well-formedness of concrete states by evaluation. -/
abbrev AbsD (s : SL) (es : List Entry) : Prop :=
  s.headerBacking.length = 18 ∧ s.headerLen = 18 ∧ s.maxLevel = 18 ∧ s.listId = 0 ∧
  es.Pairwise (fun a b => a.key < b.key) ∧ (∀ e ∈ es, 1 ≤ e.level ∧ e.level ≤ 18) ∧
  (liveIds es).Nodup ∧ (∀ e ∈ es, e.id < s.store.length) ∧
  (∀ j, j < 18 → s.headerBacking.getD j none = nextGT j es) ∧
  (∀ i, i < es.length → nodeAt s (es.getD i defaultEntry).id =
    nodeSpec 0 (es.take i) (es.getD i defaultEntry) (es.drop (i + 1))) ∧
  (∀ id, id < s.store.length → id ∉ liveIds es → (nodeAt s id).ownerId ≠ some 0) ∧
  s.back = (es.getLast?.map fun e => e.id) ∧ s.length = es.length

/-- A concrete two-element well-formed state (keys 5 and 7, levels 1 and 2),
used as evaluation input for the search theorems. -/
def wfEntries1 : List Entry :=
  [{ id := 0, key := 5, value := 50, level := 1 }, { id := 1, key := 7, value := 70, level := 2 }]

def wfState1 : SL :=
  { store :=
      [{ key := 5, value := 50, levels := [some 1], prev := none, prevTopLevel := none,
         ownerId := some 0 },
       { key := 7, value := 70, levels := [none, none], prev := some 0, prevTopLevel := none,
         ownerId := some 0 }]
    headerBacking := some 0 :: some 1 :: List.replicate 16 none
    headerLen := 18
    maxLevel := 18
    length := 2
    back := some 1
    listId := 0 }

/-- Agreement of two nodes on everything but the forward-pointer values
(the lengths still agree). -/
def eqExceptLevels (nd1 nd2 : Node) : Prop :=
  nd1.key = nd2.key ∧ nd1.value = nd2.value ∧ nd1.prev = nd2.prev ∧
  nd1.prevTopLevel = nd2.prevTopLevel ∧ nd1.ownerId = nd2.ownerId ∧
  nd1.levels.length = nd2.levels.length

/-- Invariant of the splice loop of `Set` before processing level `i`:
levels at or above `i` still read as in the pre-splice state `s1`, levels
below `i` have been rerouted through the new node, and nothing else has
changed. -/
def spliceInv (s1 t : SL) (nid : Nat) (F : List (Option Nat)) (i : Nat) : Prop :=
  frameEq s1 t ∧ t.length = s1.length ∧ t.back = s1.back ∧
  (∀ id, eqExceptLevels (nodeAt t id) (nodeAt s1 id)) ∧
  (∀ ph j, i ≤ j → ptrPH t ph j = ptrPH s1 ph j) ∧
  (∀ ph j, j < i → ptrPH t ph j =
    if ph = F.getD j none then some nid
    else if ph = some nid then ptrPH s1 (F.getD j none) j
    else ptrPH s1 ph j)

/-- The ascending staircase of entries whose level exceeds every earlier
level (the successors the `prevTopLevel` fix-up loops visit). -/
def records (i : Nat) : List Entry → List Entry
  | [] => []
  | g :: rest => if i < g.level then g :: records g.level rest else records i rest

/-- Repoint the `prevTopLevel` of each listed entry's node at `nid`. -/
def ptlFixResult (nid : Nat) (upds : List Entry) (t : SL) : SL :=
  upds.foldl (fun u g => updNode u g.id fun nd => { nd with prevTopLevel := some nid }) t

/-- Invariant of `RemoveElement`'s two unsplice loops before processing level
`i`: levels at or above `i` still read as in the pre-unsplice state `s0`,
the level-`j` slot of the recorded predecessor `W j` has been redirected to
the removed node's level-`j` successor for `j` below `i`, and nothing else
has changed. -/
def unspliceInv (s0 t : SL) (eid : Nat) (W : Nat → Option Nat) (i : Nat) : Prop :=
  frameEq s0 t ∧ t.length = s0.length ∧ t.back = s0.back ∧
  (∀ id, eqExceptLevels (nodeAt t id) (nodeAt s0 id)) ∧
  (∀ ph j, i ≤ j → ptrPH t ph j = ptrPH s0 ph j) ∧
  (∀ ph j, j < i → ptrPH t ph j =
    if ph = W j then ptrPH s0 (some eid) j else ptrPH s0 ph j)

/-- The entry sequence of `RemoveElement`'s `prevTopLevel` fix-up: the
removed entry's staircase of at-or-above successors, as far as their levels
do not exceed the removed node's. -/
def removeUpds (lvl : Nat) (post : List Entry) : List Entry :=
  (records 0 post).takeWhile fun g => decide (g.level ≤ lvl)

/-- The per-level predecessor of a removal position: the last entry of the
prefix whose own level is above the given level (`none` = the header). -/
def prevW (pre : List Entry) (j : Nat) : Option Nat := posOf (lastGT j pre)

/-- Repoint the `prevTopLevel` of each listed entry's node to the recorded
predecessor at its own top level. -/
def removePtlResult (pe : List (Option Nat)) (upds : List Entry) (t : SL) : SL :=
  upds.foldl (fun u g =>
    updNode u g.id fun nd => { nd with prevTopLevel := pe.getD (g.level - 1) none }) t

/-- States reachable from a fresh list by `Set` and the removal operations
alone (the reachability set of the structural invariants; `SetMaxLevel` and
`Init` are not included). -/
inductive ReachS : SL → Prop
  | init : ReachS new0
  | set {s : SL} (k v : Int) (lvl : Nat) : ReachS s → 1 ≤ lvl → lvl ≤ s.maxLevel →
      ReachS (SetOp s k v lvl).1
  | removeKey {s : SL} (k : Int) : ReachS s → ReachS (RemoveOp s k).2
  | removeFront {s : SL} : ReachS s → ReachS (RemoveFrontOp s).2
  | removeBack {s : SL} : ReachS s → ReachS (RemoveBackOp s).2
  | removeElem {s : SL} (e : Option Nat) : ReachS s → ReachS (RemoveElementOp s e)

/- ======================================================================
   Theorems.  (All definitions are above this line.)
   ====================================================================== -/

theorem frameEq_refl (s : SL) : frameEq s s := ⟨rfl, rfl, rfl, rfl, rfl⟩

theorem frameEq_trans {s t u : SL} (h1 : frameEq s t) (h2 : frameEq t u) : frameEq s u := by
  obtain ⟨a1, a2, a3, a4, a5⟩ := h1
  obtain ⟨b1, b2, b3, b4, b5⟩ := h2
  exact ⟨b1.trans a1, b2.trans a2, b3.trans a3, b4.trans a4, b5.trans a5⟩

theorem frameEq_setPtrPH (s : SL) (ph : Option Nat) (i : Nat) (v : Option Nat) :
    frameEq s (setPtrPH s ph i v) := by
  cases ph <;> simp [setPtrPH, frameEq]

theorem frameEq_updNode (s : SL) (id : Nat) (f : Node → Node) : frameEq s (updNode s id f) := by
  simp [updNode, frameEq]

theorem frameEq_spliceLoop (nid : Nat) (prevs : List (Option Nat)) :
    ∀ cnt i s, frameEq s (spliceLoop nid prevs i cnt s) := by
  intro cnt
  induction cnt with
  | zero => intro i s; exact frameEq_refl s
  | succ n ih =>
      intro i s
      refine frameEq_trans ?_ (ih (i + 1) _)
      exact frameEq_trans (frameEq_updNode ..) (frameEq_setPtrPH ..)

theorem frameEq_setPtlFix (nid lvl largest : Nat) :
    ∀ fuel i s, frameEq s (setPtlFix nid lvl largest fuel i s) := by
  intro fuel
  induction fuel with
  | zero => intro i s; exact frameEq_refl s
  | succ n ih =>
      intro i s
      simp only [setPtlFix]
      split
      · split
        · exact frameEq_refl s
        · split
          · exact frameEq_trans (frameEq_updNode ..) (ih ..)
          · exact ih ..
      · exact frameEq_refl s

theorem frameEq_writeHeaderSlots (nid : Nat) :
    ∀ cnt i s, frameEq s (writeHeaderSlots nid i cnt s) := by
  intro cnt
  induction cnt with
  | zero => intro i s; exact frameEq_refl s
  | succ n ih =>
      intro i s
      exact frameEq_trans (frameEq_setPtrPH ..) (ih (i + 1) _)

theorem frameEq_removeUnspliceNodes (eid : Nat) (pe : List (Option Nat)) :
    ∀ cnt i s, frameEq s (removeUnspliceNodes eid pe i cnt s) := by
  intro cnt
  induction cnt with
  | zero => intro i s; exact frameEq_refl s
  | succ n ih =>
      intro i s
      exact frameEq_trans (frameEq_setPtrPH ..) (ih (i + 1) _)

theorem frameEq_removeUnspliceHeader (eid : Nat) :
    ∀ cnt i s, frameEq s (removeUnspliceHeader eid i cnt s) := by
  intro cnt
  induction cnt with
  | zero => intro i s; exact frameEq_refl s
  | succ n ih =>
      intro i s
      exact frameEq_trans (frameEq_setPtrPH ..) (ih (i + 1) _)

theorem frameEq_removePtlFix (eid lvl : Nat) (pe : List (Option Nat)) :
    ∀ fuel i s, frameEq s (removePtlFix eid lvl pe fuel i s) := by
  intro fuel
  induction fuel with
  | zero => intro i s; exact frameEq_refl s
  | succ n ih =>
      intro i s
      simp only [removePtlFix]
      split
      · split
        · exact frameEq_refl s
        · split
          · exact frameEq_refl s
          · exact frameEq_trans (frameEq_updNode ..) (ih ..)
      · exact frameEq_refl s

theorem nodeAt_out_of_range {s : SL} {id : Nat} (h : s.store.length ≤ id) :
    nodeAt s id = defaultNode := by
  simp [nodeAt, List.getD, List.getElem?_eq_none h]

theorem ownerId_some_lt {s : SL} {id : Nat} {x : Nat}
    (h : (nodeAt s id).ownerId = some x) : id < s.store.length := by
  by_contra hn
  rw [nodeAt_out_of_range (Nat.le_of_not_lt hn)] at h
  simp [defaultNode] at h

theorem nodeAt_updNode_self (s : SL) (id : Nat) (f : Node → Node) (h : id < s.store.length) :
    nodeAt (updNode s id f) id = f (nodeAt s id) := by
  simp [nodeAt, updNode, List.getD, List.getElem?_set_self h]

theorem nodeAt_updNode_ne (s : SL) (id j : Nat) (f : Node → Node) (h : id ≠ j) :
    nodeAt (updNode s id f) j = nodeAt s j := by
  simp [nodeAt, updNode, List.getD, List.getElem?_set_ne h]

theorem frameEq_setLength {s t : SL} (h : frameEq s t) (n : Nat) :
    frameEq s { t with length := n } := h

theorem frameEq_setBack {s t : SL} (h : frameEq s t) (b : Option Nat) :
    frameEq s { t with back := b } := h

/-- `RemoveElement` on a node whose `list` back reference is not this list
returns with no state change at all. -/
theorem removeElement_foreign_noop (s : SL) (id : Nat)
    (h : (nodeAt s id).ownerId ≠ some s.listId) : RemoveElementOp s (some id) = s := by
  simp [RemoveElementOp, h]

theorem frameEq_removeCore (s : SL) (eid : Nat) : frameEq s (removeCore s eid) := by
  simp only [removeCore]
  refine frameEq_setLength ?_ _
  split
  · refine frameEq_setBack ?_ _
    refine frameEq_trans ?_ (frameEq_removePtlFix ..)
    split
    · exact frameEq_trans (frameEq_removeUnspliceNodes ..) (frameEq_removeUnspliceHeader ..)
    · refine frameEq_trans ?_ (frameEq_updNode ..)
      exact frameEq_trans (frameEq_removeUnspliceNodes ..) (frameEq_removeUnspliceHeader ..)
  · refine frameEq_trans ?_ (frameEq_removePtlFix ..)
    split
    · exact frameEq_trans (frameEq_removeUnspliceNodes ..) (frameEq_removeUnspliceHeader ..)
    · refine frameEq_trans ?_ (frameEq_updNode ..)
      exact frameEq_trans (frameEq_removeUnspliceNodes ..) (frameEq_removeUnspliceHeader ..)

theorem frameEq_removeElement (s : SL) (e : Option Nat) :
    frameEq s (RemoveElementOp s e) := by
  match e with
  | none => exact frameEq_refl s
  | some eid =>
      simp only [RemoveElementOp]
      split
      · exact frameEq_refl s
      · exact frameEq_trans (frameEq_removeCore ..) (frameEq_updNode ..)

theorem removeElement_some_eq (s : SL) (eid : Nat)
    (h : (nodeAt s eid).ownerId = some s.listId) :
    RemoveElementOp s (some eid) = updNode (removeCore s eid) eid resetNode := by
  simp [RemoveElementOp, h]

/-- A successful `RemoveElement` ends in `elem.reset()`, which clears the
node's `list` back reference. -/
theorem removeElement_clears_owner (s : SL) (eid : Nat)
    (h : (nodeAt s eid).ownerId = some s.listId) :
    (nodeAt (RemoveElementOp s (some eid)) eid).ownerId = none := by
  have hlt : eid < s.store.length := ownerId_some_lt h
  have hc : eid < (removeCore s eid).store.length := by
    rw [(frameEq_removeCore s eid).1]; exact hlt
  rw [removeElement_some_eq s eid h, nodeAt_updNode_self _ _ _ hc]
  rfl

/-- Claim C7: `RemoveElement` on a nil node, a node of another list, or an
already-removed node is a silent no-op leaving the state fully unchanged; a
successful removal clears the node's owner reference, so a repeated
`RemoveElement` on the same node is again a no-op (idempotence). -/
theorem removeElement_ownership_noop (s : SL) :
    RemoveElementOp s none = s ∧
    (∀ id, (nodeAt s id).ownerId ≠ some s.listId → RemoveElementOp s (some id) = s) ∧
    (∀ id, (nodeAt s id).ownerId = some s.listId →
      (nodeAt (RemoveElementOp s (some id)) id).ownerId = none ∧
      RemoveElementOp (RemoveElementOp s (some id)) (some id) = RemoveElementOp s (some id)) := by
  refine ⟨rfl, fun id h => removeElement_foreign_noop s id h, fun id h => ?_⟩
  have h1 := removeElement_clears_owner s id h
  refine ⟨h1, removeElement_foreign_noop _ id ?_⟩
  rw [h1]
  simp

/-- Witness for C7 at a one-element list (key 1, value 10, level 1). -/
theorem removeElement_ownership_noop_witness :
    RemoveElementOp (SetOp new0 1 10 1).1 none = (SetOp new0 1 10 1).1 ∧
    RemoveElementOp (SetOp new0 1 10 1).1 (some 7) = (SetOp new0 1 10 1).1 ∧
    (nodeAt (RemoveElementOp (SetOp new0 1 10 1).1 (some 0)) 0).ownerId = none ∧
    RemoveElementOp (RemoveElementOp (SetOp new0 1 10 1).1 (some 0)) (some 0) =
      RemoveElementOp (SetOp new0 1 10 1).1 (some 0) := by
  refine ⟨(removeElement_ownership_noop (SetOp new0 1 10 1).1).1,
    (removeElement_ownership_noop (SetOp new0 1 10 1).1).2.1 7 (by decide),
    ((removeElement_ownership_noop (SetOp new0 1 10 1).1).2.2 0 (by decide)).1,
    ((removeElement_ownership_noop (SetOp new0 1 10 1).1).2.2 0 (by decide)).2⟩

theorem setMaxLevel_pos_ne_none (s : SL) (lvl : Int) (h : 0 < lvl) :
    SetMaxLevelOp s lvl ≠ none := by
  simp only [SetMaxLevelOp, if_neg (by omega : ¬lvl ≤ 0)]
  split
  · simp
  · split
    · simp
    · split <;> simp

/-- Claim C9: `MustGetValue` aborts (models as `none`) exactly on an absent
key and returns the stored value on a present key; `SetMaxLevel` aborts
exactly on a non-positive level. -/
theorem mustGetValue_setMaxLevel_abort (s : SL) (k lvl : Int) :
    (GetOp s k = none → MustGetValueOp s k = none) ∧
    (∀ id, GetOp s k = some id → MustGetValueOp s k = some (nodeAt s id).value) ∧
    (lvl ≤ 0 → SetMaxLevelOp s lvl = none) ∧
    (0 < lvl → SetMaxLevelOp s lvl ≠ none) :=
  ⟨fun h => by simp [MustGetValueOp, h], fun id h => by simp [MustGetValueOp, h],
    fun h => by simp [SetMaxLevelOp, h], fun h => setMaxLevel_pos_ne_none s lvl h⟩

/-- Claim C1 (evidence of the code bug): on a list with live node 0
(key 1, level 1) and live node 1 (key 2, level 2), header slot 1 holds
node 1; `SetMaxLevel(1)` truncates the header to length 1, silently
dropping slot 1 although node 1 is still owned by the list and still has
level 2 — the node is no longer reachable from the header at level 1.
The shrink scan finds the highest occupied index `i = 1` but then runs
`level = i` (not `i + 1`) before `list.levels = list.levels[:level]`. -/
theorem setMaxLevel_drops_live_slot :
    (SetOp (SetOp new0 1 10 1).1 2 20 2).1.headerBacking.getD 1 none = some 1 ∧
    (SetOp (SetOp new0 1 10 1).1 2 20 2).1.headerLen = 18 ∧
    (nodeAt (SetOp (SetOp new0 1 10 1).1 2 20 2).1 1).ownerId = some 0 ∧
    (nodeAt (SetOp (SetOp new0 1 10 1).1 2 20 2).1 1).levels.length = 2 ∧
    ((SetMaxLevelOp (SetOp (SetOp new0 1 10 1).1 2 20 2).1 1).map fun p =>
      (p.1.headerLen, p.1.maxLevel, (headerVisible p.1).getD 1 none,
        (nodeAt p.1 1).ownerId, (nodeAt p.1 1).levels.length, p.2)) =
      some (1, 1, none, some 0, 2, 18) := by
  decide

/-- Claim C2 (counterexample): after the shrink above, growing back within
spare capacity (`SetMaxLevel(3)`, 3 ≤ cap 18) re-exposes slot 1 with its
stale non-nil contents: the newly exposed slot is `some 1`, not empty. -/
theorem setMaxLevel_grow_stale_slot :
    (((SetMaxLevelOp (SetOp (SetOp new0 1 10 1).1 2 20 2).1 1).bind fun p =>
        SetMaxLevelOp p.1 3).map fun p =>
      (p.1.headerLen, p.2, (headerVisible p.1).getD 1 none, (headerVisible p.1).getD 2 none)) =
      some (3, 1, some 1, none) := by
  decide

/-- `SetMaxLevel` never touches the node store, the element count or the
back reference, and returns the previous header length. -/
theorem setMaxLevel_preserves_content (s : SL) (lvl : Int) (t : SL) (old : Nat)
    (h : SetMaxLevelOp s lvl = some (t, old)) :
    t.store = s.store ∧ t.length = s.length ∧ t.back = s.back ∧
      t.listId = s.listId ∧ old = s.headerLen := by
  unfold SetMaxLevelOp at h
  split at h
  · simp at h
  · dsimp only at h
    split at h
    · injection h with h1
      injection h1 with ha hb
      subst ha; subst hb; exact ⟨rfl, rfl, rfl, rfl, rfl⟩
    · split at h
      · injection h with h1
        injection h1 with ha hb
        subst ha; subst hb; exact ⟨rfl, rfl, rfl, rfl, rfl⟩
      · split at h
        · injection h with h1
          injection h1 with ha hb
          subst ha; subst hb; exact ⟨rfl, rfl, rfl, rfl, rfl⟩
        · injection h with h1
          injection h1 with ha hb
          subst ha; subst hb; exact ⟨rfl, rfl, rfl, rfl, rfl⟩

/-- Witness for C9: a missing key aborts, `SetMaxLevel 0` aborts, positive
levels and present keys succeed. -/
theorem mustGetValue_setMaxLevel_abort_witness :
    MustGetValueOp new0 3 = none ∧
    MustGetValueOp (SetOp new0 3 42 1).1 3 = some 42 ∧
    SetMaxLevelOp new0 0 = none ∧
    SetMaxLevelOp new0 5 ≠ none := by
  refine ⟨(mustGetValue_setMaxLevel_abort new0 3 0).1 (by decide),
    ?_, (mustGetValue_setMaxLevel_abort new0 3 0).2.2.1 (by decide),
    (mustGetValue_setMaxLevel_abort new0 3 5).2.2.2 (by decide)⟩
  have h := (mustGetValue_setMaxLevel_abort (SetOp new0 3 42 1).1 3 0).2.1 0 (by decide)
  simpa using h

/-! ### Claim C10: geometry invariant, randLevel bounds, header writes -/

theorem randLevelLoop_bounds (m : Nat) (keep : Nat → Bool) :
    ∀ cnt level, level ≤ m →
      level ≤ randLevelLoop m keep cnt level ∧ randLevelLoop m keep cnt level ≤ m := by
  intro cnt
  induction cnt with
  | zero => intro level h; exact ⟨Nat.le_refl _, h⟩
  | succ n ih =>
      intro level h
      simp only [randLevelLoop]
      split
      · rename_i hc
        have hlt : level < m := by
          rcases Bool.and_eq_true .. ▸ hc with ⟨h1, _⟩
          exact of_decide_eq_true h1
        have := ih (level + 1) (Nat.succ_le_of_lt hlt)
        exact ⟨Nat.le_trans (Nat.le_succ _) this.1, this.2⟩
      · exact ⟨Nat.le_refl _, h⟩

theorem randLevel_bounds (m : Nat) (keep : Nat → Bool) (h : 1 ≤ m) :
    1 ≤ randLevel m keep ∧ randLevel m keep ≤ m :=
  randLevelLoop_bounds m keep m 1 h

theorem nodeAt_updNode (s : SL) (id : Nat) (f : Node → Node) (j : Nat) :
    nodeAt (updNode s id f) j =
      if id = j ∧ j < s.store.length then f (nodeAt s j) else nodeAt s j := by
  by_cases h1 : id = j
  · subst h1
    by_cases h2 : id < s.store.length
    · rw [nodeAt_updNode_self s id f h2, if_pos ⟨rfl, h2⟩]
    · rw [if_neg (by tauto)]
      have h3 : s.store.length ≤ id := Nat.le_of_not_lt h2
      have h4 : (updNode s id f).store.length ≤ id := by
        rw [(frameEq_updNode s id f).1]; exact h3
      rw [nodeAt_out_of_range h4, nodeAt_out_of_range h3]
  · rw [nodeAt_updNode_ne s id j f h1, if_neg (by tauto)]

theorem nodeAt_setPtrPH_levels_len (s : SL) (ph : Option Nat) (i : Nat) (v : Option Nat) (j : Nat) :
    (nodeAt (setPtrPH s ph i v) j).levels.length = (nodeAt s j).levels.length := by
  cases ph with
  | none => rfl
  | some id =>
      have : setPtrPH s (some id) i v =
          updNode s id fun nd => { nd with levels := nd.levels.set i v } := rfl
      rw [this, nodeAt_updNode]
      split <;> simp

theorem nodeAt_spliceLoop_levels_len (nid : Nat) (prevs : List (Option Nat)) :
    ∀ cnt i s j, (nodeAt (spliceLoop nid prevs i cnt s) j).levels.length =
      (nodeAt s j).levels.length := by
  intro cnt
  induction cnt with
  | zero => intro i s j; rfl
  | succ n ih =>
      intro i s j
      simp only [spliceLoop]
      rw [ih, nodeAt_setPtrPH_levels_len, nodeAt_updNode]
      split <;> simp

theorem nodeAt_setPtlFix_levels (nid lvl largest : Nat) :
    ∀ fuel i s j, (nodeAt (setPtlFix nid lvl largest fuel i s) j).levels =
      (nodeAt s j).levels := by
  intro fuel
  induction fuel with
  | zero => intro i s j; rfl
  | succ n ih =>
      intro i s j
      simp only [setPtlFix]
      split
      · split
        · rfl
        · rw [ih]
          split
          · rw [nodeAt_updNode]; split <;> simp
          · rfl
      · rfl

theorem store_writeHeaderSlots (nid : Nat) :
    ∀ cnt i s, (writeHeaderSlots nid i cnt s).store = s.store := by
  intro cnt
  induction cnt with
  | zero => intro i s; rfl
  | succ n ih => intro i s; rw [writeHeaderSlots, ih]; rfl

@[simp] theorem setPtrPH_headerLen (s : SL) (ph : Option Nat) (i : Nat) (v : Option Nat) :
    (setPtrPH s ph i v).headerLen = s.headerLen := (frameEq_setPtrPH s ph i v).2.2.1

@[simp] theorem setPtrPH_maxLevel (s : SL) (ph : Option Nat) (i : Nat) (v : Option Nat) :
    (setPtrPH s ph i v).maxLevel = s.maxLevel := (frameEq_setPtrPH s ph i v).2.2.2.1

@[simp] theorem setPtrPH_listId (s : SL) (ph : Option Nat) (i : Nat) (v : Option Nat) :
    (setPtrPH s ph i v).listId = s.listId := (frameEq_setPtrPH s ph i v).2.2.2.2

@[simp] theorem setPtrPH_backingLen (s : SL) (ph : Option Nat) (i : Nat) (v : Option Nat) :
    (setPtrPH s ph i v).headerBacking.length = s.headerBacking.length :=
  (frameEq_setPtrPH s ph i v).2.1

@[simp] theorem setPtrPH_storeLen (s : SL) (ph : Option Nat) (i : Nat) (v : Option Nat) :
    (setPtrPH s ph i v).store.length = s.store.length := (frameEq_setPtrPH s ph i v).1

@[simp] theorem updNode_headerLen (s : SL) (id : Nat) (f : Node → Node) :
    (updNode s id f).headerLen = s.headerLen := rfl

@[simp] theorem updNode_maxLevel (s : SL) (id : Nat) (f : Node → Node) :
    (updNode s id f).maxLevel = s.maxLevel := rfl

@[simp] theorem updNode_listId (s : SL) (id : Nat) (f : Node → Node) :
    (updNode s id f).listId = s.listId := rfl

@[simp] theorem updNode_headerBacking (s : SL) (id : Nat) (f : Node → Node) :
    (updNode s id f).headerBacking = s.headerBacking := rfl

@[simp] theorem updNode_storeLen (s : SL) (id : Nat) (f : Node → Node) :
    (updNode s id f).store.length = s.store.length := (frameEq_updNode s id f).1

@[simp] theorem updNode_length (s : SL) (id : Nat) (f : Node → Node) :
    (updNode s id f).length = s.length := rfl

@[simp] theorem updNode_back (s : SL) (id : Nat) (f : Node → Node) :
    (updNode s id f).back = s.back := rfl

@[simp] theorem spliceLoop_headerLen (nid : Nat) (prevs : List (Option Nat)) (cnt i : Nat) (s : SL) :
    (spliceLoop nid prevs i cnt s).headerLen = s.headerLen :=
  (frameEq_spliceLoop nid prevs cnt i s).2.2.1

@[simp] theorem spliceLoop_maxLevel (nid : Nat) (prevs : List (Option Nat)) (cnt i : Nat) (s : SL) :
    (spliceLoop nid prevs i cnt s).maxLevel = s.maxLevel :=
  (frameEq_spliceLoop nid prevs cnt i s).2.2.2.1

@[simp] theorem spliceLoop_listId (nid : Nat) (prevs : List (Option Nat)) (cnt i : Nat) (s : SL) :
    (spliceLoop nid prevs i cnt s).listId = s.listId :=
  (frameEq_spliceLoop nid prevs cnt i s).2.2.2.2

@[simp] theorem spliceLoop_backingLen (nid : Nat) (prevs : List (Option Nat)) (cnt i : Nat) (s : SL) :
    (spliceLoop nid prevs i cnt s).headerBacking.length = s.headerBacking.length :=
  (frameEq_spliceLoop nid prevs cnt i s).2.1

@[simp] theorem spliceLoop_storeLen (nid : Nat) (prevs : List (Option Nat)) (cnt i : Nat) (s : SL) :
    (spliceLoop nid prevs i cnt s).store.length = s.store.length :=
  (frameEq_spliceLoop nid prevs cnt i s).1

@[simp] theorem setPtlFix_headerLen (nid lvl largest fuel i : Nat) (s : SL) :
    (setPtlFix nid lvl largest fuel i s).headerLen = s.headerLen :=
  (frameEq_setPtlFix nid lvl largest fuel i s).2.2.1

@[simp] theorem setPtlFix_maxLevel (nid lvl largest fuel i : Nat) (s : SL) :
    (setPtlFix nid lvl largest fuel i s).maxLevel = s.maxLevel :=
  (frameEq_setPtlFix nid lvl largest fuel i s).2.2.2.1

@[simp] theorem setPtlFix_listId (nid lvl largest fuel i : Nat) (s : SL) :
    (setPtlFix nid lvl largest fuel i s).listId = s.listId :=
  (frameEq_setPtlFix nid lvl largest fuel i s).2.2.2.2

@[simp] theorem setPtlFix_backingLen (nid lvl largest fuel i : Nat) (s : SL) :
    (setPtlFix nid lvl largest fuel i s).headerBacking.length = s.headerBacking.length :=
  (frameEq_setPtlFix nid lvl largest fuel i s).2.1

@[simp] theorem setPtlFix_storeLen (nid lvl largest fuel i : Nat) (s : SL) :
    (setPtlFix nid lvl largest fuel i s).store.length = s.store.length :=
  (frameEq_setPtlFix nid lvl largest fuel i s).1

@[simp] theorem writeHeaderSlots_headerLen (nid cnt i : Nat) (s : SL) :
    (writeHeaderSlots nid i cnt s).headerLen = s.headerLen :=
  (frameEq_writeHeaderSlots nid cnt i s).2.2.1

@[simp] theorem writeHeaderSlots_maxLevel (nid cnt i : Nat) (s : SL) :
    (writeHeaderSlots nid i cnt s).maxLevel = s.maxLevel :=
  (frameEq_writeHeaderSlots nid cnt i s).2.2.2.1

@[simp] theorem writeHeaderSlots_listId (nid cnt i : Nat) (s : SL) :
    (writeHeaderSlots nid i cnt s).listId = s.listId :=
  (frameEq_writeHeaderSlots nid cnt i s).2.2.2.2

@[simp] theorem writeHeaderSlots_backingLen (nid cnt i : Nat) (s : SL) :
    (writeHeaderSlots nid i cnt s).headerBacking.length = s.headerBacking.length :=
  (frameEq_writeHeaderSlots nid cnt i s).2.1

@[simp] theorem writeHeaderSlots_storeLen (nid cnt i : Nat) (s : SL) :
    (writeHeaderSlots nid i cnt s).store.length = s.store.length :=
  (frameEq_writeHeaderSlots nid cnt i s).1

@[simp] theorem removeUnspliceNodes_headerLen (eid : Nat) (pe : List (Option Nat)) (cnt i : Nat) (s : SL) :
    (removeUnspliceNodes eid pe i cnt s).headerLen = s.headerLen :=
  (frameEq_removeUnspliceNodes eid pe cnt i s).2.2.1

@[simp] theorem removeUnspliceNodes_storeLen (eid : Nat) (pe : List (Option Nat)) (cnt i : Nat) (s : SL) :
    (removeUnspliceNodes eid pe i cnt s).store.length = s.store.length :=
  (frameEq_removeUnspliceNodes eid pe cnt i s).1

@[simp] theorem removeUnspliceHeader_headerLen (eid cnt i : Nat) (s : SL) :
    (removeUnspliceHeader eid i cnt s).headerLen = s.headerLen :=
  (frameEq_removeUnspliceHeader eid cnt i s).2.2.1

@[simp] theorem removeUnspliceHeader_storeLen (eid cnt i : Nat) (s : SL) :
    (removeUnspliceHeader eid i cnt s).store.length = s.store.length :=
  (frameEq_removeUnspliceHeader eid cnt i s).1

@[simp] theorem removePtlFix_headerLen (eid lvl : Nat) (pe : List (Option Nat)) (fuel i : Nat) (s : SL) :
    (removePtlFix eid lvl pe fuel i s).headerLen = s.headerLen :=
  (frameEq_removePtlFix eid lvl pe fuel i s).2.2.1

@[simp] theorem removePtlFix_storeLen (eid lvl : Nat) (pe : List (Option Nat)) (fuel i : Nat) (s : SL) :
    (removePtlFix eid lvl pe fuel i s).store.length = s.store.length :=
  (frameEq_removePtlFix eid lvl pe fuel i s).1

/-- `SetOp` keeps the header geometry and can only grow the store. -/
theorem setOp_geom (s : SL) (k v : Int) (lvl : Nat) :
    (SetOp s k v lvl).1.headerLen = s.headerLen ∧
    (SetOp s k v lvl).1.maxLevel = s.maxLevel ∧
    (SetOp s k v lvl).1.headerBacking.length = s.headerBacking.length ∧
    (SetOp s k v lvl).1.listId = s.listId := by
  unfold SetOp
  split
  · unfold setEmptyCore
    dsimp only
    simp
  · split
    · exact ⟨rfl, rfl, rfl, rfl⟩
    · rename_i prevs
      unfold setMissCore
      dsimp only
      split <;> split <;> simp

theorem shrinkScan_ge (b : List (Option Nat)) (lvl : Nat) : ∀ n, lvl ≤ shrinkScan b lvl n := by
  intro n
  induction n with
  | zero => simp [shrinkScan]
  | succ ip ih =>
      simp only [shrinkScan]
      split
      · exact Nat.le_refl _
      · split
        · rename_i h1 _; omega
        · exact ih

theorem shrinkScan_self (b : List (Option Nat)) (lvl : Nat) : shrinkScan b lvl lvl = lvl := by
  cases lvl with
  | zero => rfl
  | succ m => simp [shrinkScan]

theorem shrinkScan_lt (b : List (Option Nat)) (lvl : Nat) :
    ∀ n, lvl < n → shrinkScan b lvl n < n := by
  intro n
  induction n with
  | zero => intro h; omega
  | succ ip ih =>
      intro h
      simp only [shrinkScan]
      split
      · omega
      · split
        · omega
        · rcases Nat.lt_or_ge lvl ip with h2 | h2
          · exact Nat.lt_trans (ih h2) (Nat.lt_succ_self ip)
          · have h3 : lvl = ip := by omega
            subst h3
            rw [shrinkScan_self]
            omega

theorem goodGeom_setMaxLevel {s t : SL} {lvl : Int} {old : Nat}
    (hg : goodGeom s) (h : SetMaxLevelOp s lvl = some (t, old)) : goodGeom t := by
  obtain ⟨g1, g2, g3⟩ := hg
  unfold SetMaxLevelOp at h
  split at h
  · simp at h
  · rename_i hpos
    have hp1 : 1 ≤ lvl.toNat := by omega
    dsimp only at h
    split at h
    · rename_i he
      injection h with h1
      injection h1 with ha hb
      subst ha
      exact ⟨hp1, by simpa using he.le, g3⟩
    · rename_i hne
      split at h
      · rename_i hgt
        injection h with h1
        injection h1 with ha hb
        subst ha
        refine ⟨hp1, shrinkScan_ge .., ?_⟩
        have := shrinkScan_lt s.headerBacking lvl.toNat s.headerLen hgt
        simpa using Nat.le_trans (Nat.le_of_lt this) g3
      · rename_i hle
        split at h
        · rename_i hcap
          injection h with h1
          injection h1 with ha hb
          subst ha
          exact ⟨hp1, Nat.le_refl _, hcap⟩
        · rename_i hcap
          injection h with h1
          injection h1 with ha hb
          subst ha
          refine ⟨hp1, Nat.le_refl _, ?_⟩
          simp only [headerVisible, List.length_append, List.length_take, List.length_replicate]
          omega

theorem goodGeom_of_frameEq {s t : SL} (h : frameEq s t) (hg : goodGeom s) : goodGeom t := by
  obtain ⟨_, h2, h3, h4, _⟩ := h
  exact ⟨h4 ▸ hg.1, by rw [h4, h3]; exact hg.2.1, by rw [h3, h2]; exact hg.2.2⟩

theorem goodGeom_removeElement {s : SL} (e : Option Nat) (hg : goodGeom s) :
    goodGeom (RemoveElementOp s e) :=
  goodGeom_of_frameEq (frameEq_removeElement s e) hg

theorem goodGeom_setOp {s : SL} (k v : Int) (lvl : Nat) (hg : goodGeom s) :
    goodGeom (SetOp s k v lvl).1 := by
  obtain ⟨a, b, c, _⟩ := setOp_geom s k v lvl
  exact ⟨b ▸ hg.1, by rw [b, a]; exact hg.2.1, by rw [a, c]; exact hg.2.2⟩

/-- The geometry invariant holds in every reachable state: the max level is
positive and the header has at least `maxLevel` visible slots. -/
theorem goodGeom_reachF {s : SL} (h : ReachF s) : goodGeom s := by
  induction h with
  | init => exact ⟨by simp [new0], by simp [new0], by simp [new0]⟩
  | set k v lvl _ _ _ ih => exact goodGeom_setOp k v lvl ih
  | removeKey k _ ih =>
      unfold RemoveOp
      split
      · exact ih
      · exact goodGeom_removeElement _ ih
  | removeFront _ ih =>
      unfold RemoveFrontOp
      split
      · exact ih
      · exact goodGeom_removeElement _ ih
  | removeBack _ ih =>
      unfold RemoveBackOp
      split
      · exact ih
      · exact goodGeom_removeElement _ ih
  | removeElem e _ ih => exact goodGeom_removeElement e ih
  | setMax lvl _ he ih => exact goodGeom_setMaxLevel ih he
  | initialise _ ih =>
      exact ⟨ih.1, ih.2.1, by simp [InitOp]⟩

/-- Every header index `Set` writes is inside the visible header. -/
theorem setHeaderWriteIdx_lt (s : SL) (k : Int) (lvl : Nat) (hlv : lvl ≤ s.maxLevel)
    (hg : goodGeom s) : ∀ i ∈ setHeaderWriteIdx s k lvl, i < s.headerLen := by
  obtain ⟨g1, g2, g3⟩ := hg
  intro i hi
  unfold setHeaderWriteIdx at hi
  split at hi
  · have := List.mem_range.mp hi
    omega
  · split at hi
    · simp at hi
    · have := List.mem_range.mp (List.mem_of_mem_filter hi)
      omega

theorem nodeAt_congr_store {s t : SL} (h : s.store = t.store) (j : Nat) :
    nodeAt s j = nodeAt t j := by
  simp [nodeAt, h]

@[simp] theorem nodeAt_withBack (t : SL) (b : Option Nat) (j : Nat) :
    nodeAt { t with back := b } j = nodeAt t j := rfl

@[simp] theorem nodeAt_withLength (t : SL) (n j : Nat) :
    nodeAt { t with length := n } j = nodeAt t j := rfl

@[simp] theorem nodeAt_withBackLength (t : SL) (b : Option Nat) (n j : Nat) :
    nodeAt { t with back := b, length := n } j = nodeAt t j := rfl

@[simp] theorem nodeAt_writeHeaderSlots (nid cnt i : Nat) (s : SL) (j : Nat) :
    nodeAt (writeHeaderSlots nid i cnt s) j = nodeAt s j :=
  nodeAt_congr_store (store_writeHeaderSlots nid cnt i s) j

@[simp] theorem nodeAt_updNode_prev_levels (s : SL) (id : Nat) (p : Option Nat) (j : Nat) :
    (nodeAt (updNode s id fun nd => { nd with prev := p }) j).levels = (nodeAt s j).levels := by
  rw [nodeAt_updNode]
  split <;> rfl

theorem setMissCore_level (s : SL) (k v : Int) (lvl : Nat) (prevs : List (Option Nat)) :
    (setMissCore s k v lvl prevs).2 = s.store.length ∧
    (nodeAt (setMissCore s k v lvl prevs).1 s.store.length).levels.length = lvl := by
  unfold setMissCore
  dsimp only
  refine ⟨rfl, ?_⟩
  rw [nodeAt_withLength]
  split
  · rw [nodeAt_withBack, nodeAt_setPtlFix_levels]
    split
    · rw [nodeAt_spliceLoop_levels_len]
      simp [nodeAt, List.getD]
    · rw [nodeAt_updNode_prev_levels, nodeAt_spliceLoop_levels_len]
      simp [nodeAt, List.getD]
  · rw [nodeAt_setPtlFix_levels]
    split
    · rw [nodeAt_spliceLoop_levels_len]
      simp [nodeAt, List.getD]
    · rw [nodeAt_updNode_prev_levels, nodeAt_spliceLoop_levels_len]
      simp [nodeAt, List.getD]

/-- Whenever `Set` inserts (grows the store), the returned node is the fresh
one and its level array has exactly the drawn length `lvl`. -/
theorem setOp_insert_level (s : SL) (k v : Int) (lvl : Nat)
    (hgrow : (SetOp s k v lvl).1.store.length = s.store.length + 1) :
    (SetOp s k v lvl).2 = s.store.length ∧
    (nodeAt (SetOp s k v lvl).1 (SetOp s k v lvl).2).levels.length = lvl := by
  by_cases h0 : s.length = 0
  · unfold SetOp setEmptyCore
    rw [if_pos h0]
    dsimp only
    refine ⟨rfl, ?_⟩
    rw [nodeAt_withBackLength, nodeAt_writeHeaderSlots]
    simp [nodeAt, List.getD]
  · unfold SetOp at hgrow ⊢
    rw [if_neg h0] at hgrow ⊢
    cases hs : setSearch s k (s.headerLen + 1) s.headerLen none
        (List.replicate s.headerLen none) with
    | inl found =>
        rw [hs] at hgrow
        dsimp only at hgrow
        simp at hgrow
    | inr prevs =>
        dsimp only
        exact setMissCore_level s k v lvl prevs

/-- Claim C10: in every reachable state the header has at least `maxLevel`
visible slots with `maxLevel` positive; `randLevel` always returns a level
in `[1, maxLevel]`; consequently every header index `Set` writes (empty-list
fast path and splice phase alike) is within the header bounds, and a node
inserted by `Set` carries exactly the drawn level — hence a level in
`[1, maxLevel]` in force at insertion. -/
theorem reachable_header_and_level_bounds (s : SL) (k v : Int) (lvl m : Nat)
    (keep : Nat → Bool) (hr : ReachF s) (hm : 1 ≤ m) (hlv : lvl ≤ s.maxLevel) :
    (1 ≤ s.maxLevel ∧ s.maxLevel ≤ s.headerLen ∧ s.headerLen ≤ s.headerBacking.length) ∧
    (1 ≤ randLevel m keep ∧ randLevel m keep ≤ m) ∧
    (∀ i ∈ setHeaderWriteIdx s k lvl, i < s.headerLen) ∧
    ((SetOp s k v lvl).1.store.length = s.store.length + 1 →
      (SetOp s k v lvl).2 = s.store.length ∧
      (nodeAt (SetOp s k v lvl).1 (SetOp s k v lvl).2).levels.length = lvl) := by
  have hg := goodGeom_reachF hr
  exact ⟨hg, randLevel_bounds m keep hm, setHeaderWriteIdx_lt s k lvl hlv hg,
    fun h => setOp_insert_level s k v lvl h⟩

/-- Witness for C10 at the fresh list. -/
theorem reachable_header_and_level_bounds_witness :
    new0.maxLevel ≤ new0.headerLen ∧ randLevel 3 (fun _ => true) ≤ 3 ∧
    (∀ i ∈ setHeaderWriteIdx new0 5 2, i < new0.headerLen) ∧
    (nodeAt (SetOp new0 5 7 2).1 (SetOp new0 5 7 2).2).levels.length = 2 := by
  have h := reachable_header_and_level_bounds new0 5 7 2 3 (fun _ => true) ReachF.init
    (by decide) (by decide)
  exact ⟨h.1.2.1, h.2.1.2, h.2.2.1, (h.2.2.2 (by decide)).2⟩

/-! ### Claim C2: growth behaviour of SetMaxLevel -/

theorem chain0Aux_congr {s t : SL} (h : s.store = t.store) :
    ∀ fuel p, chain0Aux s fuel p = chain0Aux t fuel p := by
  intro fuel
  induction fuel with
  | zero => intro p; rfl
  | succ n ih =>
      intro p
      cases p with
      | none => rfl
      | some id => simp only [chain0Aux, nodeAt_congr_store h, ih]

/-- A successful `SetMaxLevel` never disturbs header slot 0 and keeps the
header geometry sound. -/
theorem setMaxLevel_slot0 {s t : SL} {lvl : Int} {old : Nat}
    (hg : goodGeom s) (h : SetMaxLevelOp s lvl = some (t, old)) :
    (headerVisible t).getD 0 none = (headerVisible s).getD 0 none := by
  obtain ⟨g1, g2, g3⟩ := hg
  have h1 : 1 ≤ s.headerLen := Nat.le_trans g1 g2
  unfold SetMaxLevelOp at h
  split at h
  · simp at h
  · rename_i hpos
    have hp1 : 1 ≤ lvl.toNat := by omega
    dsimp only at h
    split at h
    · injection h with h2
      injection h2 with ha hb
      subst ha
      rfl
    · split at h
      · rename_i hgt
        injection h with h2
        injection h2 with ha hb
        subst ha
        have c1 : 0 < shrinkScan s.headerBacking lvl.toNat s.headerLen := by
          have := shrinkScan_ge s.headerBacking lvl.toNat s.headerLen
          omega
        have c2 : 0 < s.headerLen := by omega
        simp [headerVisible, List.getD, List.get?_eq_getElem?, List.getElem?_take, c1, c2]
      · split at h
        · rename_i hcap
          injection h with h2
          injection h2 with ha hb
          subst ha
          have c1 : 0 < lvl.toNat := by omega
          have c2 : 0 < s.headerLen := by omega
          simp [headerVisible, List.getD, List.get?_eq_getElem?, List.getElem?_take, c1, c2]
        · rename_i hcap
          injection h with h2
          injection h2 with ha hb
          subst ha
          have c1 : 0 < lvl.toNat := by omega
          have c2 : 0 < s.headerLen := by omega
          have c3 : 0 < min s.headerLen s.headerBacking.length := by omega
          simp only [headerVisible, List.getD, List.get?_eq_getElem?, List.getElem?_take,
            List.getElem?_append, List.length_take]
          rw [if_pos c1, if_pos c3, if_pos c2]

/-- Claim C2 (amended): a successful `SetMaxLevel` never moves, re-levels or
relinks any node (the store, length and back are untouched); growth beyond
the backing capacity reallocates and every newly exposed slot is empty;
growth within spare capacity re-exposes the backing slots as they were.
`SetMaxLevel(1)` followed by `SetMaxLevel(128)` preserves the length and the
whole level-0 chain (hence the full key order). -/
theorem setMaxLevel_grow_amended (s : SL) (lvl : Int) (hg : goodGeom s) :
    (∀ t old, SetMaxLevelOp s lvl = some (t, old) →
      t.store = s.store ∧ t.length = s.length ∧ t.back = s.back) ∧
    (∀ t old, s.headerBacking.length < lvl.toNat → SetMaxLevelOp s lvl = some (t, old) →
      ∀ j, s.headerLen ≤ j → (headerVisible t).getD j none = none) ∧
    (∀ t1 t2 o1 o2, SetMaxLevelOp s 1 = some (t1, o1) → SetMaxLevelOp t1 128 = some (t2, o2) →
      t2.store = s.store ∧ t2.length = s.length ∧ t2.back = s.back ∧ chain0 t2 = chain0 s) := by
  obtain ⟨g1, g2, g3⟩ := hg
  refine ⟨?_, ?_, ?_⟩
  · intro t old h
    obtain ⟨a, b, c, _, _⟩ := setMaxLevel_preserves_content s lvl t old h
    exact ⟨a, b, c⟩
  · intro t old hbig h j hj
    unfold SetMaxLevelOp at h
    split at h
    · simp at h
    · rename_i hpos
      dsimp only at h
      split at h
      · rename_i he; omega
      · split at h
        · rename_i hgt; omega
        · split at h
          · rename_i hcap; omega
          · injection h with h2
            injection h2 with ha hb
            subst ha
            simp only [headerVisible, List.getD, List.get?_eq_getElem?, List.getElem?_take]
            rcases Nat.lt_or_ge j lvl.toNat with hj2 | hj2
            · rw [if_pos hj2, List.getElem?_append_right (by simp [List.length_take]; omega)]
              simp only [List.getElem?_replicate]
              split <;> rfl
            · rw [if_neg (by omega)]
              rfl
  · intro t1 t2 o1 o2 h1 h2
    have hg1 : goodGeom t1 := goodGeom_setMaxLevel ⟨g1, g2, g3⟩ h1
    obtain ⟨a1, b1, c1, d1, _⟩ := setMaxLevel_preserves_content s 1 t1 o1 h1
    obtain ⟨a2, b2, c2, d2, _⟩ := setMaxLevel_preserves_content t1 128 t2 o2 h2
    refine ⟨a2.trans a1, b2.trans b1, c2.trans c1, ?_⟩
    have hs0 : (headerVisible t2).getD 0 none = (headerVisible s).getD 0 none := by
      rw [setMaxLevel_slot0 hg1 h2, setMaxLevel_slot0 ⟨g1, g2, g3⟩ h1]
    unfold chain0
    rw [show t2.store.length = s.store.length from by rw [a2, a1]]
    rw [show FrontOp t2 = FrontOp s from hs0]
    exact chain0Aux_congr (a2.trans a1) _ _

/-! ### Toolkit: chains over the abstract entry list -/

theorem nextGT_eq_none {j : Nat} : ∀ {es : List Entry},
    nextGT j es = none ↔ ∀ e ∈ es, e.level ≤ j := by
  intro es
  induction es with
  | nil => simp [nextGT]
  | cons e rest ih =>
      by_cases h : j < e.level
      · simp only [nextGT, if_pos h]
        constructor
        · intro hc; exact absurd hc (by simp)
        · intro hall
          have := hall e (List.mem_cons_self e rest)
          omega
      · simp only [nextGT, if_neg h, ih, List.mem_cons]
        constructor
        · intro hall e2 he2
          rcases he2 with rfl | hm
          · omega
          · exact hall e2 hm
        · intro hall e2 he2
          exact hall e2 (Or.inr he2)

theorem nextGT_append {j : Nat} {a b : List Entry} (h : ∀ e ∈ a, e.level ≤ j) :
    nextGT j (a ++ b) = nextGT j b := by
  induction a with
  | nil => rfl
  | cons e rest ih =>
      have h1 : ¬ j < e.level := by
        have := h e (List.mem_cons_self e rest)
        omega
      rw [List.cons_append, nextGT, if_neg h1]
      exact ih fun e2 he2 => h e2 (List.mem_cons_of_mem _ he2)

theorem nextGT_cons_gt {j : Nat} {e : Entry} (b : List Entry) (h : j < e.level) :
    nextGT j (e :: b) = some e.id := by
  simp [nextGT, h]

theorem nextGT_some {j : Nat} : ∀ {es : List Entry} {id : Nat}, nextGT j es = some id →
    ∃ a g b, es = a ++ g :: b ∧ (∀ e ∈ a, e.level ≤ j) ∧ j < g.level ∧ g.id = id := by
  intro es
  induction es with
  | nil => intro id h; simp [nextGT] at h
  | cons e rest ih =>
      intro id h
      by_cases hl : j < e.level
      · rw [nextGT, if_pos hl] at h
        injection h with h
        exact ⟨[], e, rest, rfl, by simp, hl, h⟩
      · rw [nextGT, if_neg hl] at h
        obtain ⟨a, g, b, h1, h2, h3, h4⟩ := ih h
        refine ⟨e :: a, g, b, by rw [h1]; rfl, ?_, h3, h4⟩
        intro e2 he2
        rcases List.mem_cons.mp he2 with rfl | hm
        · omega
        · exact h2 e2 hm

theorem lastGT_append (j : Nat) (a b : List Entry) :
    lastGT j (a ++ b) = match lastGT j b with
      | some r => some r
      | none => lastGT j a := by
  induction a with
  | nil =>
      rw [List.nil_append]
      cases hb : lastGT j b with
      | some r => rfl
      | none => rfl
  | cons e rest ih =>
      rw [List.cons_append, lastGT, ih]
      cases hb : lastGT j b with
      | some r => dsimp only
      | none =>
          dsimp only
          rw [lastGT]

theorem lastGT_eq_none {j : Nat} : ∀ {es : List Entry},
    lastGT j es = none ↔ ∀ e ∈ es, e.level ≤ j := by
  intro es
  induction es with
  | nil => simp [lastGT]
  | cons e rest ih =>
      rw [lastGT]
      cases hr : lastGT j rest with
      | some r =>
          dsimp only
          constructor
          · intro hc; simp at hc
          · intro hall
            have h2 : ∀ e2 ∈ rest, e2.level ≤ j :=
              fun e2 he2 => hall e2 (List.mem_cons_of_mem _ he2)
            rw [ih.mpr h2] at hr
            cases hr
      | none =>
          dsimp only
          by_cases hl : j < e.level
          · rw [if_pos hl]
            constructor
            · intro hc; simp at hc
            · intro hall
              have := hall e (List.mem_cons_self e rest)
              omega
          · rw [if_neg hl]
            constructor
            · intro _ e2 he2
              rcases List.mem_cons.mp he2 with rfl | hm
              · omega
              · exact ih.mp hr e2 hm
            · intro _; rfl

theorem lastGT_mem {j : Nat} : ∀ {es : List Entry} {r : Entry}, lastGT j es = some r →
    r ∈ es ∧ j < r.level := by
  intro es
  induction es with
  | nil => intro r h; simp [lastGT] at h
  | cons e rest ih =>
      intro r h
      rw [lastGT] at h
      cases hr : lastGT j rest with
      | some q =>
          rw [hr] at h
          dsimp only at h
          injection h with h
          subst h
          obtain ⟨h1, h2⟩ := ih hr
          exact ⟨List.mem_cons_of_mem _ h1, h2⟩
      | none =>
          rw [hr] at h
          dsimp only at h
          by_cases hl : j < e.level
          · rw [if_pos hl] at h
            injection h with h
            subst h
            exact ⟨List.mem_cons_self _ _, hl⟩
          · rw [if_neg hl] at h
            cases h

theorem lesOf_append_gesOf (k : Int) (es : List Entry) : lesOf k es ++ gesOf k es = es :=
  List.takeWhile_append_dropWhile ..

theorem mem_lesOf_lt {k : Int} {es : List Entry} {e : Entry} (h : e ∈ lesOf k es) : e.key < k := by
  have := List.mem_takeWhile_imp h
  simpa using this

theorem mem_gesOf_ge {k : Int} : ∀ {es : List Entry},
    es.Pairwise (fun a b => a.key < b.key) → ∀ e ∈ gesOf k es, k ≤ e.key := by
  intro es
  induction es with
  | nil => simp [gesOf]
  | cons e rest ih =>
      intro hs e2 he2
      rw [List.pairwise_cons] at hs
      by_cases hk : e.key < k
      · simp only [gesOf, List.dropWhile_cons, decide_eq_true hk, if_true] at he2
        exact ih hs.2 e2 he2
      · simp only [gesOf, List.dropWhile_cons, decide_eq_false hk, if_false] at he2
        rcases List.mem_cons.mp he2 with rfl | hm
        · omega
        · have := hs.1 e2 hm
          omega

theorem levelsSpec_length (lvl : Nat) (post : List Entry) :
    (levelsSpec lvl post).length = lvl := by
  simp [levelsSpec]

theorem levelsSpec_getD (lvl : Nat) (post : List Entry) (j : Nat) :
    (levelsSpec lvl post).getD j none = if j < lvl then nextGT j post else none := by
  by_cases h : j < lvl
  · simp [levelsSpec, List.getD, List.getElem?_map, List.getElem?_range, h]
  · simp only [levelsSpec, List.getD, List.get?_eq_getElem?]
    rw [List.getElem?_eq_none (by simp; omega), if_neg h]
    rfl

theorem getD_append_mid (pre : List Entry) (e : Entry) (post : List Entry) :
    (pre ++ e :: post).getD pre.length defaultEntry = e := by
  simp [List.getD, List.getElem?_append_right (Nat.le_refl pre.length)]

/-- The single node-shape fact of `Abs`, phrased on a decomposition. -/
theorem abs_nodeAt {s : SL} {es : List Entry} (hA : Abs s es) {pre : List Entry} {e : Entry}
    {post : List Entry} (h : es = pre ++ e :: post) :
    nodeAt s e.id = nodeSpec 0 pre e post := by
  have hlen : pre.length < es.length := by rw [h]; simp
  have h1 := hA.hNodes pre.length hlen
  rw [h, getD_append_mid] at h1
  have ht : (pre ++ e :: post).take pre.length = pre := List.take_left ..
  have hd : (pre ++ e :: post).drop (pre.length + 1) = post := by
    have h2 : (pre ++ e :: post).drop pre.length = e :: post := List.drop_left ..
    have h3 := List.drop_drop 1 pre.length (pre ++ e :: post)
    rw [← h3, h2]
    rfl
  rw [h1, ht, hd]

/-- Reading the header's forward pointer at a valid level. -/
theorem abs_ptr_header {s : SL} {es : List Entry} (hA : Abs s es) {j : Nat} (hj : j < 18) :
    ptrPH s none j = nextGT j es := by
  have h1 : headerVisible s = s.headerBacking := by
    rw [headerVisible, hA.hHeadLen, ← hA.hBackLen, List.take_length]
  rw [ptrPH, levelsPH, h1]
  exact hA.hHeader j hj

/-- Reading a stored node's forward pointer at a valid level. -/
theorem abs_ptr_node {s : SL} {es : List Entry} (hA : Abs s es) {pre : List Entry} {e : Entry}
    {post : List Entry} (h : es = pre ++ e :: post) {j : Nat} (hj : j < e.level) :
    ptrPH s (some e.id) j = nextGT j post := by
  rw [ptrPH, levelsPH, abs_nodeAt hA h, nodeSpec, levelsSpec_getD, if_pos hj]

theorem cmpInt_le_zero {a b : Int} : cmpInt a b ≤ 0 ↔ a ≤ b := by
  unfold cmpInt
  split
  · constructor <;> intro <;> omega
  · split
    · constructor <;> intro <;> omega
    · constructor <;> intro <;> omega

theorem cmpInt_eq_zero {a b : Int} : cmpInt a b = 0 ↔ a = b := by
  unfold cmpInt
  split
  · constructor <;> intro <;> omega
  · split
    · constructor <;> intro <;> omega
    · constructor <;> intro <;> omega

theorem cmpInt_pos {a b : Int} : 0 < cmpInt a b ↔ b < a := by
  unfold cmpInt
  split
  · constructor <;> intro <;> omega
  · split
    · constructor <;> intro <;> omega
    · constructor <;> intro <;> omega

theorem abs_key {s : SL} {es : List Entry} (hA : Abs s es) {pre : List Entry} {e : Entry}
    {post : List Entry} (h : es = pre ++ e :: post) : (nodeAt s e.id).key = e.key := by
  rw [abs_nodeAt hA h]; rfl

theorem pairwise_of_eq_append {R : Entry → Entry → Prop} {es a b : List Entry}
    (h : es = a ++ b) (hs : es.Pairwise R) : b.Pairwise R := by
  subst h
  exact hs.sublist (List.sublist_append_right a b)

theorem stopAt_append_skip {k : Int} {j : Nat} {a rest : List Entry}
    (h : ∀ e ∈ a, e.level ≤ j) : stopAt k j (a ++ rest) = stopAt k j rest := by
  induction a with
  | nil => rfl
  | cons e a2 ih =>
      rw [List.cons_append, stopAt, List.find?_cons_of_neg, ← stopAt]
      · exact ih fun e2 he2 => h e2 (List.mem_cons_of_mem _ he2)
      · have := h e (List.mem_cons_self e a2)
        simp only [Bool.and_eq_true, decide_eq_true_eq, not_and]
        intro hc
        omega

theorem stopAt_cons_true {k : Int} {j : Nat} {g : Entry} (b : List Entry)
    (h1 : j < g.level) (h2 : k ≤ g.key) : stopAt k j (g :: b) = some g := by
  rw [stopAt, List.find?_cons_of_pos]
  simp [h1, h2]

theorem stopAt_cons_false {k : Int} {j : Nat} {g : Entry} (b : List Entry)
    (h2 : ¬ k ≤ g.key) : stopAt k j (g :: b) = stopAt k j b := by
  rw [stopAt, List.find?_cons_of_neg, ← stopAt]
  simp [h2]

theorem lesOf_append_lt {k : Int} {a rest : List Entry} (h : ∀ e ∈ a, e.key < k) :
    lesOf k (a ++ rest) = a ++ lesOf k rest := by
  induction a with
  | nil => rfl
  | cons e a2 ih =>
      rw [List.cons_append, lesOf, List.takeWhile_cons_of_pos, ← lesOf]
      · rw [ih fun e2 he2 => h e2 (List.mem_cons_of_mem _ he2)]
        rfl
      · simp [h e (List.mem_cons_self e a2)]

theorem mem_lesOf_append_stop {k : Int} {g : Entry} (hg : ¬ g.key < k) :
    ∀ {a b : List Entry} {e : Entry}, e ∈ lesOf k (a ++ g :: b) → e ∈ a := by
  intro a
  induction a with
  | nil =>
      intro b e he
      rw [List.nil_append, lesOf, List.takeWhile_cons_of_neg (by simp [hg])] at he
      cases he
  | cons x a2 ih =>
      intro b e he
      by_cases hx : x.key < k
      · rw [List.cons_append, lesOf, List.takeWhile_cons_of_pos (by simp [hx])] at he
        rcases List.mem_cons.mp he with rfl | hm
        · exact List.mem_cons_self ..
        · exact List.mem_cons_of_mem _ (ih hm)
      · rw [List.cons_append, lesOf, List.takeWhile_cons_of_neg (by simp [hx])] at he
        cases he

theorem phLast_of_none {ph : Option Nat} {l : List Entry} {j : Nat}
    (h : lastGT j l = none) : phLast ph l j = ph := by
  rw [phLast, h]

theorem phLast_step {ph : Option Nat} {j : Nat} {g : Entry} (a X : List Entry)
    (hg : j < g.level) : phLast ph (a ++ g :: X) j = phLast (some g.id) X j := by
  rw [phLast, phLast, lastGT_append]
  rw [show lastGT j (g :: X) = match lastGT j X with
    | some r => some r
    | none => some g from by rw [lastGT, if_pos hg]]
  cases lastGT j X <;> rfl

/-- Reading the forward pointer at a valid search position. -/
theorem abs_ptr_phFor {s : SL} {es : List Entry} (hA : Abs s es) {pre suf : List Entry}
    {ph : Option Nat} {j : Nat} (h : es = pre ++ suf) (hp : phFor ph pre j) (hj : j < 18) :
    ptrPH s ph j = nextGT j suf := by
  rcases hp with ⟨h1, h2⟩ | ⟨p, pp, h1, h2, h3⟩
  · subst h1 h2
    rw [List.nil_append] at h
    rw [abs_ptr_header hA hj, h]
  · subst h1 h2
    exact abs_ptr_node hA (show es = pp ++ p :: suf from by rw [h]; simp) h3

/-- The inner forward walk of `Set`, characterised: it either detects the
key (first chain entry with an equal key) or ends at the last chain entry
below `k`. -/
theorem setWalk_spec {s : SL} {es : List Entry} (hA : Abs s es)
    (hs : es.Pairwise fun a b => a.key < b.key) (k : Int) (j : Nat) (hj : j < 18) :
    ∀ fuel suf pre ph, es = pre ++ suf → phFor ph pre j → suf.length < fuel →
      setWalk s k j fuel ph =
        match stopAt k j suf with
        | some g => if g.key = k then Sum.inl g.id else Sum.inr (phLast ph (lesOf k suf) j)
        | none => Sum.inr (phLast ph (lesOf k suf) j) := by
  intro fuel
  induction fuel with
  | zero => intro suf pre ph _ _ hf; omega
  | succ n ih =>
      intro suf pre ph he hp hf
      rw [setWalk, abs_ptr_phFor hA he hp hj]
      cases hn : nextGT j suf with
      | none =>
          have hall := nextGT_eq_none.mp hn
          have hstop : stopAt k j suf = none := by
            rw [stopAt, List.find?_eq_none]
            intro e he2
            simp only [Bool.and_eq_true, decide_eq_true_eq, not_and]
            intro hlev
            exact absurd hlev (by have := hall e he2; omega)
          have hlast : lastGT j (lesOf k suf) = none := by
            rw [lastGT_eq_none]
            intro e he2
            exact hall e ((List.takeWhile_sublist _).mem he2)
          rw [hstop, phLast, hlast]
      | some id =>
          obtain ⟨a, g1, b, hsuf, ha, hg1, hid⟩ := nextGT_some hn
          subst hid
          subst hsuf
          have hkey : (nodeAt s g1.id).key = g1.key :=
            abs_key hA (show es = (pre ++ a) ++ g1 :: b from by rw [he]; simp)
          have hsufs : (a ++ g1 :: b).Pairwise fun x y => x.key < y.key :=
            pairwise_of_eq_append he hs
          have halt : ∀ e ∈ a, e.key < g1.key := by
            intro e he2
            exact (List.pairwise_append.mp hsufs).2.2 e he2 g1 (List.mem_cons_self ..)
          simp only [compareKN, hkey]
          by_cases hle : k ≤ g1.key
          · rw [if_pos (cmpInt_le_zero.mpr hle)]
            by_cases heq : k = g1.key
            · rw [if_pos (cmpInt_eq_zero.mpr heq)]
              rw [stopAt_append_skip ha, stopAt_cons_true b hg1 hle]
              dsimp only
              rw [if_pos heq.symm]
            · rw [if_neg fun hc => heq (cmpInt_eq_zero.mp hc)]
              rw [stopAt_append_skip ha, stopAt_cons_true b hg1 hle]
              dsimp only
              rw [if_neg (fun hc : g1.key = k => heq hc.symm)]
              have hlast : lastGT j (lesOf k (a ++ g1 :: b)) = none := by
                rw [lastGT_eq_none]
                intro e he2
                exact ha e (mem_lesOf_append_stop (by omega) he2)
              rw [phLast_of_none hlast]
          · rw [if_neg fun hc => hle (cmpInt_le_zero.mp hc)]
            have hb : b.length < n := by
              simp only [List.length_append, List.length_cons] at hf
              omega
            rw [ih b (pre ++ a ++ [g1]) (some g1.id) (by rw [he]; simp)
              (Or.inr ⟨g1, pre ++ a, rfl, rfl, hg1⟩) hb]
            have hstop2 : stopAt k j (a ++ g1 :: b) = stopAt k j b := by
              rw [stopAt_append_skip ha, stopAt_cons_false b hle]
            have hles : lesOf k (a ++ g1 :: b) = a ++ g1 :: lesOf k b := by
              rw [lesOf_append_lt fun e he2 => by have := halt e he2; omega]
              rw [show g1 :: b = [g1] ++ b from rfl, lesOf_append_lt (by simp; omega)]
              rfl
            rw [hstop2, hles, phLast_step a (lesOf k b) hg1]

theorem nextGT_append_some {j : Nat} : ∀ {a : List Entry} {b : List Entry} {id : Nat},
    nextGT j a = some id → nextGT j (a ++ b) = some id := by
  intro a
  induction a with
  | nil => intro b id h; simp [nextGT] at h
  | cons e rest ih =>
      intro b id h
      rw [nextGT] at h
      rw [List.cons_append, nextGT]
      split at h
      · rename_i hl
        rw [if_pos hl]
        exact h
      · rename_i hl
        rw [if_neg hl]
        exact ih h

theorem mem_of_nextGT {j : Nat} {l : List Entry} {id : Nat} (h : nextGT j l = some id) :
    ∃ u ∈ l, u.id = id ∧ j < u.level := by
  obtain ⟨a, g, b, h1, _, h3, h4⟩ := nextGT_some h
  exact ⟨g, by rw [h1]; simp, h4, h3⟩

theorem lastGT_decomp {j : Nat} : ∀ {l : List Entry} {r : Entry}, lastGT j l = some r →
    ∃ l1 l2, l = l1 ++ r :: l2 ∧ ∀ e ∈ l2, e.level ≤ j := by
  intro l
  induction l with
  | nil => intro r h; simp [lastGT] at h
  | cons e rest ih =>
      intro r h
      rw [lastGT] at h
      cases hr : lastGT j rest with
      | some q =>
          rw [hr] at h
          dsimp only at h
          injection h with h
          subst h
          obtain ⟨l1, l2, h1, h2⟩ := ih hr
          exact ⟨e :: l1, l2, by rw [h1]; rfl, h2⟩
      | none =>
          rw [hr] at h
          dsimp only at h
          split at h
          · injection h with h
            subst h
            exact ⟨[], rest, rfl, lastGT_eq_none.mp hr⟩
          · cases h

theorem lastGT_append_single {j : Nat} {r : Entry} (x : List Entry) (h : j < r.level) :
    lastGT j (x ++ [r]) = some r := by
  rw [lastGT_append]
  rw [show lastGT j [r] = some r from by rw [lastGT, lastGT, if_pos h]]

theorem lesOf_gesOf_nil (k : Int) : ∀ (l : List Entry), lesOf k (gesOf k l) = [] := by
  intro l
  induction l with
  | nil => rfl
  | cons e rest ih =>
      by_cases hk : e.key < k
      · rw [gesOf, List.dropWhile_cons_of_pos (by simp [hk])]
        exact ih
      · rw [gesOf, List.dropWhile_cons_of_neg (by simp [hk])]
        rw [lesOf, List.takeWhile_cons_of_neg (by simp [hk])]

theorem abs_id_inj {es : List Entry} (hids : (liveIds es).Nodup) {u g : Entry}
    (hu : u ∈ es) (hg : g ∈ es) (h : u.id = g.id) : u = g := by
  exact List.inj_on_of_nodup_map hids hu hg h

theorem sorted_key_inj {es : List Entry} (hs : es.Pairwise fun a b => a.key < b.key)
    {e1 e2 : Entry} (h1 : e1 ∈ es) (h2 : e2 ∈ es) (hk : e1.key = e2.key) : e1 = e2 := by
  induction es with
  | nil => cases h1
  | cons x rest ih =>
      rw [List.pairwise_cons] at hs
      rcases List.mem_cons.mp h1 with rfl | hm1 <;> rcases List.mem_cons.mp h2 with rfl | hm2
      · rfl
      · have := hs.1 e2 hm2; omega
      · have := hs.1 e1 hm1; omega
      · exact ih hs.2 hm1 hm2

/-- Witness for the amended C2 at a two-element list (keys 1 and 2, levels 1
and 2): `SetMaxLevel(1)` then `SetMaxLevel(128)` preserves `Len()` (2) and
the entire level-0 chain. -/
theorem setMaxLevel_grow_amended_witness :
    ((SetMaxLevelOp (SetOp (SetOp new0 1 10 1).1 2 20 2).1 1).bind fun p =>
      SetMaxLevelOp p.1 128).map (fun p => (p.1.length, chain0 p.1)) =
      some (2, chain0 (SetOp (SetOp new0 1 10 1).1 2 20 2).1) := by
  cases h1 : SetMaxLevelOp (SetOp (SetOp new0 1 10 1).1 2 20 2).1 1 with
  | none => exact absurd h1 (setMaxLevel_pos_ne_none _ 1 (by omega))
  | some p =>
      cases h2 : SetMaxLevelOp p.1 128 with
      | none => exact absurd h2 (setMaxLevel_pos_ne_none _ 128 (by omega))
      | some q =>
          have h3 := (setMaxLevel_grow_amended (SetOp (SetOp new0 1 10 1).1 2 20 2).1 128
            ⟨by decide, by decide, by decide⟩).2.2 p.1 q.1 p.2 q.2 (by rw [Prod.mk.eta]; exact h1)
            (by rw [Prod.mk.eta]; exact h2)
          obtain ⟨_, hlen, _, hchain⟩ := h3
          have hW : (SetOp (SetOp new0 1 10 1).1 2 20 2).1.length = 2 := by decide
          simp only [h1, Option.some_bind, h2]
          simp [hlen, hchain, hW]

theorem abs_of_absD (s : SL) (es : List Entry) (h : AbsD s es) : Abs s es := by
  obtain ⟨h1, h2, h3, h4, h5, h6, h7, h8, h9, h10, h11, h12, h13⟩ := h
  exact ⟨h1, h2, h3, h4, h5, h6, h7, h8, h9, h10, h11, h12, h13⟩

theorem es_length_le_store {s : SL} {es : List Entry} (hA : Abs s es) :
    es.length ≤ s.store.length := by
  have hsub : liveIds es ⊆ List.range s.store.length := by
    intro x hx
    obtain ⟨e, he, rfl⟩ := List.mem_map.mp hx
    exact List.mem_range.mpr (hA.hIdLt e he)
  have hlen : (liveIds es).length = es.length := List.length_map ..
  calc es.length = (liveIds es).toFinset.card := by
        rw [List.toFinset_card_of_nodup hA.hIds, hlen]
    _ ≤ (List.range s.store.length).toFinset.card :=
        Finset.card_le_card fun x hx => List.mem_toFinset.mpr (hsub (List.mem_toFinset.mp hx))
    _ = s.store.length := by
        rw [List.toFinset_card_of_nodup (List.nodup_range _), List.length_range]

theorem find_pred_congr {p q : Entry → Bool} :
    ∀ {l : List Entry}, (∀ e ∈ l, p e = q e) → l.find? p = l.find? q := by
  intro l
  induction l with
  | nil => intro _; rfl
  | cons x rest ih =>
      intro h
      have hx := h x (List.mem_cons_self ..)
      by_cases hq : q x = true
      · rw [List.find?_cons_of_pos _ (by rw [hx]; exact hq), List.find?_cons_of_pos _ hq]
      · have hq2 : q x = false := by revert hq; cases q x <;> simp
        rw [List.find?_cons_of_neg _ (by rw [hx, hq2]; simp),
          List.find?_cons_of_neg _ (by rw [hq2]; simp)]
        exact ih fun e he => h e (List.mem_cons_of_mem _ he)

theorem nextGT_eq_firstGT (j : Nat) : ∀ l : List Entry, nextGT j l = posOf (firstGT j l) := by
  intro l
  induction l with
  | nil => rfl
  | cons e rest ih =>
      by_cases h : j < e.level
      · rw [nextGT, if_pos h]
        rw [show firstGT j (e :: rest) = some e from
          List.find?_cons_of_pos _ (by simpa using h)]
        rfl
      · rw [nextGT, if_neg h, ih]
        rw [show firstGT j (e :: rest) = firstGT j rest from
          List.find?_cons_of_neg _ (by simpa using h)]

theorem firstGT_eq_none {j : Nat} {l : List Entry} :
    firstGT j l = none ↔ ∀ e ∈ l, e.level ≤ j := by
  rw [firstGT, List.find?_eq_none]
  constructor
  · intro h e he
    have h2 := h e he
    simp only [decide_eq_true_eq] at h2
    omega
  · intro h e he
    simp only [decide_eq_true_eq]
    have h2 := h e he
    omega

theorem firstGT_mem {j : Nat} {l : List Entry} {g : Entry} (h : firstGT j l = some g) :
    g ∈ l ∧ j < g.level := by
  have h1 := List.mem_of_find?_eq_some h
  have h2 := List.find?_some h
  simp only [decide_eq_true_eq] at h2
  exact ⟨h1, h2⟩

theorem firstGT_some_decomp {j : Nat} : ∀ {l : List Entry} {g : Entry}, firstGT j l = some g →
    ∃ c d, l = c ++ g :: d ∧ (∀ e ∈ c, e.level ≤ j) ∧ j < g.level := by
  intro l
  induction l with
  | nil => intro g h; exact absurd h (by simp [firstGT])
  | cons x rest ih =>
      intro g h
      by_cases hx : j < x.level
      · rw [show firstGT j (x :: rest) = some x from
          List.find?_cons_of_pos _ (by simpa using hx)] at h
        injection h with h
        subst h
        exact ⟨[], rest, rfl, by simp, hx⟩
      · rw [show firstGT j (x :: rest) = firstGT j rest from
          List.find?_cons_of_neg _ (by simpa using hx)] at h
        obtain ⟨c, d, h1, h2, h3⟩ := ih h
        refine ⟨x :: c, d, by rw [h1]; rfl, ?_, h3⟩
        intro e he
        rcases List.mem_cons.mp he with rfl | hm
        · omega
        · exact h2 e hm

theorem firstGT_append_cons {j : Nat} {c d : List Entry} {g : Entry}
    (hc : ∀ e ∈ c, e.level ≤ j) (hg : j < g.level) : firstGT j (c ++ g :: d) = some g := by
  rw [firstGT, List.find?_append]
  rw [show List.find? (fun e => decide (j < e.level)) c = none from
    List.find?_eq_none.mpr fun e he => by
      simp only [decide_eq_true_eq]
      have := hc e he
      omega]
  rw [Option.none_or]
  exact List.find?_cons_of_pos _ (by simpa using hg)

theorem firstGT_none_of_le {j jp : Nat} {l : List Entry} (hle : j ≤ jp)
    (h : firstGT j l = none) : firstGT jp l = none := by
  rw [firstGT_eq_none] at h ⊢
  intro e he
  have := h e he
  omega

theorem firstGT_zero {l : List Entry} (h : ∀ e ∈ l, 1 ≤ e.level) :
    firstGT 0 l = l.head? := by
  cases l with
  | nil => rfl
  | cons e rest =>
      rw [show firstGT 0 (e :: rest) = some e from List.find?_cons_of_pos _
        (by simp only [decide_eq_true_eq]; have := h e (List.mem_cons_self ..); omega)]
      rfl

theorem gesOf_append_lt {k : Int} {a rest : List Entry} (h : ∀ e ∈ a, e.key < k) :
    gesOf k (a ++ rest) = gesOf k rest := by
  induction a with
  | nil => rfl
  | cons e a2 ih =>
      rw [List.cons_append, gesOf, List.dropWhile_cons_of_pos
        (by simp [h e (List.mem_cons_self ..)])]
      exact ih fun e2 he2 => h e2 (List.mem_cons_of_mem _ he2)

theorem mem_of_gesOf {k : Int} {l : List Entry} {e : Entry} (h : e ∈ gesOf k l) : e ∈ l :=
  (List.dropWhile_sublist _).mem h

theorem gesOf_gesOf {k : Int} {l : List Entry} (hs : l.Pairwise fun a b => a.key < b.key) :
    gesOf k (gesOf k l) = gesOf k l := by
  cases hg : gesOf k l with
  | nil => rfl
  | cons e rest =>
      have he : e ∈ gesOf k l := by rw [hg]; exact List.mem_cons_self ..
      have hke := mem_gesOf_ge hs e he
      rw [gesOf, List.dropWhile_cons_of_neg (by simp only [decide_eq_true_eq]; omega)]

theorem gesOf_eq_nil {k : Int} {l : List Entry} (h : ∀ e ∈ l, e.key < k) :
    gesOf k l = [] := by
  rw [gesOf, List.dropWhile_eq_nil_iff]
  intro x hx
  simp only [decide_eq_true_eq]
  exact h x hx

theorem stopAt_eq {k : Int} {j : Nat} {suf : List Entry}
    (hs : suf.Pairwise fun a b => a.key < b.key) :
    stopAt k j suf = firstGT j (gesOf k suf) := by
  have h1 : stopAt k j suf = stopAt k j (lesOf k suf ++ gesOf k suf) := by
    rw [lesOf_append_gesOf]
  rw [h1, stopAt, List.find?_append]
  rw [show List.find? (fun e => decide (j < e.level) && decide (k ≤ e.key)) (lesOf k suf) = none
    from List.find?_eq_none.mpr fun e he => by
      have := mem_lesOf_lt he
      simp only [Bool.and_eq_true, decide_eq_true_eq, not_and]
      intro _
      omega]
  rw [Option.none_or, firstGT]
  exact find_pred_congr fun e he => by
    have := mem_gesOf_ge hs e he
    simp [decide_eq_true this]

theorem phForS_mono {ph : Option Nat} {pre : List Entry} {jp jq : Nat} (h : phForS ph pre jp)
    (hle : jq ≤ jp) : phForS ph pre jq := by
  rcases h with ⟨h1, h2⟩ | ⟨p, pp, h1, h2, h3⟩
  · exact Or.inl ⟨h1, h2⟩
  · exact Or.inr ⟨p, pp, h1, h2, by omega⟩

theorem phForS_to_phFor {ph : Option Nat} {pre : List Entry} {j : Nat}
    (h : phForS ph pre (j + 1)) : phFor ph pre j := by
  rcases h with ⟨h1, h2⟩ | ⟨p, pp, h1, h2, h3⟩
  · exact Or.inl ⟨h1, h2⟩
  · exact Or.inr ⟨p, pp, h1, h2, by omega⟩

theorem mid_len_le {x1 y1 x2 y2 : List Entry} {g : Entry}
    (hn : (liveIds (x1 ++ g :: y1)).Nodup) (h : x1 ++ g :: y1 = x2 ++ g :: y2) :
    x1.length ≤ x2.length := by
  by_contra hgt
  have hlt : x2.length < x1.length := by omega
  have hg1 : (x2 ++ g :: y2).getD x2.length defaultEntry = g := getD_append_mid x2 g y2
  rw [← h] at hg1
  have hg2 : (x1 ++ g :: y1).getD x2.length defaultEntry = x1.getD x2.length defaultEntry := by
    simp only [List.getD, List.get?_eq_getElem?, List.getElem?_append]
    rw [if_pos hlt]
  rw [hg2] at hg1
  have hmem : g ∈ x1 := by
    have h9 : x1.getD x2.length defaultEntry = x1.get ⟨x2.length, hlt⟩ := by
      simp only [List.getD, List.get?_eq_getElem?, List.getElem?_eq_getElem hlt]
      rfl
    rw [← hg1, h9]
    exact x1.get_mem ..
  have hid : g.id ∈ liveIds x1 := List.mem_map.mpr ⟨g, hmem, rfl⟩
  rw [show liveIds (x1 ++ g :: y1) = liveIds x1 ++ g.id :: liveIds y1 from by
    simp [liveIds]] at hn
  exact (List.nodup_append.mp hn).2.2 hid (List.mem_cons_self ..)

theorem unique_mid {l x1 y1 x2 y2 : List Entry} {g : Entry} (hn : (liveIds l).Nodup)
    (h1 : l = x1 ++ g :: y1) (h2 : l = x2 ++ g :: y2) : x1 = x2 ∧ y1 = y2 := by
  subst h1
  have hlen : x1.length = x2.length :=
    Nat.le_antisymm (mid_len_le hn h2) (mid_len_le (h2 ▸ hn) h2.symm)
  obtain ⟨hx, hy⟩ := List.append_inj h2 hlen
  injection hy with _ hy
  exact ⟨hx, hy⟩

/-- The inner forward walk of `findNext`, characterised: it either detects
the key (first chain entry with an equal key), or ends at the last chain
entry below `k`, recording the stop entry as the new candidate when one
exists and keeping the old candidate otherwise. -/
theorem findWalk_spec {s : SL} {es : List Entry} (hA : Abs s es)
    (hs : es.Pairwise fun a b => a.key < b.key) (k : Int) (j : Nat) (hj : j < 18) :
    ∀ fuel suf pre ph elem, es = pre ++ suf → phFor ph pre j → suf.length < fuel →
      findWalk s k j fuel ph elem =
        match stopAt k j suf with
        | some g => if g.key = k then Sum.inl g.id
            else Sum.inr (phLast ph (lesOf k suf) j, some g.id)
        | none => Sum.inr (phLast ph (lesOf k suf) j, elem) := by
  intro fuel
  induction fuel with
  | zero => intro suf pre ph elem _ _ hf; omega
  | succ n ih =>
      intro suf pre ph elem he hp hf
      rw [findWalk, abs_ptr_phFor hA he hp hj]
      cases hn : nextGT j suf with
      | none =>
          have hall := nextGT_eq_none.mp hn
          have hstop : stopAt k j suf = none := by
            rw [stopAt, List.find?_eq_none]
            intro e he2
            simp only [Bool.and_eq_true, decide_eq_true_eq, not_and]
            intro hlev
            exact absurd hlev (by have := hall e he2; omega)
          have hlast : lastGT j (lesOf k suf) = none := by
            rw [lastGT_eq_none]
            intro e he2
            exact hall e ((List.takeWhile_sublist _).mem he2)
          rw [hstop, phLast, hlast]
      | some id =>
          obtain ⟨a, g1, b, hsuf, ha, hg1, hid⟩ := nextGT_some hn
          subst hid
          subst hsuf
          have hkey : (nodeAt s g1.id).key = g1.key :=
            abs_key hA (show es = (pre ++ a) ++ g1 :: b from by rw [he]; simp)
          have hsufs : (a ++ g1 :: b).Pairwise fun x y => x.key < y.key :=
            pairwise_of_eq_append he hs
          have halt : ∀ e ∈ a, e.key < g1.key := by
            intro e he2
            exact (List.pairwise_append.mp hsufs).2.2 e he2 g1 (List.mem_cons_self ..)
          simp only [compareKN, hkey]
          by_cases hle : k ≤ g1.key
          · rw [if_pos (cmpInt_le_zero.mpr hle)]
            by_cases heq : k = g1.key
            · rw [if_pos (cmpInt_eq_zero.mpr heq)]
              rw [stopAt_append_skip ha, stopAt_cons_true b hg1 hle]
              dsimp only
              rw [if_pos heq.symm]
            · rw [if_neg fun hc => heq (cmpInt_eq_zero.mp hc)]
              rw [stopAt_append_skip ha, stopAt_cons_true b hg1 hle]
              dsimp only
              rw [if_neg (fun hc : g1.key = k => heq hc.symm)]
              have hlast : lastGT j (lesOf k (a ++ g1 :: b)) = none := by
                rw [lastGT_eq_none]
                intro e he2
                exact ha e (mem_lesOf_append_stop (by omega) he2)
              rw [phLast_of_none hlast]
          · rw [if_neg fun hc => hle (cmpInt_le_zero.mp hc)]
            have hb : b.length < n := by
              simp only [List.length_append, List.length_cons] at hf
              omega
            rw [ih b (pre ++ a ++ [g1]) (some g1.id) elem (by rw [he]; simp)
              (Or.inr ⟨g1, pre ++ a, rfl, rfl, hg1⟩) hb]
            have hstop2 : stopAt k j (a ++ g1 :: b) = stopAt k j b := by
              rw [stopAt_append_skip ha, stopAt_cons_false b hle]
            have hles : lesOf k (a ++ g1 :: b) = a ++ g1 :: lesOf k b := by
              rw [lesOf_append_lt fun e he2 => by have := halt e he2; omega]
              rw [show g1 :: b = [g1] ++ b from rfl, lesOf_append_lt (by simp; omega)]
              rfl
            rw [hstop2, hles, phLast_step a (lesOf k b) hg1]

theorem findSkip_le (s : SL) (ph top : Option Nat) : ∀ jp, findSkip s ph top jp ≤ jp := by
  intro jp
  induction jp with
  | zero => exact Nat.le_refl 0
  | succ i ih =>
      rw [findSkip]
      by_cases hc : ptrPH s ph i = top
      · rw [if_pos hc]
        exact Nat.le_succ_of_le ih
      · rw [if_neg hc]

/-- The level-skipping loop of `findNext` only skips a level when the next
element of its chain is the same as the stop of the level just walked, so
the first chain entry at or above the search key is unchanged across all
skipped levels. -/
theorem findSkip_keeps {s : SL} {es : List Entry} (hA : Abs s es)
    {pre2 suf2 : List Entry} {ph2 : Option Nat} {j : Nat} (k : Int)
    (he : es = pre2 ++ suf2)
    (hles : ∀ e ∈ lesOf k suf2, e.level ≤ j) (hj : j < 18)
    (hph : phForS ph2 pre2 (j + 1)) :
    ∀ m, m ≤ j → firstGT m (gesOf k suf2) = firstGT j (gesOf k suf2) →
      firstGT (findSkip s ph2 (ptrPH s ph2 j) m) (gesOf k suf2) =
        firstGT j (gesOf k suf2) := by
  have hread : ∀ i, i ≤ j → ptrPH s ph2 i = nextGT i suf2 := by
    intro i hi
    exact abs_ptr_phFor hA he (phForS_to_phFor (phForS_mono hph (by omega))) (by omega)
  intro m
  induction m with
  | zero =>
      intro _ hfg
      simpa [findSkip] using hfg
  | succ i ihm =>
      intro him hfg
      rw [findSkip]
      by_cases hc : ptrPH s ph2 i = ptrPH s ph2 j
      · rw [if_pos hc]
        refine ihm (by omega) ?_
        rw [hread i (by omega), hread j (Nat.le_refl j)] at hc
        have hsplit : suf2 = lesOf k suf2 ++ gesOf k suf2 := (lesOf_append_gesOf k suf2).symm
        have hnj : nextGT j suf2 = nextGT j (gesOf k suf2) := by
          conv_lhs => rw [hsplit]
          exact nextGT_append hles
        cases hgj : firstGT j (gesOf k suf2) with
        | none =>
            have h0 : nextGT j (gesOf k suf2) = none := by
              rw [nextGT_eq_firstGT, hgj]
              rfl
            rw [hnj, h0] at hc
            have hall := nextGT_eq_none.mp hc
            rw [firstGT_eq_none]
            intro e he2
            exact hall e (by rw [hsplit]; exact List.mem_append_right _ he2)
        | some g =>
            obtain ⟨c, d, hcd, hcle, hglev⟩ := firstGT_some_decomp hgj
            have hgid : nextGT j (gesOf k suf2) = some g.id := by
              rw [nextGT_eq_firstGT, hgj]
              rfl
            rw [hnj, hgid] at hc
            obtain ⟨a, g1, b, hab, hale, hg1lev, hg1id⟩ := nextGT_some hc
            have hg1mem : g1 ∈ es := by
              rw [he, hab]
              exact List.mem_append_right _ (by simp)
            have hgmem : g ∈ es := by
              rw [he]
              refine List.mem_append_right _ ?_
              rw [hsplit, hcd]
              exact List.mem_append_right _ (by simp)
            have hg1g : g1 = g := abs_id_inj hA.hIds hg1mem hgmem hg1id
            subst hg1g
            have hdec2 : suf2 = (lesOf k suf2 ++ c) ++ g1 :: d := by
              conv_lhs => rw [hsplit]
              rw [hcd]
              simp
            have hnsuf : (liveIds suf2).Nodup := by
              have h9 : liveIds es = liveIds pre2 ++ liveIds suf2 := by
                rw [he]
                simp [liveIds]
              have h10 := hA.hIds
              rw [h9] at h10
              exact (List.nodup_append.mp h10).2.1
            obtain ⟨haeq, hbeq⟩ := unique_mid hnsuf hab hdec2
            have hcle2 : ∀ e ∈ c, e.level ≤ i := by
              intro e he2
              exact hale e (by rw [haeq]; exact List.mem_append_right _ he2)
            rw [hcd]
            exact firstGT_append_cons hcle2 hg1lev
      · rw [if_neg hc]
        exact hfg

/-- After the level-`j` walk, the search position has advanced past exactly
the below-key entries with level above `j`; repackaged as a decomposition
with the invariants needed for the remaining levels. -/
theorem advance_decomp {k : Int} {j : Nat} {pre suf : List Entry} {ph : Option Nat}
    (hssuf : suf.Pairwise fun a b => a.key < b.key)
    (hkpre : ∀ e ∈ pre, e.key < k) (hph : phForS ph pre (j + 1)) :
    ∃ pre2 suf2, pre ++ suf = pre2 ++ suf2 ∧ (∀ e ∈ pre2, e.key < k) ∧
      phForS (phLast ph (lesOf k suf) j) pre2 (j + 1) ∧
      (∀ e ∈ lesOf k suf2, e.level ≤ j) ∧ gesOf k suf2 = gesOf k suf := by
  cases hlast : lastGT j (lesOf k suf) with
  | none =>
      refine ⟨pre, suf, rfl, hkpre, ?_, lastGT_eq_none.mp hlast, rfl⟩
      have h7 : phLast ph (lesOf k suf) j = ph := by
        simp [phLast, hlast]
      rw [h7]
      exact hph
  | some p =>
      obtain ⟨l1, l2, hl, hl2⟩ := lastGT_decomp hlast
      have hpdec := lastGT_mem hlast
      have hmeml2 : ∀ e2 ∈ l2, e2 ∈ lesOf k suf := by
        intro e2 he3
        rw [hl]
        exact List.mem_append_right _ (List.mem_cons_of_mem _ he3)
      have hsufeq : suf = (l1 ++ [p]) ++ (l2 ++ gesOf k suf) := by
        conv_lhs => rw [← lesOf_append_gesOf k suf]
        rw [hl]
        simp
      have hl2les : lesOf k (l2 ++ gesOf k suf) = l2 := by
        have h8 : lesOf k (l2 ++ gesOf k suf) = l2 ++ lesOf k (gesOf k suf) :=
          lesOf_append_lt fun e2 he3 => mem_lesOf_lt (hmeml2 e2 he3)
        rw [h8, lesOf_gesOf_nil, List.append_nil]
      refine ⟨pre ++ (l1 ++ [p]), l2 ++ gesOf k suf, ?_, ?_, ?_, ?_, ?_⟩
      · rw [List.append_assoc, ← hsufeq]
      · intro e he2
        rcases List.mem_append.mp he2 with hm | hm
        · exact hkpre e hm
        · refine mem_lesOf_lt (show e ∈ lesOf k suf from ?_)
          rcases List.mem_append.mp hm with hm1 | hm1
          · rw [hl]
            exact List.mem_append_left _ hm1
          · rw [List.mem_singleton.mp hm1]
            exact hpdec.1
      · have h7 : phLast ph (lesOf k suf) j = some p.id := by
          simp [phLast, hlast]
        rw [h7]
        exact Or.inr ⟨p, pre ++ l1, by simp, rfl, by have := hpdec.2; omega⟩
      · intro e he2
        rw [hl2les] at he2
        exact hl2 e he2
      · have h9 : gesOf k (l2 ++ gesOf k suf) = gesOf k (gesOf k suf) :=
          gesOf_append_lt fun e2 he3 => mem_lesOf_lt (hmeml2 e2 he3)
        rw [h9, gesOf_gesOf hssuf]

/-- The outer loop of `findNext`: from any valid search position with at
least one level still to process (or a settled candidate), it returns the
first entry of the remaining suffix whose key is at or above `k`. -/
theorem findOuter_spec {s : SL} {es : List Entry} (hA : Abs s es) (k : Int) :
    ∀ fuel jp ph elem pre suf, es = pre ++ suf → (∀ e ∈ pre, e.key < k) →
      phForS ph pre jp → jp ≤ 18 →
      (((∀ g, firstGT jp (gesOf k suf) = some g → elem = some g.id) ∧
          (firstGT jp (gesOf k suf) = none → elem = none)) ∨
        (elem = none ∧ 1 ≤ jp)) →
      jp < fuel →
      findOuter s k fuel jp ph elem = posOf ((gesOf k suf).head?) := by
  intro fuel
  induction fuel with
  | zero => intro jp ph elem pre suf _ _ _ _ _ hf; omega
  | succ n ih =>
      intro jp ph elem pre suf he hkpre hph hjp helem hf
      cases jp with
      | zero =>
          show elem = posOf ((gesOf k suf).head?)
          rcases helem with ⟨h1, h2⟩ | ⟨_, h0⟩
          · cases hg : firstGT 0 (gesOf k suf) with
            | none =>
                rw [h2 hg]
                cases hges : gesOf k suf with
                | nil => rfl
                | cons e0 t =>
                    have he0 : e0 ∈ es := by
                      rw [he]
                      exact List.mem_append_right _
                        (mem_of_gesOf (by rw [hges]; exact List.mem_cons_self ..))
                    have hlev := (hA.hLevels e0 he0).1
                    rw [hges, firstGT_eq_none] at hg
                    have := hg e0 (List.mem_cons_self ..)
                    omega
            | some g =>
                rw [h1 g hg]
                have hlv : ∀ e ∈ gesOf k suf, 1 ≤ e.level := by
                  intro e he2
                  refine (hA.hLevels e ?_).1
                  rw [he]
                  exact List.mem_append_right _ (mem_of_gesOf he2)
                rw [firstGT_zero hlv] at hg
                rw [hg]
                rfl
          · omega
      | succ j =>
          rw [findOuter]
          have hssuf : suf.Pairwise fun a b => a.key < b.key :=
            pairwise_of_eq_append he hA.hSorted
          have hlen : suf.length < s.store.length + 1 := by
            have h1 : suf.length ≤ es.length := by
              rw [he]
              simp
            have h2 := es_length_le_store hA
            omega
          have hwalk := findWalk_spec hA hA.hSorted k j (by omega) (s.store.length + 1)
            suf pre ph elem he (phForS_to_phFor hph) hlen
          rw [stopAt_eq hssuf] at hwalk
          obtain ⟨pre2, suf2, he2p, hkpre2, hph2, hles2, hges2⟩ :=
            advance_decomp hssuf hkpre hph
          have he2 : es = pre2 ++ suf2 := he.trans he2p
          have hkeep := findSkip_keeps hA k he2 hles2 (by omega) hph2 j (Nat.le_refl j) rfl
          have hskle := findSkip_le s (phLast ph (lesOf k suf) j)
            (ptrPH s (phLast ph (lesOf k suf) j) j) j
          cases hst : firstGT j (gesOf k suf) with
          | some g =>
              rw [hst] at hwalk
              dsimp only at hwalk
              by_cases hgk : g.key = k
              · rw [if_pos hgk] at hwalk
                rw [hwalk]
                show some g.id = posOf ((gesOf k suf).head?)
                have hmem := firstGT_mem hst
                cases hges : gesOf k suf with
                | nil =>
                    rw [hges] at hmem
                    exact absurd hmem.1 (by simp)
                | cons h0 t =>
                    have hh0 : k ≤ h0.key :=
                      mem_gesOf_ge hssuf h0 (by rw [hges]; exact List.mem_cons_self ..)
                    have hsges : (gesOf k suf).Pairwise fun a b => a.key < b.key :=
                      hssuf.sublist (List.dropWhile_sublist _)
                    rw [hges] at hmem hsges
                    rcases List.mem_cons.mp hmem.1 with rfl | hm
                    · rfl
                    · have := (List.pairwise_cons.mp hsges).1 g hm
                      omega
              · rw [if_neg hgk] at hwalk
                rw [hwalk]
                dsimp only
                rw [show gesOf k suf = gesOf k suf2 from hges2.symm]
                refine ih _ _ _ pre2 suf2 he2 hkpre2
                  (phForS_mono hph2 (by omega)) (by omega) ?_ (by omega)
                rw [hges2] at hkeep ⊢
                rw [hkeep, hst]
                refine Or.inl ⟨fun g2 hg2 => ?_, fun hc => by cases hc⟩
                injection hg2 with hgg
                rw [hgg]
          | none =>
              rw [hst] at hwalk
              dsimp only at hwalk
              rw [hwalk]
              dsimp only
              have helem0 : elem = none := by
                rcases helem with ⟨_, h2⟩ | ⟨h0, _⟩
                · exact h2 (firstGT_none_of_le (by omega) hst)
                · exact h0
              rw [show gesOf k suf = gesOf k suf2 from hges2.symm]
              refine ih _ _ _ pre2 suf2 he2 hkpre2
                (phForS_mono hph2 (by omega)) (by omega) ?_ (by omega)
              rw [hges2] at hkeep ⊢
              rw [hkeep, hst]
              refine Or.inl ⟨fun g2 hg2 => ?_, fun _ => helem0⟩
              cases hg2

theorem sorted_le_getLast {es : List Entry} (hs : es.Pairwise fun a b => a.key < b.key)
    {init : List Entry} {lastE : Entry} (h : es = init ++ [lastE]) :
    ∀ e ∈ es, e.key ≤ lastE.key := by
  intro e hm
  rw [h] at hm hs
  rcases List.mem_append.mp hm with hm1 | hm1
  · have := (List.pairwise_append.mp hs).2.2 e hm1 lastE (List.mem_cons_self ..)
    omega
  · rw [List.mem_singleton.mp hm1]

/-- `findNext(nil, key)` returns the first element at or above the key. -/
theorem findNextOp_none_spec {s : SL} {es : List Entry} (hA : Abs s es) (k : Int) :
    findNextOp s none k = posOf ((gesOf k es).head?) := by
  rw [findNextOp]
  by_cases h0 : s.length = 0
  · rw [if_pos h0]
    have hlen := hA.hLen
    rw [h0] at hlen
    have hes : es = [] := List.length_eq_zero.mp hlen.symm
    rw [hes]
    rfl
  · rw [if_neg h0]
    obtain ⟨e0, rest, he⟩ : ∃ e0 rest, es = e0 :: rest := by
      cases hc : es with
      | nil =>
          rw [hA.hLen, hc] at h0
          exact absurd rfl h0
      | cons a b => exact ⟨a, b, rfl⟩
    have hlev0 : (0 : Nat) < e0.level := by
      have := (hA.hLevels e0 (by rw [he]; exact List.mem_cons_self ..)).1
      omega
    have hfront : FrontOp s = some e0.id := by
      have h1 : FrontOp s = ptrPH s none 0 := rfl
      rw [h1, abs_ptr_header hA (by omega), he]
      exact nextGT_cons_gt rest hlev0
    have hkey0 : (nodeAt s e0.id).key = e0.key :=
      abs_key hA (show es = [] ++ e0 :: rest from by rw [he]; rfl)
    rw [hfront]
    simp only [Option.getD]
    simp only [hkey0]
    by_cases hc1 : k ≤ e0.key
    · rw [if_pos (cmpInt_le_zero.mpr hc1)]
      have hges : gesOf k es = e0 :: rest := by
        rw [he, gesOf, List.dropWhile_cons_of_neg (by simp only [decide_eq_true_eq]; omega)]
      rw [hges]
      rfl
    · rw [if_neg fun hcc => hc1 (cmpInt_le_zero.mp hcc)]
      obtain ⟨init, lastE, hl⟩ : ∃ init lastE, es = init ++ [lastE] := by
        rcases List.eq_nil_or_concat es with hnil | ⟨L, b, hLb⟩
        · rw [hA.hLen, hnil] at h0
          exact absurd rfl h0
        · exact ⟨L, b, by rw [hLb, List.concat_eq_append]⟩
      have hback : s.back = some lastE.id := by
        rw [hA.hBack, hl, List.getLast?_concat]
        rfl
      have hkeyL : (nodeAt s lastE.id).key = lastE.key :=
        abs_key hA (show es = init ++ lastE :: [] from hl)
      rw [hback]
      simp only [Option.getD]
      simp only [hkeyL]
      by_cases hc2 : lastE.key < k
      · rw [if_pos (cmpInt_pos.mpr hc2)]
        have hall : ∀ e ∈ es, e.key < k := by
          intro e hm
          have := sorted_le_getLast hA.hSorted hl e hm
          omega
        rw [gesOf_eq_nil hall]
        rfl
      · rw [if_neg fun hcc => hc2 (cmpInt_pos.mp hcc)]
        have hlen18 : lenPH s none = 18 := by
          simp [lenPH, levelsPH, headerVisible, hA.hHeadLen, hA.hBackLen]
        rw [hlen18]
        exact findOuter_spec hA k 19 18 none none [] es rfl (by simp)
          (Or.inl ⟨rfl, rfl⟩) (by omega) (Or.inr ⟨rfl, by omega⟩) (by omega)

/-- `findNext(start, key)` for a live starting node: the start itself when
its key is at or above `k`, else the first later element at or above `k`. -/
theorem findNextOp_start_spec {s : SL} {es : List Entry} (hA : Abs s es) (k : Int)
    {pre0 : List Entry} {es2 : Entry} {suf : List Entry} (he : es = pre0 ++ es2 :: suf) :
    findNextOp s (some es2.id) k =
      if k ≤ es2.key then some es2.id else posOf ((gesOf k suf).head?) := by
  rw [findNextOp]
  have h0 : ¬ s.length = 0 := by
    rw [hA.hLen, he]
    simp
  rw [if_neg h0]
  have hkeyS : (nodeAt s es2.id).key = es2.key := abs_key hA he
  simp only [hkeyS]
  by_cases hc1 : k ≤ es2.key
  · rw [if_pos (cmpInt_le_zero.mpr hc1), if_pos hc1]
  · rw [if_neg (fun hcc => hc1 (cmpInt_le_zero.mp hcc)), if_neg hc1]
    have hesk : es2.key < k := by omega
    obtain ⟨init, lastE, hl⟩ : ∃ init lastE, es = init ++ [lastE] := by
      rcases List.eq_nil_or_concat es with hnil | ⟨L, b, hLb⟩
      · rw [hnil] at he
        exact absurd he.symm (by simp)
      · exact ⟨L, b, by rw [hLb, List.concat_eq_append]⟩
    have hback : s.back = some lastE.id := by
      rw [hA.hBack, hl, List.getLast?_concat]
      rfl
    have hkeyL : (nodeAt s lastE.id).key = lastE.key :=
      abs_key hA (show es = init ++ lastE :: [] from hl)
    rw [hback]
    simp only [Option.getD]
    simp only [hkeyL]
    by_cases hc2 : lastE.key < k
    · rw [if_pos (cmpInt_pos.mpr hc2)]
      have hall : ∀ e ∈ suf, e.key < k := by
        intro e hm
        have hin : e ∈ es := by
          rw [he]
          exact List.mem_append_right _ (List.mem_cons_of_mem _ hm)
        have := sorted_le_getLast hA.hSorted hl e hin
        omega
      rw [gesOf_eq_nil hall]
      rfl
    · rw [if_neg fun hcc => hc2 (cmpInt_pos.mp hcc)]
      have hnode := abs_nodeAt hA he
      have hlenS : lenPH s (some es2.id) = es2.level := by
        simp [lenPH, levelsPH, hnode, nodeSpec, levelsSpec_length]
      rw [hlenS]
      have hlevS := hA.hLevels es2
        (by rw [he]; exact List.mem_append_right _ (List.mem_cons_self ..))
      have hkpre : ∀ e ∈ pre0 ++ [es2], e.key < k := by
        intro e hm
        rcases List.mem_append.mp hm with hm1 | hm1
        · have hp := hA.hSorted
          rw [he] at hp
          have := (List.pairwise_append.mp hp).2.2 e hm1 es2 (List.mem_cons_self ..)
          omega
        · rw [List.mem_singleton.mp hm1]
          exact hesk
      exact findOuter_spec hA k (es2.level + 1) es2.level (some es2.id) none
        (pre0 ++ [es2]) suf (by rw [he]; simp) hkpre
        (Or.inr ⟨es2, pre0, rfl, rfl, Nat.le_refl _⟩) (by omega)
        (Or.inr ⟨rfl, by omega⟩) (by omega)

/-- `Get(key)`: the element with exactly the key, else absent. -/
theorem getOp_spec {s : SL} {es : List Entry} (hA : Abs s es) (k : Int) :
    GetOp s k = posOf (findEq k es) := by
  have hf := findNextOp_none_spec hA k
  rw [GetOp]
  cases hges : (gesOf k es).head? with
  | none =>
      rw [hges] at hf
      rw [show posOf (none : Option Entry) = none from rfl] at hf
      rw [hf]
      have hnil : gesOf k es = [] := by
        cases hg3 : gesOf k es with
        | nil => rfl
        | cons a t =>
            rw [hg3] at hges
            cases hges
      have hfe : findEq k es = none := by
        rw [findEq, List.find?_eq_none]
        intro e hm
        simp only [decide_eq_true_eq]
        have h2 : es = lesOf k es := by
          conv_lhs => rw [← lesOf_append_gesOf k es]
          rw [hnil, List.append_nil]
        rw [h2] at hm
        have := mem_lesOf_lt hm
        omega
      rw [hfe]
      rfl
  | some g0 =>
      rw [hges] at hf
      rw [show posOf (some g0) = some g0.id from rfl] at hf
      rw [hf]
      dsimp only
      obtain ⟨t, hg2⟩ : ∃ t, gesOf k es = g0 :: t := by
        cases hg3 : gesOf k es with
        | nil =>
            rw [hg3] at hges
            cases hges
        | cons a t2 =>
            rw [hg3] at hges
            injection hges with h
            exact ⟨t2, by rw [h]⟩
      have hdec : es = lesOf k es ++ g0 :: t := by
        conv_lhs => rw [← lesOf_append_gesOf k es]
        rw [hg2]
      have hkey := abs_key hA hdec
      simp only [hkey]
      have hg0ges : g0 ∈ gesOf k es := by
        rw [hg2]
        exact List.mem_cons_self ..
      have hg0ge : k ≤ g0.key := mem_gesOf_ge hA.hSorted g0 hg0ges
      by_cases hgk : g0.key = k
      · rw [if_neg fun hc => hc (cmpInt_eq_zero.mpr hgk.symm)]
        have hfe : findEq k es = some g0 := by
          rw [findEq, hdec, List.find?_append]
          rw [show List.find? (fun e => decide (e.key = k)) (lesOf k es) = none from
            List.find?_eq_none.mpr fun e hm => by
              have := mem_lesOf_lt hm
              simp only [decide_eq_true_eq]
              omega]
          rw [Option.none_or]
          exact List.find?_cons_of_pos _ (by simp [hgk])
        rw [hfe]
        rfl
      · rw [if_pos fun hc => hgk (cmpInt_eq_zero.mp hc).symm]
        have hfe : findEq k es = none := by
          rw [findEq, List.find?_eq_none]
          intro e hm
          simp only [decide_eq_true_eq]
          intro hek
          rw [hdec] at hm
          rcases List.mem_append.mp hm with hm1 | hm1
          · have := mem_lesOf_lt hm1
            omega
          · have hein : e ∈ gesOf k es := by
              rw [hg2]
              exact hm1
            have hek2 : k ≤ e.key := mem_gesOf_ge hA.hSorted e hein
            have hsges : (gesOf k es).Pairwise fun a b => a.key < b.key :=
              hA.hSorted.sublist (List.dropWhile_sublist _)
            rw [hg2] at hsges
            rcases List.mem_cons.mp hm1 with rfl | hm2
            · exact hgk hek
            · have := (List.pairwise_cons.mp hsges).1 e hm2
              omega
        rw [hfe]
        rfl

/-- Claim C6: on a well-formed list, `Find(key)` returns the first stored
element whose key is at or above `key` (absent when no such element
exists); `Get(key)` returns the element whose key compares equal to `key`,
else absent; and `FindNext(start, key)` for a live starting node returns
`start` itself when its key is at or above `key`, and otherwise the first
element after `start` whose key is at or above `key` (absent when none). -/
theorem find_findNext_get_semantics (s : SL) (es : List Entry) (k : Int) (hA : Abs s es) :
    FindOp s k = posOf ((gesOf k es).head?) ∧
    GetOp s k = posOf (findEq k es) ∧
    ∀ pre0 es2 suf, es = pre0 ++ es2 :: suf →
      FindNextOp s (some es2.id) k =
        if k ≤ es2.key then some es2.id else posOf ((gesOf k suf).head?) := by
  refine ⟨findNextOp_none_spec hA k, getOp_spec hA k, ?_⟩
  intro pre0 es2 suf he
  exact findNextOp_start_spec hA k he

/-- Witness for C6 at the two-element state (keys 5 and 7) and key 6. -/
theorem find_findNext_get_semantics_witness :
    AbsD wfState1 wfEntries1 ∧
    FindOp wfState1 6 = posOf ((gesOf 6 wfEntries1).head?) ∧
    GetOp wfState1 6 = posOf (findEq 6 wfEntries1) ∧
    FindNextOp wfState1 (some 0) 6 =
      (if (6 : Int) ≤ 5 then some 0
       else posOf ((gesOf 6 [{ id := 1, key := 7, value := 70, level := 2 }]).head?)) := by
  have h := find_findNext_get_semantics wfState1 wfEntries1 6
    (abs_of_absD wfState1 wfEntries1 (by decide))
  exact ⟨by decide, h.1, h.2.1,
    h.2.2 [] { id := 0, key := 5, value := 50, level := 1 }
      [{ id := 1, key := 7, value := 70, level := 2 }] (by decide)⟩

/-- Counterexample for C8 as stated: on the singleton list holding key 10
(built by one `Set` on a fresh list), key 5 is not present (`Get` is
absent) yet `Find(5)` returns a node, not an absent result. -/
theorem find_notfound_counterexample :
    GetOp (SetOp new0 10 1 1).1 5 = none ∧ FindOp (SetOp new0 10 1 1).1 5 ≠ none := by
  decide

/-- Claim C8 (amended): for a key not present in a well-formed list, `Get`
returns an explicit absent result and `Remove` returns absent leaving the
state unchanged; `Find` and `FindNext` return an absent result when no
element at or above the key exists (otherwise they return the ceiling
node); and on an empty list `RemoveFront` and `RemoveBack` return absent
with the state unchanged and the length still 0.  None of these signal an
error. -/
theorem notfound_absent_amended (s : SL) (es : List Entry) (k : Int) (hA : Abs s es)
    (hk : findEq k es = none) :
    GetOp s k = none ∧ RemoveOp s k = (none, s) ∧
    ((∀ e ∈ es, e.key < k) → FindOp s k = none) ∧
    (∀ pre0 es2 suf, es = pre0 ++ es2 :: suf → ¬ k ≤ es2.key → (∀ e ∈ suf, e.key < k) →
      FindNextOp s (some es2.id) k = none) ∧
    (s.length = 0 → RemoveFrontOp s = (none, s) ∧ RemoveBackOp s = (none, s) ∧ LenOp s = 0) := by
  have hget : GetOp s k = none := by
    rw [getOp_spec hA k, hk]
    rfl
  refine ⟨hget, ?_, ?_, ?_, ?_⟩
  · rw [RemoveOp, hget]
  · intro hall
    rw [show FindOp s k = findNextOp s none k from rfl, findNextOp_none_spec hA k,
      gesOf_eq_nil hall]
    rfl
  · intro pre0 es2 suf he hc hall
    rw [show FindNextOp s (some es2.id) k = findNextOp s (some es2.id) k from rfl,
      findNextOp_start_spec hA k he, if_neg hc, gesOf_eq_nil hall]
    rfl
  · intro h0
    refine ⟨?_, ?_, h0⟩
    · rw [RemoveFrontOp, if_pos h0]
    · rw [RemoveBackOp, if_pos h0]

/-- Witness for the amended C8 on the empty list with key 5. -/
theorem notfound_absent_amended_witness :
    AbsD new0 [] ∧ findEq 5 [] = none ∧
    GetOp new0 5 = none ∧ RemoveOp new0 5 = (none, new0) ∧
    RemoveFrontOp new0 = (none, new0) ∧ RemoveBackOp new0 = (none, new0) ∧ LenOp new0 = 0 := by
  have h := notfound_absent_amended new0 [] 5 (abs_of_absD new0 [] (by decide)) (by decide)
  exact ⟨by decide, by decide, h.1, h.2.1, (h.2.2.2.2 rfl).1, (h.2.2.2.2 rfl).2.1,
    (h.2.2.2.2 rfl).2.2⟩

theorem liveIds_suffix_nodup {es pre suf : List Entry} (hn : (liveIds es).Nodup)
    (he : es = pre ++ suf) : (liveIds suf).Nodup := by
  have h9 : liveIds es = liveIds pre ++ liveIds suf := by
    rw [he]
    simp [liveIds]
  rw [h9] at hn
  exact (List.nodup_append.mp hn).2.1

theorem setSkip_fst_le (s : SL) (ph top : Option Nat) :
    ∀ jp acc, (setSkip s ph top jp acc).1 ≤ jp := by
  intro jp
  induction jp with
  | zero => intro acc; exact Nat.le_refl 0
  | succ i ih =>
      intro acc
      rw [setSkip]
      by_cases hc : ptrPH s ph i = top
      · rw [if_pos hc]
        exact Nat.le_succ_of_le (ih _)
      · rw [if_neg hc]

theorem setSkip_lower (s : SL) (ph top : Option Nat) {m : Nat}
    (hm : ptrPH s ph (m - 1) ≠ top) (hm1 : 1 ≤ m) :
    ∀ jp acc, m ≤ jp → m ≤ (setSkip s ph top jp acc).1 := by
  intro jp
  induction jp with
  | zero => intro acc h; omega
  | succ i ih =>
      intro acc h
      rw [setSkip]
      by_cases hc : ptrPH s ph i = top
      · rw [if_pos hc]
        refine ih _ ?_
        rcases Nat.lt_or_ge m (i + 1) with h2 | h2
        · omega
        · have h3 : m = i + 1 := by omega
          rw [h3] at hm
          simp only [Nat.add_sub_cancel] at hm
          exact absurd hc hm
      · rw [if_neg hc]
        exact h

theorem findEq_decomp {k : Int} : ∀ {es : List Entry} {ek : Entry}, findEq k es = some ek →
    ∃ a b, es = a ++ ek :: b ∧ ek.key = k ∧ ∀ e ∈ a, e.key ≠ k := by
  intro es
  induction es with
  | nil => intro ek h; exact absurd h (by simp [findEq])
  | cons x rest ih =>
      intro ek h
      by_cases hx : x.key = k
      · rw [findEq, List.find?_cons_of_pos _ (by simp [hx])] at h
        injection h with h
        subst h
        exact ⟨[], rest, rfl, hx, by simp⟩
      · rw [findEq, List.find?_cons_of_neg _ (by simp [hx])] at h
        obtain ⟨a, b, h1, h2, h3⟩ := ih h
        refine ⟨x :: a, b, by rw [h1]; rfl, h2, ?_⟩
        intro e he2
        rcases List.mem_cons.mp he2 with rfl | hm
        · exact hx
        · exact h3 e hm

/-- The entry found by an exact-key search is the head of the at-or-above
segment. -/
theorem findEq_head_ges {es : List Entry} (hs : es.Pairwise fun a b => a.key < b.key)
    {k : Int} {ek : Entry} (hfe : findEq k es = some ek) :
    (gesOf k es).head? = some ek ∧ ek.key = k := by
  have hkey : ek.key = k := by
    have := List.find?_some hfe
    simpa using this
  refine ⟨?_, hkey⟩
  cases hges : (gesOf k es).head? with
  | none =>
      have hnil : gesOf k es = [] := by
        cases hg3 : gesOf k es with
        | nil => rfl
        | cons a t =>
            rw [hg3] at hges
            cases hges
      have h2 : es = lesOf k es := by
        conv_lhs => rw [← lesOf_append_gesOf k es]
        rw [hnil, List.append_nil]
      have hm := List.mem_of_find?_eq_some hfe
      rw [h2] at hm
      have := mem_lesOf_lt hm
      omega
  | some g0 =>
      obtain ⟨t, hg2⟩ : ∃ t, gesOf k es = g0 :: t := by
        cases hg3 : gesOf k es with
        | nil =>
            rw [hg3] at hges
            cases hges
        | cons a t2 =>
            rw [hg3] at hges
            injection hges with h
            exact ⟨t2, by rw [h]⟩
      have hekm := List.mem_of_find?_eq_some hfe
      have hdec : es = lesOf k es ++ g0 :: t := by
        conv_lhs => rw [← lesOf_append_gesOf k es]
        rw [hg2]
      have hekges : ek ∈ g0 :: t := by
        rw [hdec] at hekm
        rcases List.mem_append.mp hekm with hm1 | hm1
        · have := mem_lesOf_lt hm1
          omega
        · exact hm1
      have hg0ge : k ≤ g0.key := mem_gesOf_ge hs g0 (by rw [hg2]; exact List.mem_cons_self ..)
      have hsges : (gesOf k es).Pairwise fun a b => a.key < b.key :=
        hs.sublist (List.dropWhile_sublist _)
      rw [hg2] at hsges
      rcases List.mem_cons.mp hekges with rfl | hm2
      · rfl
      · have := (List.pairwise_cons.mp hsges).1 ek hm2
        omega

/-- When the key is present, `Set`'s search always returns through the
update-in-place early exit, with the present entry's node. -/
theorem setSearch_hit {s : SL} {es : List Entry} (hA : Abs s es) (k : Int) {ek : Entry}
    (hfe : findEq k es = some ek) :
    ∀ fuel jp ph acc pre suf, es = pre ++ suf → (∀ e ∈ pre, e.key < k) →
      phForS ph pre jp → jp ≤ 18 → ek.level ≤ jp → jp < fuel →
      setSearch s k fuel jp ph acc = Sum.inl ek.id := by
  have hhead := findEq_head_ges hA.hSorted hfe
  have hekes := List.mem_of_find?_eq_some hfe
  have heklev := hA.hLevels ek hekes
  intro fuel
  induction fuel with
  | zero => intro jp ph acc pre suf _ _ _ _ _ hf; omega
  | succ n ih =>
      intro jp ph acc pre suf he hkpre hph hjp heklvl hf
      cases jp with
      | zero => omega
      | succ j =>
          rw [setSearch]
          have hssuf : suf.Pairwise fun a b => a.key < b.key :=
            pairwise_of_eq_append he hA.hSorted
          have hges : gesOf k suf = gesOf k es := by
            conv_rhs => rw [he]
            exact (gesOf_append_lt hkpre).symm
          have hheads : (gesOf k suf).head? = some ek := by
            rw [hges]
            exact hhead.1
          obtain ⟨t, hgt⟩ : ∃ t, gesOf k suf = ek :: t := by
            cases hg3 : gesOf k suf with
            | nil =>
                rw [hg3] at hheads
                cases hheads
            | cons a t2 =>
                rw [hg3] at hheads
                injection hheads with h5
                exact ⟨t2, by rw [h5]⟩
          have hlen : suf.length < s.store.length + 1 := by
            have h1 : suf.length ≤ es.length := by
              rw [he]
              simp
            have h2 := es_length_le_store hA
            omega
          have hwalk := setWalk_spec hA hA.hSorted k j (by omega) (s.store.length + 1)
            suf pre ph he (phForS_to_phFor hph) hlen
          rw [stopAt_eq hssuf, hgt] at hwalk
          by_cases hjek : j < ek.level
          · rw [show firstGT j (ek :: t) = some ek from
              List.find?_cons_of_pos _ (by simpa using hjek)] at hwalk
            dsimp only at hwalk
            rw [if_pos hhead.2] at hwalk
            rw [hwalk]
          · rw [show firstGT j (ek :: t) = firstGT j t from
              List.find?_cons_of_neg _ (by simpa using hjek)] at hwalk
            have hsges : (gesOf k suf).Pairwise fun a b => a.key < b.key :=
              hssuf.sublist (List.dropWhile_sublist _)
            rw [hgt] at hsges
            have hSumr : setWalk s k j (s.store.length + 1) ph =
                Sum.inr (phLast ph (lesOf k suf) j) := by
              cases hft : firstGT j t with
              | none =>
                  rw [hft] at hwalk
                  exact hwalk
              | some g =>
                  rw [hft] at hwalk
                  dsimp only at hwalk
                  have hgm := firstGT_mem hft
                  have hgk : ¬ g.key = k := by
                    have h6 := (List.pairwise_cons.mp hsges).1 g hgm.1
                    have h7 := hhead.2
                    omega
                  rw [if_neg hgk] at hwalk
                  exact hwalk
            rw [hSumr]
            dsimp only
            obtain ⟨pre2, suf2, he2p, hkpre2, hph2, hles2, hges2⟩ :=
              advance_decomp hssuf hkpre hph
            have he2 : es = pre2 ++ suf2 := he.trans he2p
            have heksuf2 : ek ∈ suf2 := by
              refine mem_of_gesOf (show ek ∈ gesOf k suf2 from ?_)
              rw [hges2, hgt]
              exact List.mem_cons_self ..
            have hneq : ptrPH s (phLast ph (lesOf k suf) j) (ek.level - 1) ≠
                ptrPH s (phLast ph (lesOf k suf) j) j := by
              have hr1 : ptrPH s (phLast ph (lesOf k suf) j) (ek.level - 1) =
                  nextGT (ek.level - 1) suf2 :=
                abs_ptr_phFor hA he2
                  (phForS_to_phFor (phForS_mono hph2 (by omega))) (by omega)
              have hr2 : ptrPH s (phLast ph (lesOf k suf) j) j = nextGT j suf2 :=
                abs_ptr_phFor hA he2
                  (phForS_to_phFor (phForS_mono hph2 (Nat.le_refl _))) (by omega)
              rw [hr1, hr2]
              have hnj : nextGT j suf2 = nextGT j (gesOf k suf2) := by
                conv_lhs => rw [(lesOf_append_gesOf k suf2).symm]
                exact nextGT_append hles2
              rw [hges2, hgt] at hnj
              rw [show nextGT j (ek :: t) = nextGT j t from by
                rw [nextGT, if_neg hjek]] at hnj
              intro hcontra
              cases hnt : nextGT j t with
              | none =>
                  rw [hnj, hnt] at hcontra
                  have hall := nextGT_eq_none.mp hcontra
                  have := hall ek heksuf2
                  omega
              | some gid =>
                  rw [hnj, hnt] at hcontra
                  obtain ⟨u, hu, huid, hulev⟩ := mem_of_nextGT hnt
                  obtain ⟨c, x9, d, hcd, hcle, hxlev, hxid⟩ := nextGT_some hcontra
                  -- x9 is the entry found at level ek.level - 1
                  have hxmem : x9 ∈ es := by
                    rw [he2, hcd]
                    exact List.mem_append_right _ (List.mem_append_right _ (by simp))
                  have humem : u ∈ es := by
                    rw [he2]
                    refine List.mem_append_right _ (mem_of_gesOf (show u ∈ gesOf k suf2 from ?_))
                    rw [hges2, hgt]
                    exact List.mem_cons_of_mem _ hu
                  have hxu : x9 = u := abs_id_inj hA.hIds hxmem humem (by rw [hxid, ← huid])
                  subst hxu
                  -- x9 ∈ t sits after ek in suf2, but its decomposition prefix c
                  -- consists of entries of level below ek.level, so ek ∈ c: absurd
                  obtain ⟨t1, t2, ht12⟩ := List.append_of_mem hu
                  have hsuf2dec : suf2 = (lesOf k suf2 ++ ek :: t1) ++ x9 :: t2 := by
                    conv_lhs => rw [(lesOf_append_gesOf k suf2).symm]
                    rw [hges2, hgt, ht12]
                    simp
                  have hnsuf2 : (liveIds suf2).Nodup := liveIds_suffix_nodup hA.hIds he2
                  obtain ⟨hceq, _⟩ := unique_mid hnsuf2 hcd hsuf2dec
                  have hekc : ek ∈ c := by
                    rw [hceq]
                    exact List.mem_append_right _ (List.mem_cons_self ..)
                  have := hcle ek hekc
                  omega
            refine ih (setSkip s (phLast ph (lesOf k suf) j)
                (ptrPH s (phLast ph (lesOf k suf) j) j) j
                (acc.set j (phLast ph (lesOf k suf) j))).1
              (phLast ph (lesOf k suf) j) _ pre2 suf2 he2 hkpre2 ?_ ?_ ?_ ?_
            · exact phForS_mono hph2 (Nat.le_succ_of_le (setSkip_fst_le ..))
            · have := setSkip_fst_le s (phLast ph (lesOf k suf) j)
                (ptrPH s (phLast ph (lesOf k suf) j) j) j
                (acc.set j (phLast ph (lesOf k suf) j))
              omega
            · exact setSkip_lower s _ _ hneq (by omega) j _ (by omega)
            · have := setSkip_fst_le s (phLast ph (lesOf k suf) j)
                (ptrPH s (phLast ph (lesOf k suf) j) j) j
                (acc.set j (phLast ph (lesOf k suf) j))
              omega

/-- When the key is present, `Set` only rewrites the found node's value and
returns the found node. -/
theorem setOp_hit {s : SL} {es : List Entry} (hA : Abs s es) (k v : Int) (lvl : Nat)
    {ek : Entry} (hfe : findEq k es = some ek) :
    SetOp s k v lvl =
      ({ s with store := s.store.set ek.id { nodeAt s ek.id with value := v } }, ek.id) := by
  rw [SetOp]
  have hne : ¬ s.length = 0 := by
    rw [hA.hLen]
    intro hc
    rw [List.length_eq_zero.mp hc] at hfe
    exact absurd hfe (by simp [findEq])
  rw [if_neg hne]
  have hsearch := setSearch_hit hA k hfe (s.headerLen + 1) s.headerLen none
    (List.replicate s.headerLen none) [] es rfl (by simp) (Or.inl ⟨rfl, rfl⟩)
    (by rw [hA.hHeadLen])
    (by rw [hA.hHeadLen]; exact (hA.hLevels ek (List.mem_of_find?_eq_some hfe)).2)
    (by omega)
  rw [hsearch]

theorem nextGT_mid_congr {j : Nat} (x y : Entry) (hid : x.id = y.id)
    (hlev : x.level = y.level) :
    ∀ a b, nextGT j (a ++ x :: b) = nextGT j (a ++ y :: b) := by
  intro a b
  induction a with
  | nil =>
      simp only [List.nil_append]
      rw [nextGT, nextGT]
      simp only [hlev, hid]
  | cons z a2 ih =>
      simp only [List.cons_append]
      rw [nextGT, nextGT, ih]

theorem ptl_mid_congr {j : Nat} (x y : Entry) (hid : x.id = y.id) (hlev : x.level = y.level) :
    ∀ a b, (lastGT j (a ++ x :: b)).map (fun e => e.id) =
      (lastGT j (a ++ y :: b)).map (fun e => e.id) := by
  intro a b
  induction a with
  | nil =>
      simp only [List.nil_append]
      rw [lastGT, lastGT]
      cases lastGT j b with
      | some r => rfl
      | none =>
          dsimp only
          simp only [hlev]
          by_cases h : j < y.level
          · rw [if_pos h, if_pos h]
            simp [hid]
          · rw [if_neg h, if_neg h]
  | cons z a2 ih =>
      simp only [List.cons_append]
      rw [lastGT, lastGT]
      cases h1 : lastGT j (a2 ++ x :: b) with
      | some r1 =>
          cases h2 : lastGT j (a2 ++ y :: b) with
          | some r2 =>
              dsimp only
              rw [h1, h2] at ih
              simpa using ih
          | none =>
              rw [h1, h2] at ih
              simp at ih
      | none =>
          cases h2 : lastGT j (a2 ++ y :: b) with
          | some r2 =>
              rw [h1, h2] at ih
              simp at ih
          | none =>
              dsimp only

theorem prevSpec_mid_congr (x y : Entry) (hid : x.id = y.id) :
    ∀ a b, prevSpec (a ++ x :: b) = prevSpec (a ++ y :: b) := by
  intro a b
  rcases List.eq_nil_or_concat b with rfl | ⟨L, c, hL⟩
  · rw [prevSpec, prevSpec, List.getLast?_concat, List.getLast?_concat]
    simp [hid]
  · rw [hL, List.concat_eq_append, prevSpec, prevSpec]
    rw [show a ++ x :: (L ++ [c]) = (a ++ x :: L) ++ [c] from by simp,
      show a ++ y :: (L ++ [c]) = (a ++ y :: L) ++ [c] from by simp,
      List.getLast?_concat, List.getLast?_concat]

theorem levelsSpec_mid_congr (lvl : Nat) (x y : Entry) (hid : x.id = y.id)
    (hlev : x.level = y.level) (c b : List Entry) :
    levelsSpec lvl (c ++ x :: b) = levelsSpec lvl (c ++ y :: b) := by
  simp only [levelsSpec]
  refine List.map_congr_left ?_
  intro j _
  exact nextGT_mid_congr x y hid hlev c b

theorem ptlSpec_mid_congr (lvl : Nat) (x y : Entry) (hid : x.id = y.id)
    (hlev : x.level = y.level) (a c : List Entry) :
    ptlSpec lvl (a ++ x :: c) = ptlSpec lvl (a ++ y :: c) := by
  rw [ptlSpec, ptlSpec]
  exact ptl_mid_congr x y hid hlev a c

theorem pairwise_mid_congr {R : Entry → Entry → Prop} {a b : List Entry} {x y : Entry}
    (hxy1 : ∀ e, R e x → R e y) (hxy2 : ∀ e, R x e → R y e)
    (h : (a ++ x :: b).Pairwise R) : (a ++ y :: b).Pairwise R := by
  rw [List.pairwise_append] at h ⊢
  obtain ⟨h1, h2, h3⟩ := h
  rw [List.pairwise_cons] at h2 ⊢
  refine ⟨h1, ⟨fun e he => hxy2 e (h2.1 e he), h2.2⟩, ?_⟩
  intro e he e2 he2
  rcases List.mem_cons.mp he2 with rfl | hm
  · exact hxy1 e (h3 e he x (List.mem_cons_self ..))
  · exact h3 e he e2 (List.mem_cons_of_mem _ hm)

theorem ids_distinct {es : List Entry} (hn : (liveIds es).Nodup) {i j : Nat}
    (hi : i < es.length) (hj : j < es.length) (hij : i ≠ j) :
    (es.getD i defaultEntry).id ≠ (es.getD j defaultEntry).id := by
  intro hc
  have hli : i < (liveIds es).length := by
    simp only [liveIds, List.length_map]
    omega
  have hlj : j < (liveIds es).length := by
    simp only [liveIds, List.length_map]
    omega
  have hdi : es.getD i defaultEntry = es.get ⟨i, hi⟩ := by
    rw [List.getD_eq_getElem es defaultEntry hi, List.get_eq_getElem]
  have hdj : es.getD j defaultEntry = es.get ⟨j, hj⟩ := by
    rw [List.getD_eq_getElem es defaultEntry hj, List.get_eq_getElem]
  rw [hdi, hdj] at hc
  have hgi : (liveIds es).get ⟨i, hli⟩ = (es.get ⟨i, hi⟩).id := by
    simp [liveIds]
  have hgj : (liveIds es).get ⟨j, hlj⟩ = (es.get ⟨j, hj⟩).id := by
    simp [liveIds]
  have h1 : (liveIds es).get ⟨i, hli⟩ = (liveIds es).get ⟨j, hlj⟩ := by
    rw [hgi, hgj]
    exact hc
  have h2 := hn.get_inj_iff.mp h1
  exact hij (congrArg Fin.val h2)

theorem getD_append_left {a l : List Entry} {i : Nat} (h : i < a.length) (d : Entry) :
    (a ++ l).getD i d = a.getD i d := by
  simp only [List.getD, List.get?_eq_getElem?, List.getElem?_append]
  rw [if_pos h]

/-- Rewriting one node's value preserves well-formedness, with the entry's
value rewritten accordingly. -/
theorem abs_set_value {s : SL} {es : List Entry} (hA : Abs s es) {a b : List Entry}
    {ek : Entry} (he : es = a ++ ek :: b) (v : Int) :
    Abs { s with store := s.store.set ek.id { nodeAt s ek.id with value := v } }
      (a ++ { ek with value := v } :: b) := by
  have hekid : ek.id < s.store.length := hA.hIdLt ek (by rw [he]; simp)
  have hids2 : liveIds (a ++ { ek with value := v } :: b) = liveIds es := by
    rw [he]
    simp [liveIds]
  have heslen : es.length = (a ++ ek :: b).length := by rw [he]
  have hgetmid : es.getD a.length defaultEntry = ek := by
    rw [he]
    exact getD_append_mid a ek b
  have halen : a.length < es.length := by
    rw [he]
    simp
  refine ⟨hA.hBackLen, hA.hHeadLen, hA.hMax, hA.hListId, ?_, ?_, ?_, ?_, ?_, ?_, ?_, ?_, ?_⟩
  · -- sorted
    have hS := hA.hSorted
    rw [he] at hS
    refine pairwise_mid_congr ?_ ?_ hS
    · exact fun e h => h
    · exact fun e h => h
  · -- levels
    intro e he2
    rcases List.mem_append.mp he2 with hm | hm
    · exact hA.hLevels e (by rw [he]; exact List.mem_append_left _ hm)
    · rcases List.mem_cons.mp hm with rfl | hm2
      · exact hA.hLevels ek (by rw [he]; simp)
      · exact hA.hLevels e
          (by rw [he]; exact List.mem_append_right _ (List.mem_cons_of_mem _ hm2))
  · -- nodup ids
    rw [hids2]
    exact hA.hIds
  · -- id bounds
    intro e he2
    show e.id < (s.store.set ek.id { nodeAt s ek.id with value := v }).length
    rw [List.length_set]
    rcases List.mem_append.mp he2 with hm | hm
    · exact hA.hIdLt e (by rw [he]; exact List.mem_append_left _ hm)
    · rcases List.mem_cons.mp hm with rfl | hm2
      · exact hA.hIdLt ek (by rw [he]; simp)
      · exact hA.hIdLt e
          (by rw [he]; exact List.mem_append_right _ (List.mem_cons_of_mem _ hm2))
  · -- header
    intro j hj
    have h1 := hA.hHeader j hj
    rw [he] at h1
    rw [← nextGT_mid_congr ek { ek with value := v } rfl rfl a b]
    exact h1
  · -- nodes
    intro i hi
    have hilen : i < es.length := by
      rw [he]
      simpa using hi
    by_cases hia : i = a.length
    · subst hia
      rw [show (a ++ { ek with value := v } :: b).getD a.length defaultEntry =
        { ek with value := v } from getD_append_mid a _ b]
      have ht : (a ++ { ek with value := v } :: b).take a.length = a := List.take_left ..
      have hd : (a ++ { ek with value := v } :: b).drop (a.length + 1) = b := by
        have h2 : (a ++ { ek with value := v } :: b).drop a.length =
            { ek with value := v } :: b := List.drop_left ..
        have h3 := List.drop_drop 1 a.length (a ++ { ek with value := v } :: b)
        rw [← h3, h2]
        rfl
      rw [ht, hd]
      show nodeAt (updNode s ek.id fun nd => { nd with value := v })
        ({ ek with value := v } : Entry).id = _
      have h4 : nodeAt (updNode s ek.id fun nd => { nd with value := v }) ek.id =
          { nodeAt s ek.id with value := v } :=
        nodeAt_updNode_self s ek.id _ hekid
      dsimp only at h4 ⊢
      rw [h4, abs_nodeAt hA he]
      rfl
    · -- untouched nodes
      have hne2 : (es.getD i defaultEntry).id ≠ ek.id := by
        rw [← hgetmid]
        exact ids_distinct hA.hIds hilen halen hia
      have hnodes := hA.hNodes i hilen
      rcases Nat.lt_or_ge i a.length with hlt | hge
      · have hget2 : (a ++ { ek with value := v } :: b).getD i defaultEntry =
            es.getD i defaultEntry := by
          rw [he, getD_append_left hlt, getD_append_left hlt]
        have htake2 : (a ++ { ek with value := v } :: b).take i = es.take i := by
          rw [he, List.take_append_of_le_length (Nat.le_of_lt hlt),
            List.take_append_of_le_length (Nat.le_of_lt hlt)]
        have hdrop1 : es.drop (i + 1) = a.drop (i + 1) ++ ek :: b := by
          rw [he, List.drop_append_of_le_length (by omega)]
        have hdrop2 : (a ++ { ek with value := v } :: b).drop (i + 1) =
            a.drop (i + 1) ++ { ek with value := v } :: b :=
          List.drop_append_of_le_length (by omega)
        rw [hget2, htake2, hdrop2]
        have hupd : nodeAt (updNode s ek.id fun nd => { nd with value := v })
            (es.getD i defaultEntry).id = nodeAt s (es.getD i defaultEntry).id :=
          nodeAt_updNode_ne s ek.id _ _ (fun hc => hne2 hc.symm)
        show nodeAt (updNode s ek.id fun nd => { nd with value := v })
          (es.getD i defaultEntry).id = _
        rw [hupd, hnodes, hdrop1]
        rw [nodeSpec, nodeSpec,
          levelsSpec_mid_congr (es.getD i defaultEntry).level ek
            { ek with value := v } rfl rfl (a.drop (i + 1)) b]
      · have hge2 : a.length < i := by omega
        have hget2 : (a ++ { ek with value := v } :: b).getD i defaultEntry =
            b.getD (i - a.length - 1) defaultEntry := by
          simp only [List.getD, List.get?_eq_getElem?,
            List.getElem?_append_right (Nat.le_of_lt hge2)]
          obtain ⟨m, hm⟩ : ∃ m, i - a.length = m + 1 := ⟨i - a.length - 1, by omega⟩
          rw [hm, Nat.add_sub_cancel, List.getElem?_cons_succ]
        have hget1 : es.getD i defaultEntry = b.getD (i - a.length - 1) defaultEntry := by
          rw [he]
          simp only [List.getD, List.get?_eq_getElem?,
            List.getElem?_append_right (Nat.le_of_lt hge2)]
          obtain ⟨m, hm⟩ : ∃ m, i - a.length = m + 1 := ⟨i - a.length - 1, by omega⟩
          rw [hm, Nat.add_sub_cancel, List.getElem?_cons_succ]
        have htake1 : es.take i = a ++ ek :: b.take (i - a.length - 1) := by
          rw [he, show i = a.length + (i - a.length) from by omega, List.take_append,
            show i - a.length = (i - a.length - 1) + 1 from by omega, List.take_succ_cons,
            show a.length + (i - a.length - 1 + 1) - a.length - 1 = i - a.length - 1 from by
              omega]
        have htake2 : (a ++ { ek with value := v } :: b).take i =
            a ++ { ek with value := v } :: b.take (i - a.length - 1) := by
          rw [show i = a.length + (i - a.length) from by omega, List.take_append,
            show i - a.length = (i - a.length - 1) + 1 from by omega, List.take_succ_cons,
            show a.length + (i - a.length - 1 + 1) - a.length - 1 = i - a.length - 1 from by
              omega]
        have hdrop1 : es.drop (i + 1) = b.drop (i - a.length) := by
          rw [he, show i + 1 = a.length + (i - a.length + 1) from by omega, List.drop_append,
            List.drop_succ_cons]
        have hdrop2 : (a ++ { ek with value := v } :: b).drop (i + 1) =
            b.drop (i - a.length) := by
          rw [show i + 1 = a.length + (i - a.length + 1) from by omega, List.drop_append,
            List.drop_succ_cons]
        rw [hget2, htake2, hdrop2]
        have hupd : nodeAt (updNode s ek.id fun nd => { nd with value := v })
            (b.getD (i - a.length - 1) defaultEntry).id =
            nodeAt s (b.getD (i - a.length - 1) defaultEntry).id := by
          refine nodeAt_updNode_ne s ek.id _ _ ?_
          rw [← hget1]
          exact fun hc => hne2 hc.symm
        show nodeAt (updNode s ek.id fun nd => { nd with value := v })
          (b.getD (i - a.length - 1) defaultEntry).id = _
        rw [hupd, ← hget1, hnodes, hget1, hdrop1, htake1]
        rw [nodeSpec, nodeSpec,
          prevSpec_mid_congr ek { ek with value := v } rfl a (b.take (i - a.length - 1)),
          ptlSpec_mid_congr (b.getD (i - a.length - 1) defaultEntry).level ek
            { ek with value := v } rfl rfl a (b.take (i - a.length - 1))]
  · -- dead nodes
    intro id hid2 hnm
    rw [hids2] at hnm
    have hid3 : id < s.store.length := by
      have : (s.store.set ek.id { nodeAt s ek.id with value := v }).length =
          s.store.length := List.length_set ..
      rw [← this]
      exact hid2
    have hne3 : ek.id ≠ id := by
      intro hc
      exact hnm (by rw [← hc]; exact List.mem_map.mpr ⟨ek, by rw [he]; simp, rfl⟩)
    have hupd : nodeAt (updNode s ek.id fun nd => { nd with value := v }) id =
        nodeAt s id := nodeAt_updNode_ne s ek.id _ _ hne3
    show (nodeAt (updNode s ek.id fun nd => { nd with value := v }) id).ownerId ≠ some 0
    rw [hupd]
    exact hA.hDead id hid3 hnm
  · -- back
    show s.back = ((a ++ { ek with value := v } :: b).getLast?.map fun e => e.id)
    rw [show ((a ++ { ek with value := v } :: b).getLast?.map fun e => e.id) =
      prevSpec (a ++ { ek with value := v } :: b) from rfl]
    rw [← prevSpec_mid_congr ek { ek with value := v } rfl a b]
    rw [show prevSpec (a ++ ek :: b) = ((a ++ ek :: b).getLast?.map fun e => e.id) from rfl]
    rw [← he]
    exact hA.hBack
  · -- length
    show s.length = (a ++ { ek with value := v } :: b).length
    rw [hA.hLen, he]
    simp

/-- Claim C5: on a list already containing the key, `Set` replaces the
stored value in place: the state changes only by rewriting the found
node's value, the returned node is the existing one with its links and
level untouched, `Len()` is unchanged, `Get` afterwards yields the new
value, and a second `Set` of the same key returns the same node again. -/
theorem set_update_in_place (s : SL) (es : List Entry) (k v v2 : Int) (lvl lvl2 : Nat)
    (ek : Entry) (hA : Abs s es) (hfe : findEq k es = some ek) :
    (SetOp s k v lvl).2 = ek.id ∧
    (SetOp s k v lvl).1 =
      { s with store := s.store.set ek.id { nodeAt s ek.id with value := v } } ∧
    LenOp (SetOp s k v lvl).1 = LenOp s ∧
    (nodeAt (SetOp s k v lvl).1 ek.id).levels = (nodeAt s ek.id).levels ∧
    (nodeAt (SetOp s k v lvl).1 ek.id).prev = (nodeAt s ek.id).prev ∧
    (nodeAt (SetOp s k v lvl).1 ek.id).prevTopLevel = (nodeAt s ek.id).prevTopLevel ∧
    GetValueOp (SetOp s k v lvl).1 k = some v ∧
    (SetOp (SetOp s k v lvl).1 k v2 lvl2).2 = ek.id := by
  have hsets := setOp_hit hA k v lvl hfe
  obtain ⟨a, b, he, hkey, ha⟩ := findEq_decomp hfe
  have hekid : ek.id < s.store.length := hA.hIdLt ek (by rw [he]; simp)
  have hA2 := abs_set_value hA he v
  have hself : nodeAt { s with
      store := s.store.set ek.id { nodeAt s ek.id with value := v } } ek.id =
      { nodeAt s ek.id with value := v } := by
    have h9 := nodeAt_updNode_self s ek.id (fun nd => { nd with value := v }) hekid
    exact h9
  have hfe2 : findEq k (a ++ { ek with value := v } :: b) = some { ek with value := v } := by
    rw [findEq, List.find?_append, show List.find? (fun e => decide (e.key = k)) a = none from
      List.find?_eq_none.mpr fun e hm => by simp [ha e hm], Option.none_or]
    exact List.find?_cons_of_pos _ (by simp [hkey])
  rw [hsets]
  refine ⟨rfl, rfl, ?_, ?_, ?_, ?_, ?_, ?_⟩
  · rfl
  · rw [hself]
  · rw [hself]
  · rw [hself]
  · have hget2 : GetOp { s with
        store := s.store.set ek.id { nodeAt s ek.id with value := v } } k =
        some ek.id := by
      rw [getOp_spec hA2 k, hfe2]
      rfl
    show GetValueOp _ k = some v
    rw [GetValueOp, hget2, Option.map_some']
    rw [hself]
  · show (SetOp _ k v2 lvl2).2 = ek.id
    rw [setOp_hit hA2 k v2 lvl2 hfe2]

/-- Witness for C5: overwriting key 5 on the concrete two-element state. -/
theorem set_update_in_place_witness :
    AbsD wfState1 wfEntries1 ∧
    findEq 5 wfEntries1 = some { id := 0, key := 5, value := 50, level := 1 } ∧
    (SetOp wfState1 5 99 1).2 = 0 ∧
    LenOp (SetOp wfState1 5 99 1).1 = LenOp wfState1 ∧
    GetValueOp (SetOp wfState1 5 99 1).1 5 = some 99 ∧
    (SetOp (SetOp wfState1 5 99 1).1 5 98 1).2 = 0 := by
  have h := set_update_in_place wfState1 wfEntries1 5 99 98 1 1
    { id := 0, key := 5, value := 50, level := 1 }
    (abs_of_absD wfState1 wfEntries1 (by decide)) (by decide)
  exact ⟨by decide, by decide, h.1, h.2.2.1, h.2.2.2.2.2.2.1, h.2.2.2.2.2.2.2⟩

theorem getD_set_self {l : List (Option Nat)} {i : Nat} (h : i < l.length) (v : Option Nat) :
    (l.set i v).getD i none = v := by
  simp only [List.getD, List.get?_eq_getElem?, List.getElem?_set_self h]
  rfl

theorem getD_set_ne {l : List (Option Nat)} {i j : Nat} (h : i ≠ j) (v : Option Nat) :
    (l.set i v).getD j none = l.getD j none := by
  simp only [List.getD, List.get?_eq_getElem?, List.getElem?_set_ne h]

/-- The level-skipping loop of `Set`: the positions it writes, the value
written, and the skip condition that held at each written position. -/
theorem setSkip_spec2 (s : SL) (ph top : Option Nat) :
    ∀ jp acc, jp ≤ acc.length →
      (setSkip s ph top jp acc).2.length = acc.length ∧
      (∀ i, i < (setSkip s ph top jp acc).1 ∨ jp ≤ i →
        (setSkip s ph top jp acc).2.getD i none = acc.getD i none) ∧
      (∀ i, (setSkip s ph top jp acc).1 ≤ i → i < jp →
        (setSkip s ph top jp acc).2.getD i none = ph ∧ ptrPH s ph i = top) := by
  intro jp
  induction jp with
  | zero =>
      intro acc _
      exact ⟨rfl, fun i _ => rfl, fun i h1 h2 => absurd h2 (by omega)⟩
  | succ i0 ih =>
      intro acc hlen
      rw [setSkip]
      by_cases hc : ptrPH s ph i0 = top
      · rw [if_pos hc]
        have hlen2 : i0 ≤ (acc.set i0 ph).length := by
          rw [List.length_set]
          omega
        obtain ⟨ha, hb, hcw⟩ := ih (acc.set i0 ph) hlen2
        have hle := setSkip_fst_le s ph top i0 (acc.set i0 ph)
        refine ⟨by rw [ha, List.length_set], ?_, ?_⟩
        · intro i hi
          have hne : i0 ≠ i := by omega
          rcases hi with hi | hi
          · rw [hb i (Or.inl hi), getD_set_ne hne]
          · rw [hb i (Or.inr (by omega)), getD_set_ne hne]
        · intro i h1 h2
          rcases Nat.lt_or_ge i i0 with h3 | h3
          · exact hcw i h1 h3
          · have h4 : i = i0 := by omega
            subst h4
            refine ⟨?_, hc⟩
            rw [hb i (Or.inr (Nat.le_refl i)), getD_set_self (by omega) ph]
      · rw [if_neg hc]
        exact ⟨rfl, fun i _ => rfl, fun i h1 h2 => absurd h1 (by omega)⟩

/-- At a level the search skips, the recorded predecessor is still the last
below-key entry whose own level is above that level. -/
theorem skip_level_settled {s : SL} {es : List Entry} (hA : Abs s es) (k : Int)
    {pre2 suf2 : List Entry} {ph2 : Option Nat} {j : Nat}
    (he2 : es = pre2 ++ suf2) (hkpre2 : ∀ e ∈ pre2, e.key < k)
    (hles2 : ∀ e ∈ lesOf k suf2, e.level ≤ j) (hj : j < 18)
    (hph2 : phForS ph2 pre2 (j + 1))
    {i : Nat} (hij : i ≤ j) (hcond : ptrPH s ph2 i = ptrPH s ph2 j) :
    posOf (lastGT i (lesOf k es)) = ph2 := by
  have hri : ptrPH s ph2 i = nextGT i suf2 :=
    abs_ptr_phFor hA he2 (phForS_to_phFor (phForS_mono hph2 (by omega))) (by omega)
  have hrj : ptrPH s ph2 j = nextGT j suf2 :=
    abs_ptr_phFor hA he2 (phForS_to_phFor (phForS_mono hph2 (Nat.le_refl _))) (by omega)
  rw [hri, hrj] at hcond
  have hles2i : ∀ e ∈ lesOf k suf2, e.level ≤ i := by
    intro x hx
    by_contra hxl
    cases hnj : nextGT j suf2 with
    | none =>
        rw [hnj] at hcond
        have hall := nextGT_eq_none.mp hcond
        have := hall x ((List.takeWhile_sublist _).mem hx)
        omega
    | some gid =>
        rw [hnj] at hcond
        obtain ⟨c, x1, d, hcd, hcle, hx1lev, hx1id⟩ := nextGT_some hcond
        obtain ⟨a1, g1, b1, hab, hale, hg1lev, hg1id⟩ := nextGT_some hnj
        have hx1mem : x1 ∈ es := by
          rw [he2, hcd]
          exact List.mem_append_right _ (List.mem_append_right _ (by simp))
        have hg1mem : g1 ∈ es := by
          rw [he2, hab]
          exact List.mem_append_right _ (List.mem_append_right _ (by simp))
        have hx1g1 : g1 = x1 :=
          (abs_id_inj hA.hIds hx1mem hg1mem (by rw [hx1id, ← hg1id])).symm
        subst hx1g1
        have hg1les : g1 ∉ lesOf k suf2 := by
          intro hm
          have := hles2 g1 hm
          omega
        have hg1ges : g1 ∈ gesOf k suf2 := by
          have h7 : g1 ∈ suf2 := by
            rw [hcd]
            exact List.mem_append_right _ (by simp)
          rcases List.mem_append.mp (by rw [lesOf_append_gesOf k suf2]; exact h7 :
            g1 ∈ lesOf k suf2 ++ gesOf k suf2) with hm | hm
          · exact absurd hm hg1les
          · exact hm
        obtain ⟨gp, gs, hgps⟩ := List.append_of_mem hg1ges
        have hdec2 : suf2 = (lesOf k suf2 ++ gp) ++ g1 :: gs := by
          conv_lhs => rw [(lesOf_append_gesOf k suf2).symm]
          rw [hgps]
          simp
        have hnsuf2 : (liveIds suf2).Nodup := liveIds_suffix_nodup hA.hIds he2
        obtain ⟨hceq, _⟩ := unique_mid hnsuf2 hcd hdec2
        have hxc : x ∈ c := by
          rw [hceq]
          exact List.mem_append_left _ hx
        have := hcle x hxc
        omega
  have hlesdec : lesOf k es = pre2 ++ lesOf k suf2 := by
    rw [he2]
    exact lesOf_append_lt hkpre2
  have hnone2 : lastGT i (lesOf k suf2) = none := lastGT_eq_none.mpr hles2i
  rw [hlesdec, lastGT_append, hnone2]
  dsimp only
  rcases hph2 with ⟨hp1, hp2⟩ | ⟨p, pp, hp1, hp2, hp3⟩
  · subst hp2
    rw [hp1]
    rfl
  · subst hp1
    rw [hp2, lastGT_append_single pp (by omega)]
    rfl

/-- At the level just walked, the advanced position is exactly the last
below-key entry whose own level is above that level. -/
theorem walk_level_settled {k : Int} {j : Nat} {pre suf : List Entry} {ph : Option Nat}
    (hkpre : ∀ e ∈ pre, e.key < k) (hph : phForS ph pre (j + 1)) :
    posOf (lastGT j (lesOf k (pre ++ suf))) = phLast ph (lesOf k suf) j := by
  have hlesdec : lesOf k (pre ++ suf) = pre ++ lesOf k suf := lesOf_append_lt hkpre
  rw [hlesdec, lastGT_append]
  cases hlast : lastGT j (lesOf k suf) with
  | some p =>
      dsimp only
      have h1 : phLast ph (lesOf k suf) j = some p.id := by
        simp [phLast, hlast]
      rw [h1]
      rfl
  | none =>
      dsimp only
      have h1 : phLast ph (lesOf k suf) j = ph := by
        simp [phLast, hlast]
      rw [h1]
      rcases hph with ⟨hp1, hp2⟩ | ⟨p, pp, hp1, hp2, hp3⟩
      · subst hp2
        rw [hp1]
        rfl
      · subst hp1
        rw [hp2, lastGT_append_single pp (by omega)]
        rfl

/-- When the key is absent, `Set`'s search returns the full vector of
per-level predecessors: at every level the last below-key entry whose own
level is above it. -/
theorem setSearch_miss {s : SL} {es : List Entry} (hA : Abs s es) (k : Int)
    (hnone : findEq k es = none) :
    ∀ fuel jp ph acc pre suf, es = pre ++ suf → (∀ e ∈ pre, e.key < k) →
      phForS ph pre jp → jp ≤ 18 → jp < fuel → acc.length = 18 →
      (∀ i, jp ≤ i → i < 18 → acc.getD i none = posOf (lastGT i (lesOf k es))) →
      ∃ F, setSearch s k fuel jp ph acc = Sum.inr F ∧ F.length = 18 ∧
        ∀ i, i < 18 → F.getD i none = posOf (lastGT i (lesOf k es)) := by
  intro fuel
  induction fuel with
  | zero => intro jp ph acc pre suf _ _ _ _ hf _ _; omega
  | succ n ih =>
      intro jp ph acc pre suf he hkpre hph hjp hf hacclen haccset
      cases jp with
      | zero =>
          refine ⟨acc, by rw [setSearch], hacclen, fun i hi => haccset i (by omega) hi⟩
      | succ j =>
          rw [setSearch]
          have hssuf := pairwise_of_eq_append he hA.hSorted
          have hlen : suf.length < s.store.length + 1 := by
            have h1 : suf.length ≤ es.length := by
              rw [he]
              simp
            have h2 := es_length_le_store hA
            omega
          have hwalk := setWalk_spec hA hA.hSorted k j (by omega) (s.store.length + 1)
            suf pre ph he (phForS_to_phFor hph) hlen
          have hSumr : setWalk s k j (s.store.length + 1) ph =
              Sum.inr (phLast ph (lesOf k suf) j) := by
            rw [hwalk]
            cases hst : stopAt k j suf with
            | none => rfl
            | some g =>
                dsimp only
                have hgm : g ∈ suf := List.mem_of_find?_eq_some hst
                have hgk : ¬ g.key = k := by
                  intro hc
                  have h8 := List.find?_eq_none.mp hnone g
                    (by rw [he]; exact List.mem_append_right _ hgm)
                  simp [hc] at h8
                rw [if_neg hgk]
          rw [hSumr]
          dsimp only
          have hwritej : phLast ph (lesOf k suf) j = posOf (lastGT j (lesOf k es)) := by
            rw [he]
            exact (walk_level_settled hkpre hph).symm
          obtain ⟨pre2, suf2, he2p, hkpre2, hph2, hles2, hges2⟩ :=
            advance_decomp hssuf hkpre hph
          have he2 : es = pre2 ++ suf2 := he.trans he2p
          have hlen2 : (acc.set j (phLast ph (lesOf k suf) j)).length = 18 := by
            rw [List.length_set, hacclen]
          obtain ⟨hsa, hsb, hsc⟩ := setSkip_spec2 s (phLast ph (lesOf k suf) j)
            (ptrPH s (phLast ph (lesOf k suf) j) j) j
            (acc.set j (phLast ph (lesOf k suf) j)) (by rw [hlen2]; omega)
          have hfle := setSkip_fst_le s (phLast ph (lesOf k suf) j)
            (ptrPH s (phLast ph (lesOf k suf) j) j) j
            (acc.set j (phLast ph (lesOf k suf) j))
          refine ih _ _ _ pre2 suf2 he2 hkpre2
            (phForS_mono hph2 (by omega)) (by omega) (by omega) (by rw [hsa, hlen2]) ?_
          intro i hi hi18
          rcases Nat.lt_or_ge i j with hij | hij
          · have h9 := hsc i hi hij
            rw [h9.1]
            exact (skip_level_settled hA k he2 hkpre2 hles2 (by omega) hph2
              (by omega) h9.2).symm
          · rcases Nat.lt_or_ge i (j + 1) with hij2 | hij2
            · have h10 : i = j := by omega
              subst h10
              rw [hsb i (Or.inr (Nat.le_refl _)), getD_set_self (by rw [hacclen]; omega) _]
              exact hwritej
            · rw [hsb i (Or.inr (by omega)), getD_set_ne (by omega) _]
              exact haccset i (by omega) hi18

theorem ptrPH_updNode_self (s : SL) (id : Nat) (f : Node → Node) (j : Nat)
    (h : id < s.store.length) :
    ptrPH (updNode s id f) (some id) j = (f (nodeAt s id)).levels.getD j none := by
  rw [ptrPH, levelsPH, nodeAt_updNode_self s id f h]

theorem ptrPH_updNode_ne (s : SL) (id : Nat) (f : Node → Node) (ph : Option Nat) (j : Nat)
    (h : ph ≠ some id) :
    ptrPH (updNode s id f) ph j = ptrPH s ph j := by
  cases ph with
  | none => rfl
  | some pid =>
      have hne : id ≠ pid := fun hc => h (by rw [hc])
      rw [ptrPH, ptrPH, levelsPH, levelsPH, nodeAt_updNode_ne s id pid f hne]

theorem ptrPH_setPtrPH_ne (s : SL) (target ph : Option Nat) (i j : Nat) (v : Option Nat)
    (h : target ≠ ph ∨ j ≠ i) :
    ptrPH (setPtrPH s target i v) ph j = ptrPH s ph j := by
  cases target with
  | none =>
      cases ph with
      | some pid => rfl
      | none =>
          have hji : j ≠ i := by
            rcases h with h | h
            · exact absurd rfl h
            · exact h
          rw [ptrPH, ptrPH, levelsPH, levelsPH]
          show (List.take s.headerLen (s.headerBacking.set i v)).getD j none =
            (List.take s.headerLen s.headerBacking).getD j none
          simp only [List.getD, List.get?_eq_getElem?, List.getElem?_take]
          by_cases hj : j < s.headerLen
          · rw [if_pos hj, if_pos hj, List.getElem?_set_ne (Ne.symm hji)]
          · rw [if_neg hj, if_neg hj]
  | some tid =>
      cases ph with
      | none => rfl
      | some pid =>
          by_cases hid : tid = pid
          · subst hid
            have hji : j ≠ i := by
              rcases h with h | h
              · exact absurd rfl h
              · exact h
            rw [ptrPH, ptrPH, levelsPH, levelsPH]
            by_cases hlt : tid < s.store.length
            · rw [show nodeAt (setPtrPH s (some tid) i v) tid =
                { nodeAt s tid with levels := (nodeAt s tid).levels.set i v } from
                  nodeAt_updNode_self s tid
                    (fun nd => { nd with levels := nd.levels.set i v }) hlt]
              dsimp only
              rw [getD_set_ne (Ne.symm hji)]
            · rw [nodeAt_out_of_range (show (setPtrPH s (some tid) i v).store.length ≤ tid
                from by simp [setPtrPH]; omega)]
              rw [nodeAt_out_of_range (by omega)]
          · rw [ptrPH, ptrPH, levelsPH, levelsPH,
              show nodeAt (setPtrPH s (some tid) i v) pid = nodeAt s pid from
                nodeAt_updNode_ne s tid pid
                  (fun nd => { nd with levels := nd.levels.set i v }) hid]

theorem ptrPH_setPtrPH_self (s : SL) (target : Option Nat) (i : Nat) (v : Option Nat)
    (hlen : i < lenPH s target) (hid : ∀ tid, target = some tid → tid < s.store.length) :
    ptrPH (setPtrPH s target i v) target i = v := by
  cases target with
  | none =>
      rw [ptrPH, levelsPH]
      show (List.take s.headerLen (s.headerBacking.set i v)).getD i none = v
      have hlen2 : i < s.headerLen ∧ i < s.headerBacking.length := by
        have h9 := hlen
        rw [lenPH, levelsPH, headerVisible, List.length_take] at h9
        omega
      simp only [List.getD, List.get?_eq_getElem?, List.getElem?_take]
      rw [if_pos hlen2.1, List.getElem?_set_self hlen2.2]
      rfl
  | some tid =>
      have htid := hid tid rfl
      rw [ptrPH, levelsPH]
      rw [show nodeAt (setPtrPH s (some tid) i v) tid =
        { nodeAt s tid with levels := (nodeAt s tid).levels.set i v } from
          nodeAt_updNode_self s tid
            (fun nd => { nd with levels := nd.levels.set i v }) htid]
      dsimp only
      rw [getD_set_self (show i < (nodeAt s tid).levels.length from by
        have h9 := hlen
        rw [lenPH, levelsPH] at h9
        exact h9) v]

theorem ptrPH_store_append (s : SL) (nd : Node) (ph : Option Nat) (j : Nat)
    (h : ∀ pid, ph = some pid → pid < s.store.length) :
    ptrPH { s with store := s.store ++ [nd] } ph j = ptrPH s ph j := by
  cases ph with
  | none => rfl
  | some pid =>
      have hp := h pid rfl
      rw [ptrPH, ptrPH, levelsPH, levelsPH]
      rw [show nodeAt { s with store := s.store ++ [nd] } pid = nodeAt s pid from by
        rw [nodeAt, nodeAt]
        show (s.store ++ [nd]).getD pid defaultNode = s.store.getD pid defaultNode
        simp only [List.getD, List.get?_eq_getElem?, List.getElem?_append]
        rw [if_pos hp]]

theorem nodeAt_store_append_self (s : SL) (nd : Node) :
    nodeAt { s with store := s.store ++ [nd] } s.store.length = nd := by
  rw [nodeAt]
  show (s.store ++ [nd]).getD s.store.length defaultNode = nd
  simp only [List.getD, List.get?_eq_getElem?,
    List.getElem?_append_right (Nat.le_refl s.store.length), Nat.sub_self]
  rfl

theorem nodeAt_store_append_old (s : SL) (nd : Node) {pid : Nat}
    (hp : pid < s.store.length) :
    nodeAt { s with store := s.store ++ [nd] } pid = nodeAt s pid := by
  rw [nodeAt, nodeAt]
  show (s.store ++ [nd]).getD pid defaultNode = s.store.getD pid defaultNode
  simp only [List.getD, List.get?_eq_getElem?, List.getElem?_append]
  rw [if_pos hp]

theorem list_eq_of_getD {l1 l2 : List (Option Nat)} (hlen : l1.length = l2.length)
    (h : ∀ j, j < l1.length → l1.getD j none = l2.getD j none) : l1 = l2 := by
  apply List.ext_getElem?
  intro n
  by_cases hn : n < l1.length
  · have h2 := h n hn
    simp only [List.getD, List.get?_eq_getElem?] at h2
    rw [List.getElem?_eq_getElem hn, List.getElem?_eq_getElem (hlen ▸ hn)]
    rw [List.getElem?_eq_getElem hn, List.getElem?_eq_getElem (hlen ▸ hn)] at h2
    simp only [Option.getD_some] at h2
    rw [h2]
  · rw [List.getElem?_eq_none (by omega), List.getElem?_eq_none (by omega)]

@[simp] theorem setPtrPH_length (s : SL) (ph : Option Nat) (i : Nat) (v : Option Nat) :
    (setPtrPH s ph i v).length = s.length := by
  cases ph <;> rfl

@[simp] theorem setPtrPH_back (s : SL) (ph : Option Nat) (i : Nat) (v : Option Nat) :
    (setPtrPH s ph i v).back = s.back := by
  cases ph <;> rfl

theorem eqExceptLevels_refl (nd : Node) : eqExceptLevels nd nd :=
  ⟨rfl, rfl, rfl, rfl, rfl, rfl⟩

theorem eqExceptLevels_trans {n1 n2 n3 : Node} (h1 : eqExceptLevels n1 n2)
    (h2 : eqExceptLevels n2 n3) : eqExceptLevels n1 n3 := by
  obtain ⟨a1, a2, a3, a4, a5, a6⟩ := h1
  obtain ⟨b1, b2, b3, b4, b5, b6⟩ := h2
  exact ⟨a1.trans b1, a2.trans b2, a3.trans b3, a4.trans b4, a5.trans b5, a6.trans b6⟩

theorem eqExceptLevels_updNode_levels (s : SL) (id : Nat)
    (L : List (Option Nat) → List (Option Nat)) (hL : ∀ l, (L l).length = l.length)
    (j : Nat) :
    eqExceptLevels (nodeAt (updNode s id fun nd => { nd with levels := L nd.levels }) j)
      (nodeAt s j) := by
  rw [nodeAt_updNode]
  split
  · exact ⟨rfl, rfl, rfl, rfl, rfl, hL _⟩
  · exact eqExceptLevels_refl _

theorem eqExceptLevels_setPtrPH (s : SL) (ph : Option Nat) (i : Nat) (v : Option Nat)
    (j : Nat) : eqExceptLevels (nodeAt (setPtrPH s ph i v) j) (nodeAt s j) := by
  cases ph with
  | none => exact eqExceptLevels_refl _
  | some id =>
      rw [show setPtrPH s (some id) i v =
        updNode s id fun nd => { nd with levels := nd.levels.set i v } from rfl]
      exact eqExceptLevels_updNode_levels s id (fun l => l.set i v)
        (fun l => List.length_set ..) j

theorem lenPH_of_inv {s1 t : SL} (hfr : frameEq s1 t)
    (hnodes : ∀ id, eqExceptLevels (nodeAt t id) (nodeAt s1 id)) (ph : Option Nat) :
    lenPH t ph = lenPH s1 ph := by
  cases ph with
  | none =>
      rw [lenPH, lenPH, levelsPH, levelsPH, headerVisible, headerVisible,
        List.length_take, List.length_take, hfr.2.1, hfr.2.2.1]
  | some pid =>
      rw [lenPH, lenPH, levelsPH, levelsPH]
      exact (hnodes pid).2.2.2.2.2

/-- The splice loop, fully characterised through `spliceInv`. -/
theorem spliceLoop_invar (nid : Nat) (F : List (Option Nat)) (lvl : Nat) (s1 : SL)
    (hnid : nid < s1.store.length)
    (hnidlen : lvl ≤ (nodeAt s1 nid).levels.length)
    (hFne : ∀ j, j < lvl → F.getD j none ≠ some nid)
    (hFid : ∀ j tid, j < lvl → F.getD j none = some tid → tid < s1.store.length)
    (hFlen : ∀ j, j < lvl → j < lenPH s1 (F.getD j none)) :
    ∀ cnt i t, i + cnt = lvl → spliceInv s1 t nid F i →
      spliceInv s1 (spliceLoop nid F i cnt t) nid F lvl := by
  intro cnt
  induction cnt with
  | zero =>
      intro i t hi hinv
      rw [Nat.add_zero] at hi
      subst hi
      exact hinv
  | succ n ih =>
      intro i t hi hinv
      rw [spliceLoop]
      obtain ⟨hfr, hlen, hback, hnodes, hhigh, hlow⟩ := hinv
      have hilvl : i < lvl := by omega
      have htstore : t.store.length = s1.store.length := hfr.1
      have hnidt : nid < t.store.length := by omega
      have hfne := hFne i hilvl
      refine ih (i + 1) _ (by omega) ?_
      have hupdsets : ∀ ph v2,
          setPtrPH (updNode t nid fun nd =>
            { nd with levels := nd.levels.set i (ptrPH t (F.getD i none) i) })
            ph i v2 = setPtrPH (updNode t nid fun nd =>
            { nd with levels := nd.levels.set i (ptrPH t (F.getD i none) i) }) ph i v2 :=
        fun _ _ => rfl
      constructor
      · exact frameEq_trans hfr (frameEq_trans (frameEq_updNode ..) (frameEq_setPtrPH ..))
      refine ⟨?_, ?_, ?_, ?_, ?_⟩
      · rw [setPtrPH_length, updNode_length]
        exact hlen
      · rw [setPtrPH_back, updNode_back]
        exact hback
      · intro id
        refine eqExceptLevels_trans (eqExceptLevels_setPtrPH ..) ?_
        refine eqExceptLevels_trans
          (eqExceptLevels_updNode_levels t nid (fun l => l.set i (ptrPH t (F.getD i none) i))
            (fun l => List.length_set ..) id) (hnodes id)
      · -- levels above i stay as in s1
        intro ph j hj
        rw [ptrPH_setPtrPH_ne _ _ _ _ _ _ (Or.inr (by omega))]
        by_cases hph : ph = some nid
        · subst hph
          rw [ptrPH_updNode_self t nid _ _ hnidt]
          dsimp only
          rw [getD_set_ne (by omega)]
          exact hhigh (some nid) j (by omega)
        · rw [ptrPH_updNode_ne t nid _ ph _ hph]
          exact hhigh ph j (by omega)
      · -- levels below i+1
        intro ph j hj
        rcases Nat.lt_or_ge j i with hji | hji
        · -- untouched below i
          rw [ptrPH_setPtrPH_ne _ _ _ _ _ _ (Or.inr (by omega))]
          by_cases hph : ph = some nid
          · subst hph
            rw [ptrPH_updNode_self t nid _ _ hnidt]
            dsimp only
            rw [getD_set_ne (by omega)]
            have h9 := hlow (some nid) j hji
            rw [if_neg (fun hc => hFne j (by omega) hc.symm)] at h9
            rw [if_pos rfl] at h9
            rw [if_neg (fun hc => hFne j (by omega) hc.symm), if_pos rfl]
            exact h9
          · rw [ptrPH_updNode_ne t nid _ ph _ hph]
            have h9 := hlow ph j hji
            by_cases hphF : ph = F.getD j none
            · rw [if_pos hphF] at h9 ⊢
              exact h9
            · rw [if_neg hphF, if_neg hph] at h9 ⊢
              exact h9
        · -- j = i, the freshly spliced level
          have hji2 : j = i := by omega
          subst hji2
          by_cases hphF : ph = F.getD j none
          · rw [if_pos hphF, hphF]
            rw [ptrPH_setPtrPH_self]
            · rw [lenPH_of_inv (frameEq_trans hfr (frameEq_updNode ..)) ?_ (F.getD j none)]
              · exact hFlen j (by omega)
              · intro id
                exact eqExceptLevels_trans
                  (eqExceptLevels_updNode_levels t nid _ (fun l => List.length_set ..) id)
                  (hnodes id)
            · intro tid htid
              have := hFid j tid (by omega) htid
              rw [updNode_storeLen]
              omega
          · rw [if_neg hphF]
            by_cases hph : ph = some nid
            · subst hph
              rw [if_pos rfl]
              rw [ptrPH_setPtrPH_ne _ _ _ _ _ _ (Or.inl hfne)]
              rw [ptrPH_updNode_self t nid _ _ hnidt]
              dsimp only
              rw [getD_set_self ?_ _]
              · exact hhigh (F.getD j none) j (Nat.le_refl _)
              · have h8 : (nodeAt t nid).levels.length = (nodeAt s1 nid).levels.length :=
                  (hnodes nid).2.2.2.2.2
                omega
            · rw [if_neg hph]
              rw [ptrPH_setPtrPH_ne _ _ _ _ _ _ (Or.inl (fun hc => hphF hc.symm))]
              rw [ptrPH_updNode_ne t nid _ ph _ hph]
              exact hhigh ph j (Nat.le_refl _)

/-- Reading the forward pointer of the recorded per-level predecessor gives
the head of the level-`j` chain of the at-or-above segment. -/
theorem read_pred {s : SL} {es : List Entry} (hA : Abs s es) (k : Int) {j : Nat} (hj : j < 18) :
    ptrPH s (posOf (lastGT j (lesOf k es))) j = nextGT j (gesOf k es) := by
  cases hlast : lastGT j (lesOf k es) with
  | none =>
      have hles : ∀ e ∈ lesOf k es, e.level ≤ j := lastGT_eq_none.mp hlast
      rw [show posOf (none : Option Entry) = none from rfl]
      rw [abs_ptr_header hA hj]
      conv_lhs => rw [show es = lesOf k es ++ gesOf k es from (lesOf_append_gesOf k es).symm]
      exact nextGT_append hles
  | some p =>
      obtain ⟨l1, l2, hl, hl2⟩ := lastGT_decomp hlast
      have hp := lastGT_mem hlast
      have hdec : es = l1 ++ p :: (l2 ++ gesOf k es) := by
        conv_lhs => rw [(lesOf_append_gesOf k es).symm]
        rw [hl]
        simp
      rw [show posOf (some p) = some p.id from rfl]
      rw [abs_ptr_node hA hdec hp.2]
      exact nextGT_append hl2

theorem spliceInv_init (s1 : SL) (nid : Nat) (F : List (Option Nat)) :
    spliceInv s1 s1 nid F 0 :=
  ⟨frameEq_refl s1, rfl, rfl, fun _ => eqExceptLevels_refl _, fun _ _ _ => rfl,
    fun _ j hj => absurd hj (by omega)⟩

theorem largestLevelScan_le (L : List (Option Nat)) : ∀ n, largestLevelScan L n ≤ n := by
  intro n
  induction n with
  | zero => exact Nat.le_refl 0
  | succ m ih =>
      rw [largestLevelScan]
      by_cases h : L.getD m none ≠ none
      · rw [if_pos h]
      · rw [if_neg h]
        exact Nat.le_succ_of_le ih

theorem largestLevelScan_above (L : List (Option Nat)) :
    ∀ n i, largestLevelScan L n ≤ i → i < n → L.getD i none = none := by
  intro n
  induction n with
  | zero => intro i h1 h2; omega
  | succ m ih =>
      intro i h1 h2
      rw [largestLevelScan] at h1
      by_cases h : L.getD m none ≠ none
      · rw [if_pos h] at h1
        omega
      · rw [if_neg h] at h1
        rcases Nat.lt_or_ge i m with h3 | h3
        · exact ih i h1 h3
        · have h4 : i = m := by omega
          subst h4
          exact not_ne_iff.mp h

theorem largestLevelScan_pos (L : List (Option Nat)) :
    ∀ n, 1 ≤ largestLevelScan L n → L.getD (largestLevelScan L n - 1) none ≠ none := by
  intro n
  induction n with
  | zero =>
      intro h
      simp [largestLevelScan] at h
  | succ m ih =>
      intro h
      rw [largestLevelScan] at h ⊢
      by_cases hc : L.getD m none ≠ none
      · rw [if_pos hc] at h ⊢
        simpa using hc
      · rw [if_neg hc] at h ⊢
        exact ih h

theorem records_mem {g : Entry} : ∀ {i : Nat} {l : List Entry}, g ∈ records i l →
    g ∈ l ∧ i < g.level := by
  intro i l
  induction l generalizing i with
  | nil => intro h; cases h
  | cons x rest ih =>
      intro h
      rw [records] at h
      by_cases hx : i < x.level
      · rw [if_pos hx] at h
        rcases List.mem_cons.mp h with rfl | hm
        · exact ⟨List.mem_cons_self .., hx⟩
        · obtain ⟨h1, h2⟩ := ih hm
          exact ⟨List.mem_cons_of_mem _ h1, by omega⟩
      · rw [if_neg hx] at h
        obtain ⟨h1, h2⟩ := ih h
        exact ⟨List.mem_cons_of_mem _ h1, h2⟩

theorem records_append_skip {i : Nat} {c l : List Entry} (h : ∀ e ∈ c, e.level ≤ i) :
    records i (c ++ l) = records i l := by
  induction c with
  | nil => rfl
  | cons x c2 ih =>
      rw [List.cons_append, records,
        if_neg (show ¬ i < x.level from by have := h x (List.mem_cons_self ..); omega)]
      exact ih fun e he => h e (List.mem_cons_of_mem _ he)

theorem records_cons_pos {i : Nat} {g : Entry} (d : List Entry) (h : i < g.level) :
    records i (g :: d) = g :: records g.level d := by
  rw [records, if_pos h]

theorem records_eq_nil {i : Nat} {l : List Entry} (h : ∀ e ∈ l, e.level ≤ i) :
    records i l = [] := by
  induction l with
  | nil => rfl
  | cons x rest ih =>
      rw [records,
        if_neg (show ¬ i < x.level from by have := h x (List.mem_cons_self ..); omega)]
      exact ih fun e he => h e (List.mem_cons_of_mem _ he)

theorem records_takeWhile_nil {i lvl : Nat} (l : List Entry) (h : lvl ≤ i) :
    (records i l).takeWhile (fun g => decide (g.level ≤ lvl)) = [] := by
  cases hr : records i l with
  | nil => rfl
  | cons g X =>
      have hg : g ∈ records i l := by
        rw [hr]
        exact List.mem_cons_self ..
      have := (records_mem hg).2
      rw [List.takeWhile_cons_of_neg]
      simp only [decide_eq_true_eq]
      omega

theorem ptlFixResult_nil (nid : Nat) (t : SL) : ptlFixResult nid [] t = t := rfl

theorem ptlFixResult_cons (nid : Nat) (g : Entry) (L : List Entry) (t : SL) :
    ptlFixResult nid (g :: L) t =
      ptlFixResult nid L (updNode t g.id fun nd => { nd with prevTopLevel := some nid }) := rfl

theorem ptrPH_updNode_keepLevels (s : SL) (id : Nat) (f : Node → Node)
    (hf : ∀ nd, (f nd).levels = nd.levels) (ph : Option Nat) (j : Nat) :
    ptrPH (updNode s id f) ph j = ptrPH s ph j := by
  cases ph with
  | none => rfl
  | some pid =>
      rw [ptrPH, ptrPH, levelsPH, levelsPH, nodeAt_updNode]
      split
      · rw [hf]
      · rfl

theorem ptrPH_ptlFixResult (nid : Nat) :
    ∀ (upds : List Entry) (t : SL) (ph : Option Nat) (j : Nat),
      ptrPH (ptlFixResult nid upds t) ph j = ptrPH t ph j := by
  intro upds
  induction upds with
  | nil => intro t ph j; rfl
  | cons g L ih =>
      intro t ph j
      rw [ptlFixResult_cons, ih, ptrPH_updNode_keepLevels]
      intro nd
      rfl

theorem frame_ptlFixResult (nid : Nat) : ∀ (upds : List Entry) (t : SL),
    frameEq t (ptlFixResult nid upds t) ∧ (ptlFixResult nid upds t).length = t.length ∧
      (ptlFixResult nid upds t).back = t.back := by
  intro upds
  induction upds with
  | nil => intro t; exact ⟨frameEq_refl t, rfl, rfl⟩
  | cons g L ih =>
      intro t
      rw [ptlFixResult_cons]
      obtain ⟨h1, h2, h3⟩ :=
        ih (updNode t g.id fun nd => { nd with prevTopLevel := some nid })
      refine ⟨frameEq_trans (frameEq_updNode ..) h1, ?_, ?_⟩
      · rw [h2, updNode_length]
      · rw [h3, updNode_back]

theorem nodeAt_ptlFixResult (nid : Nat) : ∀ (upds : List Entry) (t : SL) (id : Nat),
    nodeAt (ptlFixResult nid upds t) id =
      if id ∈ liveIds upds ∧ id < t.store.length
      then { nodeAt t id with prevTopLevel := some nid }
      else nodeAt t id := by
  intro upds
  induction upds with
  | nil =>
      intro t id
      rw [if_neg (by simp [liveIds])]
      rfl
  | cons g L ih =>
      intro t id
      have hlive : liveIds (g :: L) = g.id :: liveIds L := rfl
      have hsetlen : (updNode t g.id fun nd =>
          { nd with prevTopLevel := some nid }).store.length = t.store.length :=
        updNode_storeLen ..
      rw [ptlFixResult_cons, ih, hsetlen, nodeAt_updNode]
      by_cases h1 : id ∈ liveIds L ∧ id < t.store.length
      · rw [if_pos h1]
        by_cases h2 : g.id = id
        · rw [if_pos ⟨h2, h1.2⟩,
            if_pos ⟨by rw [hlive]; exact List.mem_cons_of_mem _ h1.1, h1.2⟩]
        · rw [if_neg (by tauto),
            if_pos ⟨by rw [hlive]; exact List.mem_cons_of_mem _ h1.1, h1.2⟩]
      · rw [if_neg h1]
        by_cases h2 : g.id = id ∧ id < t.store.length
        · rw [if_pos h2,
            if_pos ⟨by rw [hlive, ← h2.1]; exact List.mem_cons_self .., h2.2⟩]
        · rw [if_neg h2]
          by_cases h3 : id ∈ liveIds (g :: L) ∧ id < t.store.length
          · exfalso
            have h4 := h3.1
            rw [hlive] at h4
            rcases List.mem_cons.mp h4 with he | hm
            · exact h2 ⟨he.symm, h3.2⟩
            · exact h1 ⟨hm, h3.2⟩
          · rw [if_neg h3]

/-- The `prevTopLevel` adjustment loop of `Set`: it repoints exactly the
staircase of at-or-above entries whose levels are new maxima, as long as
they do not exceed the inserted node's level. -/
theorem setPtlFix_spec (nid lvl largest : Nat) (hll : largest ≤ lvl) :
    ∀ fuel (rest : List Entry) (i : Nat) (t : SL),
      largest - i < fuel →
      (∀ j, i ≤ j → j < largest → (nodeAt t nid).levels.getD j none = nextGT j rest) →
      (∀ j, largest ≤ j → j < lvl → nextGT j rest = none) →
      (∀ g ∈ rest, (nodeAt t g.id).levels.length = g.level ∧ g.id ≠ nid) →
      setPtlFix nid lvl largest fuel i t =
        ptlFixResult nid ((records i rest).takeWhile fun g => decide (g.level ≤ lvl)) t := by
  intro fuel
  induction fuel with
  | zero => intro rest i t hf _ _ _; omega
  | succ n ih =>
      intro rest i t hf hreads hstat hrest
      rw [setPtlFix]
      by_cases hil : i < largest
      · rw [if_pos hil]
        rw [hreads i (Nat.le_refl i) hil]
        cases hnx : nextGT i rest with
        | none =>
            rw [records_eq_nil (nextGT_eq_none.mp hnx)]
            rfl
        | some nxid =>
            dsimp only
            obtain ⟨c, g, d, hcd, hcle, hglev, hgid⟩ := nextGT_some hnx
            have hgrest : g ∈ rest := by
              rw [hcd]
              exact List.mem_append_right _ (by simp)
            obtain ⟨hglen, hgne⟩ := hrest g hgrest
            rw [← hgid, hglen]
            rw [hcd, records_append_skip hcle, records_cons_pos d hglev]
            have hcg : ∀ e ∈ c ++ [g], e.level ≤ g.level := by
              intro e he
              rcases List.mem_append.mp he with hm | hm
              · have := hcle e hm
                omega
              · rw [List.mem_singleton.mp hm]
            have hreads2 : ∀ j, g.level ≤ j → j < largest →
                (nodeAt t nid).levels.getD j none = nextGT j d := by
              intro j hj1 hj2
              rw [hreads j (by omega) hj2, hcd,
                show c ++ g :: d = (c ++ [g]) ++ d from by simp]
              exact nextGT_append fun e he => by have := hcg e he; omega
            have hstat2 : ∀ j, largest ≤ j → j < lvl → nextGT j d = none := by
              intro j hj1 hj2
              have h9 := hstat j hj1 hj2
              rw [hcd] at h9
              refine nextGT_eq_none.mpr fun e he => nextGT_eq_none.mp h9 e ?_
              exact List.mem_append_right _ (List.mem_cons_of_mem _ he)
            have hrest2 : ∀ g2 ∈ d, (nodeAt t g2.id).levels.length = g2.level ∧
                g2.id ≠ nid := by
              intro g2 hg2
              exact hrest g2 (by
                rw [hcd]
                exact List.mem_append_right _ (List.mem_cons_of_mem _ hg2))
            by_cases hgl : g.level ≤ lvl
            · rw [if_pos hgl, List.takeWhile_cons_of_pos (by simp [hgl]),
                ptlFixResult_cons]
              refine ih d g.level
                (updNode t g.id fun nd => { nd with prevTopLevel := some nid })
                (by omega) ?_ hstat2 ?_
              · intro j hj1 hj2
                rw [show nodeAt (updNode t g.id fun nd =>
                    { nd with prevTopLevel := some nid }) nid = nodeAt t nid from
                  nodeAt_updNode_ne t g.id nid _ hgne]
                exact hreads2 j hj1 hj2
              · intro g2 hg2
                obtain ⟨ha, hb⟩ := hrest2 g2 hg2
                refine ⟨?_, hb⟩
                rw [nodeAt_updNode]
                split
                · exact ha
                · exact ha
            · rw [if_neg hgl, List.takeWhile_cons_of_neg (by simp [hgl]),
                ptlFixResult_nil]
              rw [ih d g.level t (by omega) hreads2 hstat2 hrest2]
              rw [records_takeWhile_nil d (by omega)]
              rfl
      · rw [if_neg hil]
        rcases Nat.lt_or_ge i lvl with hilvl | hilvl
        · rw [records_eq_nil (nextGT_eq_none.mp (hstat i (by omega) hilvl))]
          rfl
        · rw [records_takeWhile_nil rest hilvl]
          rfl

theorem getD_replicate_none (n j : Nat) :
    (List.replicate n (none : Option Nat)).getD j none = none := by
  simp only [List.getD, List.get?_eq_getElem?, List.getElem?_replicate]
  by_cases h : j < n
  · rw [if_pos h]
    rfl
  · rw [if_neg h]
    rfl

theorem posOf_lastGT_zero {l : List Entry} (h : ∀ e ∈ l, 1 ≤ e.level) :
    posOf (lastGT 0 l) = prevSpec l := by
  rcases List.eq_nil_or_concat l with rfl | ⟨L, b, hL⟩
  · rfl
  · rw [hL, List.concat_eq_append]
    rw [lastGT_append_single L (by
      have := h b (by rw [hL, List.concat_eq_append]; simp)
      omega)]
    rw [prevSpec, List.getLast?_concat]
    rfl

theorem nextGT_middle_skip {j : Nat} {x : Entry} (hx : x.level ≤ j) :
    ∀ (a b : List Entry), nextGT j (a ++ x :: b) = nextGT j (a ++ b) := by
  intro a b
  induction a with
  | nil =>
      rw [List.nil_append, List.nil_append, nextGT, if_neg (by omega)]
  | cons z a2 ih =>
      rw [List.cons_append, List.cons_append, nextGT, nextGT, ih]

theorem nextGT_ne_none_of_lastGT {j : Nat} {l : List Entry} {p : Entry}
    (h : lastGT j l = some p) : nextGT j l ≠ none := by
  intro hc
  have h1 := lastGT_mem h
  have h2 := nextGT_eq_none.mp hc p h1.1
  omega

theorem list_split_at {l : List Entry} {i : Nat} (h : i < l.length) :
    l = l.take i ++ l.getD i defaultEntry :: l.drop (i + 1) := by
  conv_lhs => rw [← List.take_append_drop i l]
  rw [List.drop_eq_getElem_cons h]
  rw [show l.getD i defaultEntry = l.get ⟨i, h⟩ from by
    rw [List.getD_eq_getElem l defaultEntry h, List.get_eq_getElem]]
  rfl

theorem abs_levels_len {s : SL} {es : List Entry} (hA : Abs s es) {e : Entry} (he : e ∈ es) :
    (nodeAt s e.id).levels.length = e.level := by
  obtain ⟨a, b, hab⟩ := List.append_of_mem he
  rw [abs_nodeAt hA hab, nodeSpec]
  exact levelsSpec_length ..

theorem liveIds_prefix_nodup {es pre suf : List Entry} (hn : (liveIds es).Nodup)
    (he : es = pre ++ suf) : (liveIds pre).Nodup := by
  have h9 : liveIds es = liveIds pre ++ liveIds suf := by
    rw [he]
    simp [liveIds]
  rw [h9] at hn
  exact (List.nodup_append.mp hn).1

/-- Positional characterisation of the staircase membership. -/
theorem records_iff_decomp : ∀ {gpre : List Entry} {i : Nat} {l : List Entry}
    {g : Entry} {gpost : List Entry}, (liveIds l).Nodup → l = gpre ++ g :: gpost →
    (g ∈ records i l ↔ (i < g.level ∧ ∀ x ∈ gpre, x.level < g.level)) := by
  intro gpre
  induction gpre with
  | nil =>
      intro i l g gpost hnd hdec
      subst hdec
      rw [List.nil_append] at hnd
      rw [List.nil_append, records]
      by_cases hi : i < g.level
      · rw [if_pos hi]
        constructor
        · intro _
          exact ⟨hi, by simp⟩
        · intro _
          exact List.mem_cons_self ..
      · rw [if_neg hi]
        constructor
        · intro hm
          have h1 := (records_mem hm).1
          have h2 : g.id ∈ liveIds gpost := List.mem_map.mpr ⟨g, h1, rfl⟩
          rw [show liveIds (g :: gpost) = g.id :: liveIds gpost from rfl] at hnd
          exact absurd h2 (List.nodup_cons.mp hnd).1
        · intro hm
          omega
  | cons x gpre2 ih =>
      intro i l g gpost hnd hdec
      subst hdec
      rw [List.cons_append] at hnd
      rw [List.cons_append, records]
      have hnd2 : (liveIds (gpre2 ++ g :: gpost)).Nodup := by
        rw [show liveIds (x :: (gpre2 ++ g :: gpost)) =
          x.id :: liveIds (gpre2 ++ g :: gpost) from rfl] at hnd
        exact (List.nodup_cons.mp hnd).2
      have hgx : g ≠ x := by
        intro hc
        subst hc
        have h2 : g.id ∈ liveIds (gpre2 ++ g :: gpost) :=
          List.mem_map.mpr ⟨g, List.mem_append_right _ (List.mem_cons_self ..), rfl⟩
        rw [show liveIds (g :: (gpre2 ++ g :: gpost)) =
          g.id :: liveIds (gpre2 ++ g :: gpost) from rfl] at hnd
        exact absurd h2 (List.nodup_cons.mp hnd).1
      by_cases hi : i < x.level
      · rw [if_pos hi]
        constructor
        · intro hm
          rcases List.mem_cons.mp hm with rfl | hm2
          · exact absurd rfl hgx
          · obtain ⟨h1, h2⟩ := (ih hnd2 rfl).mp hm2
            refine ⟨by omega, ?_⟩
            intro y hy
            rcases List.mem_cons.mp hy with rfl | hy2
            · omega
            · exact h2 y hy2
        · intro ⟨h1, h2⟩
          refine List.mem_cons_of_mem _ ((ih hnd2 rfl).mpr ⟨?_, ?_⟩)
          · exact h2 x (List.mem_cons_self ..)
          · intro y hy
            exact h2 y (List.mem_cons_of_mem _ hy)
      · rw [if_neg hi]
        constructor
        · intro hm
          obtain ⟨h1, h2⟩ := (ih hnd2 rfl).mp hm
          refine ⟨h1, ?_⟩
          intro y hy
          rcases List.mem_cons.mp hy with rfl | hy2
          · omega
          · exact h2 y hy2
        · intro ⟨h1, h2⟩
          exact (ih hnd2 rfl).mpr ⟨h1, fun y hy => h2 y (List.mem_cons_of_mem _ hy)⟩

theorem mem_takeWhile_records {lvl : Nat} {g : Entry} :
    ∀ {l : List Entry} {i : Nat},
      (g ∈ (records i l).takeWhile (fun g2 => decide (g2.level ≤ lvl)) ↔
        g ∈ records i l ∧ g.level ≤ lvl) := by
  intro l
  induction l with
  | nil =>
      intro i
      simp [records]
  | cons x rest ih =>
      intro i
      rw [records]
      by_cases hi : i < x.level
      · rw [if_pos hi]
        by_cases hx : x.level ≤ lvl
        · rw [List.takeWhile_cons_of_pos (by simp [hx])]
          constructor
          · intro hm
            rcases List.mem_cons.mp hm with rfl | hm2
            · exact ⟨List.mem_cons_self .., hx⟩
            · obtain ⟨h1, h2⟩ := ih.mp hm2
              exact ⟨List.mem_cons_of_mem _ h1, h2⟩
          · intro ⟨h1, h2⟩
            rcases List.mem_cons.mp h1 with rfl | hm2
            · exact List.mem_cons_self ..
            · exact List.mem_cons_of_mem _ (ih.mpr ⟨hm2, h2⟩)
        · rw [List.takeWhile_cons_of_neg (by simp [hx])]
          constructor
          · intro hm
            cases hm
          · intro ⟨h1, h2⟩
            rcases List.mem_cons.mp h1 with rfl | hm2
            · omega
            · have := (records_mem hm2).2
              omega
      · rw [if_neg hi]
        exact ih

theorem node_eq_of_fields {nd1 nd2 : Node} (h1 : nd1.key = nd2.key)
    (h2 : nd1.value = nd2.value) (h3 : nd1.levels = nd2.levels) (h4 : nd1.prev = nd2.prev)
    (h5 : nd1.prevTopLevel = nd2.prevTopLevel) (h6 : nd1.ownerId = nd2.ownerId) :
    nd1 = nd2 := by
  cases nd1
  cases nd2
  dsimp at h1 h2 h3 h4 h5 h6
  subst h1
  subst h2
  subst h3
  subst h4
  subst h5
  subst h6
  rfl

theorem mem_lesOf_mem {k : Int} {es : List Entry} {e : Entry} (h : e ∈ lesOf k es) :
    e ∈ es := by
  rw [← lesOf_append_gesOf k es]
  exact List.mem_append_left _ h

theorem mem_gesOf_mem {k : Int} {es : List Entry} {e : Entry} (h : e ∈ gesOf k es) :
    e ∈ es := by
  rw [← lesOf_append_gesOf k es]
  exact List.mem_append_right _ h

/-- What the recorded predecessor vector holds at a level: nothing (header),
or a below-key entry of the list whose own level is above it. -/
theorem Fval_cases {s : SL} {es : List Entry} (hA : Abs s es) (k : Int)
    {F : List (Option Nat)}
    (hFval : ∀ i, i < 18 → F.getD i none = posOf (lastGT i (lesOf k es)))
    {j : Nat} (hj : j < 18) :
    (F.getD j none = none ∧ lastGT j (lesOf k es) = none) ∨
      ∃ p, lastGT j (lesOf k es) = some p ∧ F.getD j none = some p.id ∧ p ∈ es ∧
        j < p.level ∧ p.id < s.store.length := by
  cases hp : lastGT j (lesOf k es) with
  | none => exact Or.inl ⟨by rw [hFval j hj, hp]; rfl, rfl⟩
  | some p =>
      obtain ⟨hpm, hpl⟩ := lastGT_mem hp
      have hpe : p ∈ es := mem_lesOf_mem hpm
      exact Or.inr ⟨p, rfl, by rw [hFval j hj, hp]; rfl, hpe, hpl, hA.hIdLt p hpe⟩

theorem abs_lenPH_header {s : SL} {es : List Entry} (hA : Abs s es) : lenPH s none = 18 := by
  show (headerVisible s).length = 18
  rw [headerVisible, List.length_take, hA.hHeadLen, hA.hBackLen]
  simp

/-- The splice loop of `Set`, instantiated at the actual insertion state. -/
theorem set_splice_inv {s : SL} {es : List Entry} (hA : Abs s es) (k : Int)
    {F : List (Option Nat)}
    (hFval : ∀ i, i < 18 → F.getD i none = posOf (lastGT i (lesOf k es)))
    {lvl : Nat} (hlvl18 : lvl ≤ 18) {nd : Node} (hndlen : lvl ≤ nd.levels.length) :
    spliceInv { s with store := s.store ++ [nd] }
      (spliceLoop s.store.length F 0 lvl { s with store := s.store ++ [nd] })
      s.store.length F lvl := by
  refine spliceLoop_invar s.store.length F lvl _ ?_ ?_ ?_ ?_ ?_ lvl 0 _
    (Nat.zero_add lvl) (spliceInv_init ..)
  · show s.store.length < (s.store ++ [nd]).length
    simp
  · rw [nodeAt_store_append_self]
    exact hndlen
  · intro j hj
    rcases Fval_cases hA k hFval (show j < 18 by omega) with ⟨h1, _⟩ | ⟨p, _, hp2, _, _, hp5⟩
    · rw [h1]
      intro hc
      cases hc
    · rw [hp2]
      intro hc
      injection hc with hc
      omega
  · intro j tid hj hc
    rcases Fval_cases hA k hFval (show j < 18 by omega) with ⟨h1, _⟩ | ⟨p, _, hp2, _, _, hp5⟩
    · rw [h1] at hc
      cases hc
    · rw [hp2] at hc
      injection hc with hc
      subst hc
      show p.id < (s.store ++ [nd]).length
      simp
      omega
  · intro j hj
    rcases Fval_cases hA k hFval (show j < 18 by omega) with ⟨h1, _⟩ | ⟨p, hp1, hp2, hp3, hp4, hp5⟩
    · rw [h1]
      show j < (headerVisible { s with store := s.store ++ [nd] }).length
      rw [headerVisible]
      show j < (List.take s.headerLen s.headerBacking).length
      rw [List.length_take, hA.hHeadLen, hA.hBackLen]
      omega
    · rw [hp2]
      show j < (nodeAt { s with store := s.store ++ [nd] } p.id).levels.length
      rw [nodeAt_store_append_old s nd hp5, abs_levels_len hA hp3]
      omega

/-- After the splice, the new node's forward array is exactly the spec's
level array over the at-or-above entries. -/
theorem splice_levels_new {s : SL} {es : List Entry} (hA : Abs s es) (k : Int)
    {F : List (Option Nat)}
    (hFval : ∀ i, i < 18 → F.getD i none = posOf (lastGT i (lesOf k es)))
    {lvl : Nat} (hlvl18 : lvl ≤ 18) {nd : Node} (hndlvl : nd.levels.length = lvl) {u : SL}
    (hinv : spliceInv { s with store := s.store ++ [nd] } u s.store.length F lvl) :
    (nodeAt u s.store.length).levels = levelsSpec lvl (gesOf k es) := by
  obtain ⟨hfr, hlen, hback, hnodes, hhigh, hlow⟩ := hinv
  have hulen : (nodeAt u s.store.length).levels.length = lvl := by
    have h8 := (hnodes s.store.length).2.2.2.2.2
    rw [nodeAt_store_append_self, hndlvl] at h8
    exact h8
  refine list_eq_of_getD (by rw [hulen, levelsSpec_length]) ?_
  intro j hj
  have hjlvl : j < lvl := by omega
  have hj18 : j < 18 := by omega
  have hread : ptrPH u (some s.store.length) j =
      (nodeAt u s.store.length).levels.getD j none := rfl
  rw [← hread]
  have h9 := hlow (some s.store.length) j hjlvl
  rcases Fval_cases hA k hFval hj18 with ⟨h1, h2⟩ | ⟨p, hp1, hp2, hp3, hp4, hp5⟩
  · rw [h1, if_neg (by intro hc; cases hc), if_pos rfl] at h9
    rw [h9, ptrPH_store_append s nd none j (by intro pid hc; cases hc),
      abs_ptr_header hA hj18, levelsSpec_getD, if_pos hjlvl]
    conv_lhs => rw [← lesOf_append_gesOf k es]
    exact nextGT_append (lastGT_eq_none.mp h2)
  · have hcond : ¬ (some s.store.length = some p.id) := by
      intro hc
      injection hc with hc
      omega
    rw [hp2, if_neg hcond, if_pos rfl] at h9
    rw [h9, ptrPH_store_append s nd (some p.id) j
      (by intro pid hc; injection hc with hc; omega)]
    have hr := read_pred hA k hj18
    rw [hp1] at hr
    rw [show posOf (some p) = some p.id from rfl] at hr
    rw [hr, levelsSpec_getD, if_pos hjlvl]

/-- After the splice, the header's pointers read as the spec of the extended
entry sequence. -/
theorem splice_read_header {s : SL} {es : List Entry} (hA : Abs s es) (k v : Int)
    {F : List (Option Nat)}
    (hFval : ∀ i, i < 18 → F.getD i none = posOf (lastGT i (lesOf k es)))
    {lvl : Nat} (hlvl18 : lvl ≤ 18) {nd : Node} {u : SL}
    (hinv : spliceInv { s with store := s.store ++ [nd] } u s.store.length F lvl)
    {j : Nat} (hj : j < 18) :
    ptrPH u none j = nextGT j (lesOf k es ++
      { id := s.store.length, key := k, value := v, level := lvl } :: gesOf k es) := by
  obtain ⟨hfr, hlen, hback, hnodes, hhigh, hlow⟩ := hinv
  rcases Nat.lt_or_ge j lvl with hjl | hjl
  · have h9 := hlow none j hjl
    rcases Fval_cases hA k hFval hj with ⟨h1, h2⟩ | ⟨p, hp1, hp2, hp3, hp4, hp5⟩
    · rw [h1, if_pos rfl] at h9
      rw [h9, nextGT_append (lastGT_eq_none.mp h2), nextGT_cons_gt _ hjl]
    · rw [hp2, if_neg (by intro hc; cases hc), if_neg (by intro hc; cases hc)] at h9
      rw [h9, ptrPH_store_append s nd none j (by intro pid hc; cases hc),
        abs_ptr_header hA hj]
      have hpm := lastGT_mem hp1
      cases hw : nextGT j (lesOf k es) with
      | none =>
          exfalso
          have := nextGT_eq_none.mp hw p hpm.1
          omega
      | some w =>
          conv_lhs => rw [← lesOf_append_gesOf k es]
          rw [nextGT_append_some hw, nextGT_append_some hw]
  · have h9 := hhigh none j hjl
    rw [h9, ptrPH_store_append s nd none j (by intro pid hc; cases hc),
      abs_ptr_header hA hj, nextGT_middle_skip hjl (lesOf k es) (gesOf k es)]
    conv_lhs => rw [← lesOf_append_gesOf k es]

/-- After the splice, a below-key entry's pointers read as the spec over its
new successor sequence (which now contains the inserted entry). -/
theorem splice_read_les {s : SL} {es : List Entry} (hA : Abs s es) (k v : Int)
    {F : List (Option Nat)}
    (hFval : ∀ i, i < 18 → F.getD i none = posOf (lastGT i (lesOf k es)))
    {lvl : Nat} (hlvl18 : lvl ≤ 18) {nd : Node} {u : SL}
    (hinv : spliceInv { s with store := s.store ++ [nd] } u s.store.length F lvl)
    {l1 : List Entry} {e : Entry} {l2 : List Entry} (hdec : lesOf k es = l1 ++ e :: l2)
    {j : Nat} (hj : j < e.level) :
    ptrPH u (some e.id) j = nextGT j (l2 ++
      { id := s.store.length, key := k, value := v, level := lvl } :: gesOf k es) := by
  obtain ⟨hfr, hlen, hback, hnodes, hhigh, hlow⟩ := hinv
  have hme : e ∈ es := mem_lesOf_mem
    (by rw [hdec]; exact List.mem_append_right _ (List.mem_cons_self ..))
  have heid : e.id < s.store.length := hA.hIdLt e hme
  have hdes : es = l1 ++ e :: (l2 ++ gesOf k es) := by
    conv_lhs => rw [← lesOf_append_gesOf k es]
    rw [hdec]
    simp
  have hold : ptrPH s (some e.id) j = nextGT j (l2 ++ gesOf k es) := abs_ptr_node hA hdes hj
  have hj18 : j < 18 := by
    have := (hA.hLevels e hme).2
    omega
  have happend : ∀ pid, some e.id = some pid → pid < s.store.length := by
    intro pid hc
    injection hc with hc
    omega
  rcases Nat.lt_or_ge j lvl with hjl | hjl
  · have h9 := hlow (some e.id) j hjl
    by_cases hhit : F.getD j none = some e.id
    · rw [hhit, if_pos rfl] at h9
      rw [h9]
      rcases Fval_cases hA k hFval hj18 with ⟨h1, h2⟩ | ⟨p, hp1, hp2, hp3, hp4, hp5⟩
      · rw [h1] at hhit
        cases hhit
      · rw [hp2] at hhit
        injection hhit with hhit
        have hpe : p = e := abs_id_inj hA.hIds hp3 hme hhit
        subst hpe
        obtain ⟨l1x, l2x, hlx, hl2x⟩ := lastGT_decomp hp1
        obtain ⟨hx1, hx2⟩ := unique_mid
          (liveIds_prefix_nodup hA.hIds (lesOf_append_gesOf k es).symm) hlx hdec
        rw [hx2] at hl2x
        rw [nextGT_append hl2x, nextGT_cons_gt _ hjl]
    · rw [if_neg (fun hc => hhit hc.symm),
        if_neg (by intro hc; injection hc with hc; omega)] at h9
      rw [h9, ptrPH_store_append s nd (some e.id) j happend, hold]
      by_cases hall : ∀ x ∈ l2, x.level ≤ j
      · exfalso
        apply hhit
        rw [hFval j hj18, hdec, lastGT_append]
        rw [show lastGT j (e :: l2) = some e from by
          rw [lastGT, lastGT_eq_none.mpr hall]
          dsimp only
          rw [if_pos hj]]
        rfl
      · push_neg at hall
        obtain ⟨x, hx1, hx2⟩ := hall
        cases hw : nextGT j l2 with
        | none =>
            exfalso
            have := nextGT_eq_none.mp hw x hx1
            omega
        | some w => rw [nextGT_append_some hw, nextGT_append_some hw]
  · have h9 := hhigh (some e.id) j hjl
    rw [h9, ptrPH_store_append s nd (some e.id) j happend, hold,
      nextGT_middle_skip hjl l2 (gesOf k es)]

/-- The splice does not change the pointers of any at-or-above entry. -/
theorem splice_read_ges {s : SL} {es : List Entry} (hA : Abs s es) (k : Int)
    {F : List (Option Nat)}
    (hFval : ∀ i, i < 18 → F.getD i none = posOf (lastGT i (lesOf k es)))
    {lvl : Nat} (hlvl18 : lvl ≤ 18) {nd : Node} {u : SL}
    (hinv : spliceInv { s with store := s.store ++ [nd] } u s.store.length F lvl)
    {g : Entry} (hg : g ∈ gesOf k es) (j : Nat) :
    ptrPH u (some g.id) j = ptrPH s (some g.id) j := by
  obtain ⟨hfr, hlen, hback, hnodes, hhigh, hlow⟩ := hinv
  have hge : g ∈ es := mem_gesOf_mem hg
  have hgid : g.id < s.store.length := hA.hIdLt g hge
  have happend : ∀ pid, some g.id = some pid → pid < s.store.length := by
    intro pid hc
    injection hc with hc
    omega
  rcases Nat.lt_or_ge j lvl with hjl | hjl
  · have h9 := hlow (some g.id) j hjl
    have hdisj : List.Disjoint (liveIds (lesOf k es)) (liveIds (gesOf k es)) := by
      have h7 : liveIds es = liveIds (lesOf k es) ++ liveIds (gesOf k es) := by
        conv_lhs => rw [← lesOf_append_gesOf k es]
        simp [liveIds]
      have h8 := hA.hIds
      rw [h7] at h8
      exact (List.nodup_append.mp h8).2.2
    have hcond1 : ¬ (some g.id = F.getD j none) := by
      intro hc
      rcases Fval_cases hA k hFval (show j < 18 by omega) with ⟨h1, _⟩ | ⟨p, hp1, hp2, hp3, hp4, hp5⟩
      · rw [h1] at hc
        cases hc
      · rw [hp2] at hc
        injection hc with hc
        have hpm := (lastGT_mem hp1).1
        refine hdisj (List.mem_map.mpr ⟨p, hpm, rfl⟩) ?_
        rw [← hc]
        exact List.mem_map.mpr ⟨g, hg, rfl⟩
    have hcond2 : ¬ (some g.id = some s.store.length) := by
      intro hc
      injection hc with hc
      omega
    rw [if_neg hcond1, if_neg hcond2] at h9
    rw [h9]
    exact ptrPH_store_append s nd (some g.id) j happend
  · rw [hhigh (some g.id) j hjl]
    exact ptrPH_store_append s nd (some g.id) j happend

theorem ptlFixResult_backing (nid : Nat) : ∀ (upds : List Entry) (t : SL),
    (ptlFixResult nid upds t).headerBacking = t.headerBacking := by
  intro upds
  induction upds with
  | nil => intro t; rfl
  | cons g L ih =>
      intro t
      rw [ptlFixResult_cons, ih]
      rfl

theorem getD_append_right_entry {a l : List Entry} {i : Nat} (h : a.length ≤ i) (d : Entry) :
    (a ++ l).getD i d = l.getD (i - a.length) d := by
  simp only [List.getD, List.get?_eq_getElem?, List.getElem?_append_right h]

theorem ptrPH_header_getD {t : SL} (h1 : t.headerLen = 18) (h2 : t.headerBacking.length = 18)
    (j : Nat) : ptrPH t none j = t.headerBacking.getD j none := by
  show (t.headerBacking.take t.headerLen).getD j none = _
  rw [h1, ← h2, List.take_length]

theorem liveIds_split_disjoint {es : List Entry} (hn : (liveIds es).Nodup) (k : Int) :
    List.Disjoint (liveIds (lesOf k es)) (liveIds (gesOf k es)) := by
  have h7 : liveIds es = liveIds (lesOf k es) ++ liveIds (gesOf k es) := by
    conv_lhs => rw [← lesOf_append_gesOf k es]
    simp [liveIds]
  rw [h7] at hn
  exact (List.nodup_append.mp hn).2.2

theorem upds_ids_sub {lvl : Nat} {ges : List Entry} {x : Nat}
    (hx : x ∈ liveIds ((records 0 ges).takeWhile fun g => decide (g.level ≤ lvl))) :
    x ∈ liveIds ges := by
  obtain ⟨g2, hg2, hg2x⟩ := List.mem_map.mp hx
  have h1 := (mem_takeWhile_records.mp hg2).1
  exact List.mem_map.mpr ⟨g2, (records_mem h1).1, hg2x⟩

theorem lastGT_cons_none {j : Nat} {x : Entry} {a : List Entry} (h : ∀ e ∈ a, e.level ≤ j) :
    lastGT j (x :: a) = if j < x.level then some x else none := by
  rw [lastGT, lastGT_eq_none.mpr h]

theorem lastGT_mid_all_le {j : Nat} {x : Entry} {a : List Entry} (h : ∀ e ∈ a, e.level ≤ j)
    (hx : j < x.level) (les : List Entry) : lastGT j (les ++ x :: a) = some x := by
  rw [lastGT_append, lastGT_cons_none h, if_pos hx]

theorem lastGT_mid_skip {j : Nat} {x : Entry} {a : List Entry} (h : ∀ e ∈ a, e.level ≤ j)
    (hx : ¬ j < x.level) (les : List Entry) :
    lastGT j (les ++ x :: a) = lastGT j (les ++ a) := by
  rw [lastGT_append, lastGT_append, lastGT_cons_none h, if_neg hx, lastGT_eq_none.mpr h]

theorem lastGT_mid_tail {j : Nat} (x : Entry) {a : List Entry} {r : Entry}
    (h : lastGT j a = some r) (les : List Entry) :
    lastGT j (les ++ x :: a) = some r ∧ lastGT j (les ++ a) = some r := by
  constructor
  · rw [lastGT_append, lastGT, h]
  · rw [lastGT_append, h]

theorem drop_append_cons (pre : List Entry) (e : Entry) (post : List Entry) :
    (pre ++ e :: post).drop (pre.length + 1) = post := by
  have h2 : (pre ++ e :: post).drop pre.length = e :: post := List.drop_left ..
  have h3 := List.drop_drop 1 pre.length (pre ++ e :: post)
  rw [← h3, h2]
  rfl

theorem ges_decomp {k : Int} {es : List Entry} {m : Nat} (hm : m < (gesOf k es).length) :
    es = (lesOf k es ++ (gesOf k es).take m) ++
      (gesOf k es).getD m defaultEntry :: (gesOf k es).drop (m + 1) := by
  conv_lhs => rw [← lesOf_append_gesOf k es]
  conv_lhs => rw [list_split_at hm]
  rw [List.append_assoc]

/-- Membership in the repointed staircase, characterised by position. -/
theorem upds_mem_iff {lvl : Nat} {ges : List Entry} (hnd : (liveIds ges).Nodup)
    (hlev : ∀ e ∈ ges, 1 ≤ e.level) {m : Nat} (hm : m < ges.length) :
    (ges.getD m defaultEntry ∈
        (records 0 ges).takeWhile (fun g => decide (g.level ≤ lvl)) ↔
      (ges.getD m defaultEntry).level ≤ lvl ∧
        ∀ x ∈ ges.take m, x.level < (ges.getD m defaultEntry).level) := by
  rw [mem_takeWhile_records, records_iff_decomp hnd (list_split_at hm)]
  constructor
  · rintro ⟨⟨h1, h2⟩, h3⟩
    exact ⟨h3, h2⟩
  · rintro ⟨h1, h2⟩
    have h0 : 0 < (ges.getD m defaultEntry).level := by
      have h5 : ges.getD m defaultEntry ∈ ges := by
        rw [List.getD_eq_getElem _ _ hm]
        exact List.getElem_mem ..
      have := hlev _ h5
      omega
    exact ⟨⟨h0, h2⟩, h1⟩

theorem id_mem_upds_iff {es : List Entry} (hids : (liveIds es).Nodup) {k : Int} {lvl : Nat}
    {g : Entry} (hg : g ∈ es) :
    (g.id ∈ liveIds ((records 0 (gesOf k es)).takeWhile fun g2 => decide (g2.level ≤ lvl)) ↔
      g ∈ (records 0 (gesOf k es)).takeWhile fun g2 => decide (g2.level ≤ lvl)) := by
  constructor
  · intro hc
    obtain ⟨g2, hg2, hg2x⟩ := List.mem_map.mp hc
    have hg2ges : g2 ∈ gesOf k es := (records_mem (mem_takeWhile_records.mp hg2).1).1
    have h5 : g2 = g := abs_id_inj hids (mem_gesOf_mem hg2ges) hg hg2x
    rw [← h5]
    exact hg2
  · intro hc
    exact List.mem_map.mpr ⟨g, hc, rfl⟩

/-- How the spec's `prevTopLevel` of an at-or-above entry reacts to the
insertion, by whether the entry is a repointed staircase member. -/
theorem ptlSpec_insert_cases {lvl : Nat} {en g : Entry} (les tk : List Entry)
    (hen : en.level = lvl) (hg1 : 1 ≤ g.level) :
    ((g.level ≤ lvl ∧ ∀ x ∈ tk, x.level < g.level) →
      ptlSpec g.level (les ++ en :: tk) = some en.id) ∧
    (¬ (g.level ≤ lvl ∧ ∀ x ∈ tk, x.level < g.level) →
      ptlSpec g.level (les ++ en :: tk) = ptlSpec g.level (les ++ tk)) := by
  constructor
  · rintro ⟨hA1, hB1⟩
    have hall : ∀ x ∈ tk, x.level ≤ g.level - 1 := by
      intro x hx
      have := hB1 x hx
      omega
    rw [ptlSpec, lastGT_mid_all_le hall (by omega) les]
    rfl
  · intro hnc
    by_cases hB1 : ∀ x ∈ tk, x.level < g.level
    · have hA1 : ¬ g.level ≤ lvl := fun hc => hnc ⟨hc, hB1⟩
      have hall : ∀ x ∈ tk, x.level ≤ g.level - 1 := by
        intro x hx
        have := hB1 x hx
        omega
      rw [ptlSpec, ptlSpec, lastGT_mid_skip hall (by omega) les]
    · push_neg at hB1
      obtain ⟨x, hx1, hx2⟩ := hB1
      cases hr : lastGT (g.level - 1) tk with
      | none =>
          exfalso
          have := lastGT_eq_none.mp hr x hx1
          omega
      | some r =>
          obtain ⟨h1, h2⟩ := lastGT_mid_tail en hr les
          rw [ptlSpec, ptlSpec, h1, h2]

/-- `setMissCore`, written out with its intermediate states named. -/
theorem setMissCore_unfold (s : SL) (k v : Int) (lvl : Nat) (F : List (Option Nat)) :
    ∀ (nd : Node) (u : SL) (lg : Nat) (s3 s4 : SL),
      nd = { key := k, value := v, levels := List.replicate lvl none,
             prev := F.getD 0 none, prevTopLevel := F.getD (lvl - 1) none,
             ownerId := some s.listId } →
      u = spliceLoop s.store.length F 0 lvl { s with store := s.store ++ [nd] } →
      lg = largestLevelScan (nodeAt u s.store.length).levels lvl →
      s3 = (match (nodeAt u s.store.length).levels.getD 0 none with
            | none => u
            | some nx => updNode u nx fun nd2 => { nd2 with prev := some s.store.length }) →
      s4 = setPtlFix s.store.length lvl lg (lg + 1) 0 s3 →
      setMissCore s k v lvl F =
        ({ (if (nodeAt s4 s.store.length).levels.getD 0 none = none
            then { s4 with back := some s.store.length } else s4) with
           length := s4.length + 1 }, s.store.length) := by
  intro nd u lg s3 s4 h1 h2 h3 h4 h5
  subst h1
  subst h2
  subst h3
  subst h4
  subst h5
  rfl

/-- The inserted node, as stored after the splice, is the spec node of the
inserted entry in its final position. -/
theorem insert_new_node {s : SL} {es : List Entry} (hA : Abs s es) (k v : Int)
    {F : List (Option Nat)}
    (hFval : ∀ i, i < 18 → F.getD i none = posOf (lastGT i (lesOf k es)))
    {lvl : Nat} (hlvl1 : 1 ≤ lvl) (hlvl18 : lvl ≤ 18) {nd : Node}
    (hnd : nd = { key := k, value := v, levels := List.replicate lvl none,
                  prev := F.getD 0 none, prevTopLevel := F.getD (lvl - 1) none,
                  ownerId := some s.listId }) {u : SL}
    (hinv : spliceInv { s with store := s.store ++ [nd] } u s.store.length F lvl) :
    nodeAt u s.store.length =
      nodeSpec 0 (lesOf k es) { id := s.store.length, key := k, value := v, level := lvl }
        (gesOf k es) := by
  have hndlvl : nd.levels.length = lvl := by
    rw [hnd]
    simp
  have hlevels := splice_levels_new hA k hFval hlvl18 hndlvl hinv
  have hrest : eqExceptLevels (nodeAt u s.store.length) nd := by
    have h9 := hinv.2.2.2.1 s.store.length
    rw [nodeAt_store_append_self] at h9
    exact h9
  obtain ⟨e1, e2, e3, e4, e5, e6⟩ := hrest
  refine node_eq_of_fields ?_ ?_ ?_ ?_ ?_ ?_
  · rw [e1, hnd]
    rfl
  · rw [e2, hnd]
    rfl
  · rw [hlevels]
    rfl
  · rw [e3, hnd]
    show F.getD 0 none = prevSpec (lesOf k es)
    rw [hFval 0 (by omega)]
    exact posOf_lastGT_zero fun e he => (hA.hLevels e (mem_lesOf_mem he)).1
  · rw [e4, hnd]
    show F.getD (lvl - 1) none = ptlSpec lvl (lesOf k es)
    rw [hFval (lvl - 1) (by omega)]
    rfl
  · rw [e5, hnd]
    show some s.listId = some 0
    rw [hA.hListId]

/-- A below-key node, as stored after the splice, is the spec node of its
entry with the inserted entry now among its successors. -/
theorem insert_les_node {s : SL} {es : List Entry} (hA : Abs s es) (k v : Int)
    {F : List (Option Nat)}
    (hFval : ∀ i, i < 18 → F.getD i none = posOf (lastGT i (lesOf k es)))
    {lvl : Nat} (hlvl18 : lvl ≤ 18) {nd : Node} {u : SL}
    (hinv : spliceInv { s with store := s.store ++ [nd] } u s.store.length F lvl)
    {i : Nat} (hi : i < (lesOf k es).length) :
    nodeAt u ((lesOf k es).getD i defaultEntry).id =
      nodeSpec 0 ((lesOf k es).take i) ((lesOf k es).getD i defaultEntry)
        ((lesOf k es).drop (i + 1) ++
          { id := s.store.length, key := k, value := v, level := lvl } :: gesOf k es) := by
  have hsplit := list_split_at hi
  have hme0 : (lesOf k es).getD i defaultEntry ∈ lesOf k es := by
    rw [List.getD_eq_getElem _ _ hi]
    exact List.getElem_mem ..
  have hme : (lesOf k es).getD i defaultEntry ∈ es := mem_lesOf_mem hme0
  have hdes : es = (lesOf k es).take i ++ (lesOf k es).getD i defaultEntry ::
      ((lesOf k es).drop (i + 1) ++ gesOf k es) := by
    conv_lhs => rw [← lesOf_append_gesOf k es]
    conv_lhs => rw [hsplit]
    simp
  have hold := abs_nodeAt hA hdes
  have heq := hinv.2.2.2.1 ((lesOf k es).getD i defaultEntry).id
  rw [nodeAt_store_append_old s nd (hA.hIdLt _ hme)] at heq
  obtain ⟨e1, e2, e3, e4, e5, e6⟩ := heq
  refine node_eq_of_fields ?_ ?_ ?_ ?_ ?_ ?_
  · rw [e1, hold]
    rfl
  · rw [e2, hold]
    rfl
  · refine list_eq_of_getD ?_ ?_
    · rw [e6, hold]
      show (levelsSpec ((lesOf k es).getD i defaultEntry).level
        ((lesOf k es).drop (i + 1) ++ gesOf k es)).length = _
      rw [levelsSpec_length]
      show _ = (levelsSpec ((lesOf k es).getD i defaultEntry).level
        ((lesOf k es).drop (i + 1) ++
          { id := s.store.length, key := k, value := v, level := lvl } :: gesOf k es)).length
      rw [levelsSpec_length]
    · intro j hj
      rw [e6, hold] at hj
      have hjlev : j < ((lesOf k es).getD i defaultEntry).level := by
        simpa [nodeSpec, levelsSpec_length] using hj
      have hread := splice_read_les hA k v hFval hlvl18 hinv hsplit hjlev
      show ptrPH u (some ((lesOf k es).getD i defaultEntry).id) j = _
      rw [hread]
      show _ = (levelsSpec ((lesOf k es).getD i defaultEntry).level
        ((lesOf k es).drop (i + 1) ++
          { id := s.store.length, key := k, value := v, level := lvl } :: gesOf k es)).getD
        j none
      rw [levelsSpec_getD, if_pos hjlev]
  · rw [e3, hold]
    rfl
  · rw [e4, hold]
    rfl
  · rw [e5, hold]
    rfl

/-- The splice does not change the stored forward array of any at-or-above
node. -/
theorem splice_ges_node_levels {s : SL} {es : List Entry} (hA : Abs s es) (k : Int)
    {F : List (Option Nat)}
    (hFval : ∀ i, i < 18 → F.getD i none = posOf (lastGT i (lesOf k es)))
    {lvl : Nat} (hlvl18 : lvl ≤ 18) {nd : Node} {u : SL}
    (hinv : spliceInv { s with store := s.store ++ [nd] } u s.store.length F lvl)
    {g : Entry} (hg : g ∈ gesOf k es) :
    (nodeAt u g.id).levels = (nodeAt s g.id).levels := by
  have hge : g ∈ es := mem_gesOf_mem hg
  refine list_eq_of_getD ?_ ?_
  · have h9 := (hinv.2.2.2.1 g.id).2.2.2.2.2
    rw [nodeAt_store_append_old s nd (hA.hIdLt g hge)] at h9
    exact h9
  · intro j hj
    exact splice_read_ges hA k hFval hlvl18 hinv hg j

/-- The insertion path of `Set` preserves well-formedness: the final state
realises the entry sequence with the new entry in key position. -/
theorem set_insert_abs_core {s : SL} {es : List Entry} (hA : Abs s es) (k v : Int) {lvl : Nat}
    (hnone : findEq k es = none) (hlvl1 : 1 ≤ lvl) (hlvl18 : lvl ≤ 18)
    {F : List (Option Nat)}
    (hFval : ∀ i, i < 18 → F.getD i none = posOf (lastGT i (lesOf k es)))
    (nd : Node) (u : SL) (lg : Nat) (s3 s4 : SL)
    (hnd : nd = { key := k, value := v, levels := List.replicate lvl none,
                  prev := F.getD 0 none, prevTopLevel := F.getD (lvl - 1) none,
                  ownerId := some s.listId })
    (hu : u = spliceLoop s.store.length F 0 lvl { s with store := s.store ++ [nd] })
    (hlg : lg = largestLevelScan (nodeAt u s.store.length).levels lvl)
    (hs3 : s3 = (match (nodeAt u s.store.length).levels.getD 0 none with
          | none => u
          | some nx => updNode u nx fun nd2 => { nd2 with prev := some s.store.length }))
    (hs4 : s4 = setPtlFix s.store.length lvl lg (lg + 1) 0 s3) :
    Abs { (if (nodeAt s4 s.store.length).levels.getD 0 none = none
           then { s4 with back := some s.store.length } else s4) with
          length := s4.length + 1 }
      (lesOf k es ++
        { id := s.store.length, key := k, value := v, level := lvl } :: gesOf k es) := by
  have hndlvl : nd.levels.length = lvl := by
    rw [hnd]
    simp
  have hinv : spliceInv { s with store := s.store ++ [nd] } u s.store.length F lvl := by
    rw [hu]
    exact set_splice_inv hA k hFval hlvl18 hndlvl.ge
  have hfr := hinv.1
  have hulen := hinv.2.1
  have huback := hinv.2.2.1
  have hunodes := hinv.2.2.2.1
  have hustore : u.store.length = s.store.length + 1 := by
    rw [hfr.1]
    simp
  have hnew := insert_new_node hA k v hFval hlvl1 hlvl18 hnd hinv
  have hnew_levels : (nodeAt u s.store.length).levels = levelsSpec lvl (gesOf k es) := by
    rw [hnew]
    rfl
  have hlev0 : (nodeAt u s.store.length).levels.getD 0 none = nextGT 0 (gesOf k es) := by
    rw [hnew_levels, levelsSpec_getD, if_pos (by omega)]
  have hgeslev : ∀ g ∈ gesOf k es, 1 ≤ g.level := fun g hg => (hA.hLevels g (mem_gesOf_mem hg)).1
  have hgesid : ∀ g ∈ gesOf k es, g.id < s.store.length :=
    fun g hg => hA.hIdLt g (mem_gesOf_mem hg)
  have hlesid : ∀ e ∈ lesOf k es, e.id < s.store.length :=
    fun e he => hA.hIdLt e (mem_lesOf_mem he)
  have hdisj := liveIds_split_disjoint hA.hIds k
  have hs3cases : (gesOf k es = [] ∧ s3 = u) ∨
      ∃ g0 gt, gesOf k es = g0 :: gt ∧
        s3 = updNode u g0.id fun nd2 => { nd2 with prev := some s.store.length } := by
    cases hges : gesOf k es with
    | nil =>
        left
        refine ⟨rfl, ?_⟩
        rw [hs3, hlev0, hges]
        rfl
    | cons g0 gt =>
        right
        have h1 : 0 < g0.level := by
          have := hgeslev g0 (by rw [hges]; exact List.mem_cons_self ..)
          omega
        refine ⟨g0, gt, rfl, ?_⟩
        rw [hs3, hlev0, hges, nextGT_cons_gt gt h1]
  have hg0lt : ∀ g0 gt, gesOf k es = g0 :: gt → g0.id < s.store.length := by
    intro g0 gt hges
    exact hgesid g0 (by rw [hges]; exact List.mem_cons_self ..)
  have hs3_levels : ∀ id, (nodeAt s3 id).levels = (nodeAt u id).levels := by
    rcases hs3cases with ⟨_, h3⟩ | ⟨g0, gt, _, h3⟩
    · rw [h3]
      intro id
      rfl
    · intro id
      rw [h3, nodeAt_updNode]
      split
      · rfl
      · rfl
  have hs3_key : ∀ id, (nodeAt s3 id).key = (nodeAt u id).key := by
    rcases hs3cases with ⟨_, h3⟩ | ⟨g0, gt, _, h3⟩
    · rw [h3]
      intro id
      rfl
    · intro id
      rw [h3, nodeAt_updNode]
      split
      · rfl
      · rfl
  have hs3_value : ∀ id, (nodeAt s3 id).value = (nodeAt u id).value := by
    rcases hs3cases with ⟨_, h3⟩ | ⟨g0, gt, _, h3⟩
    · rw [h3]
      intro id
      rfl
    · intro id
      rw [h3, nodeAt_updNode]
      split
      · rfl
      · rfl
  have hs3_owner : ∀ id, (nodeAt s3 id).ownerId = (nodeAt u id).ownerId := by
    rcases hs3cases with ⟨_, h3⟩ | ⟨g0, gt, _, h3⟩
    · rw [h3]
      intro id
      rfl
    · intro id
      rw [h3, nodeAt_updNode]
      split
      · rfl
      · rfl
  have hs3_ptl : ∀ id, (nodeAt s3 id).prevTopLevel = (nodeAt u id).prevTopLevel := by
    rcases hs3cases with ⟨_, h3⟩ | ⟨g0, gt, _, h3⟩
    · rw [h3]
      intro id
      rfl
    · intro id
      rw [h3, nodeAt_updNode]
      split
      · rfl
      · rfl
  have hs3_prev_ne : ∀ id, (∀ g0 gt, gesOf k es = g0 :: gt → id ≠ g0.id) →
      (nodeAt s3 id).prev = (nodeAt u id).prev := by
    rcases hs3cases with ⟨_, h3⟩ | ⟨g0, gt, hges, h3⟩
    · rw [h3]
      intro id _
      rfl
    · intro id hne
      rw [h3, nodeAt_updNode_ne u g0.id id _ fun hc => hne g0 gt hges hc.symm]
  have hs3_store : s3.store.length = u.store.length := by
    rcases hs3cases with ⟨_, h3⟩ | ⟨g0, gt, _, h3⟩
    · rw [h3]
    · rw [h3, updNode_storeLen]
  have hs3_len : s3.length = u.length := by
    rcases hs3cases with ⟨_, h3⟩ | ⟨g0, gt, _, h3⟩
    · rw [h3]
    · rw [h3, updNode_length]
  have hs3_back : s3.back = u.back := by
    rcases hs3cases with ⟨_, h3⟩ | ⟨g0, gt, _, h3⟩
    · rw [h3]
    · rw [h3, updNode_back]
  have hs3_backing : s3.headerBacking = u.headerBacking := by
    rcases hs3cases with ⟨_, h3⟩ | ⟨g0, gt, _, h3⟩
    · rw [h3]
    · rw [h3]
      rfl
  have hs3_frame : frameEq { s with store := s.store ++ [nd] } s3 := by
    refine frameEq_trans hfr ?_
    rcases hs3cases with ⟨_, h3⟩ | ⟨g0, gt, _, h3⟩
    · rw [h3]
      exact frameEq_refl u
    · rw [h3]
      exact frameEq_updNode ..
  have hs3_nid : nodeAt s3 s.store.length = nodeAt u s.store.length := by
    rcases hs3cases with ⟨_, h3⟩ | ⟨g0, gt, hges, h3⟩
    · rw [h3]
    · rw [h3]
      exact nodeAt_updNode_ne u g0.id s.store.length _ (by have := hg0lt g0 gt hges; omega)
  have hlg_le : lg ≤ lvl := by
    rw [hlg]
    exact largestLevelScan_le ..
  have hlg_above : ∀ j, lg ≤ j → j < lvl → nextGT j (gesOf k es) = none := by
    intro j h1 h2
    have h9 := largestLevelScan_above (nodeAt u s.store.length).levels lvl j
      (by rw [← hlg]; exact h1) h2
    rw [hnew_levels, levelsSpec_getD, if_pos h2] at h9
    exact h9
  have hu_levlen_mem : ∀ g ∈ es, (nodeAt u g.id).levels.length = g.level := by
    intro g hg
    have h9 := (hunodes g.id).2.2.2.2.2
    rw [nodeAt_store_append_old s nd (hA.hIdLt g hg)] at h9
    rw [h9]
    exact abs_levels_len hA hg
  have hs4eq : s4 = ptlFixResult s.store.length
      ((records 0 (gesOf k es)).takeWhile fun g => decide (g.level ≤ lvl)) s3 := by
    rw [hs4]
    refine setPtlFix_spec s.store.length lvl lg hlg_le (lg + 1) (gesOf k es) 0 s3
      (by omega) ?_ ?_ ?_
    · intro j _ h2
      rw [hs3_nid, hnew_levels, levelsSpec_getD, if_pos (by omega)]
    · exact hlg_above
    · intro g hg
      refine ⟨?_, ?_⟩
      · rw [hs3_levels g.id, hu_levlen_mem g (mem_gesOf_mem hg)]
      · have := hgesid g hg
        omega
  have hs4_node : ∀ id, nodeAt s4 id =
      if id ∈ liveIds ((records 0 (gesOf k es)).takeWhile fun g => decide (g.level ≤ lvl)) ∧
          id < s3.store.length
      then { nodeAt s3 id with prevTopLevel := some s.store.length }
      else nodeAt s3 id := by
    intro id
    rw [hs4eq]
    exact nodeAt_ptlFixResult ..
  have hs4_levels : ∀ id, (nodeAt s4 id).levels = (nodeAt s3 id).levels := by
    intro id
    rw [hs4_node id]
    split
    · rfl
    · rfl
  have hs4_keyf : ∀ id, (nodeAt s4 id).key = (nodeAt s3 id).key := by
    intro id
    rw [hs4_node id]
    split
    · rfl
    · rfl
  have hs4_valuef : ∀ id, (nodeAt s4 id).value = (nodeAt s3 id).value := by
    intro id
    rw [hs4_node id]
    split
    · rfl
    · rfl
  have hs4_prevf : ∀ id, (nodeAt s4 id).prev = (nodeAt s3 id).prev := by
    intro id
    rw [hs4_node id]
    split
    · rfl
    · rfl
  have hs4_ownerf : ∀ id, (nodeAt s4 id).ownerId = (nodeAt s3 id).ownerId := by
    intro id
    rw [hs4_node id]
    split
    · rfl
    · rfl
  have hs4_frame : frameEq { s with store := s.store ++ [nd] } s4 := by
    rw [hs4eq]
    exact frameEq_trans hs3_frame (frame_ptlFixResult s.store.length _ s3).1
  have hs4_store : s4.store.length = s.store.length + 1 := by
    rw [hs4_frame.1]
    simp
  have hs4_len : s4.length = s.length := by
    rw [hs4eq, (frame_ptlFixResult s.store.length _ s3).2.1, hs3_len, hulen]
  have hs4_back : s4.back = s.back := by
    rw [hs4eq, (frame_ptlFixResult s.store.length _ s3).2.2, hs3_back, huback]
  have hs4_backing : s4.headerBacking = u.headerBacking := by
    rw [hs4eq, ptlFixResult_backing, hs3_backing]
  have hu_headerLen : u.headerLen = 18 := by
    rw [hfr.2.2.1]
    exact hA.hHeadLen
  have hu_backLen : u.headerBacking.length = 18 := by
    rw [hfr.2.1]
    exact hA.hBackLen
  have hcond0 : (nodeAt s4 s.store.length).levels.getD 0 none = nextGT 0 (gesOf k es) := by
    rw [hs4_levels s.store.length, hs3_nid, hlev0]
  have hkeysles : ∀ e ∈ lesOf k es, e.key < k := fun e he => mem_lesOf_lt he
  have hkeyges : ∀ e ∈ gesOf k es, k < e.key := by
    intro e he
    have h1 := mem_gesOf_ge hA.hSorted e he
    have h2 := List.find?_eq_none.mp hnone e (mem_gesOf_mem he)
    simp only [decide_eq_true_eq] at h2
    omega
  have hgesnodup : (liveIds (gesOf k es)).Nodup :=
    liveIds_suffix_nodup hA.hIds (lesOf_append_gesOf k es).symm
  have hmain : ∀ bk, bk = ((lesOf k es ++
      { id := s.store.length, key := k, value := v, level := lvl } :: gesOf k es).getLast?.map
        fun e => e.id) →
      Abs { store := s4.store, headerBacking := s4.headerBacking, headerLen := s4.headerLen,
            maxLevel := s4.maxLevel, length := s4.length + 1, back := bk,
            listId := s4.listId }
        (lesOf k es ++
          { id := s.store.length, key := k, value := v, level := lvl } :: gesOf k es) := by
    intro bk hbk
    have hlen' : (lesOf k es ++
        { id := s.store.length, key := k, value := v, level := lvl } :: gesOf k es).length =
        (lesOf k es).length + ((gesOf k es).length + 1) := by
      simp only [List.length_append, List.length_cons]
    refine ⟨?_, ?_, ?_, ?_, ?_, ?_, ?_, ?_, ?_, ?_, ?_, ?_, ?_⟩
    · show s4.headerBacking.length = 18
      rw [hs4_backing]
      exact hu_backLen
    · show s4.headerLen = 18
      rw [hs4_frame.2.2.1]
      exact hA.hHeadLen
    · show s4.maxLevel = 18
      rw [hs4_frame.2.2.2.1]
      exact hA.hMax
    · show s4.listId = 0
      rw [hs4_frame.2.2.2.2]
      exact hA.hListId
    · -- sortedness
      have hS := hA.hSorted
      rw [← lesOf_append_gesOf k es, List.pairwise_append] at hS
      obtain ⟨hS1, hS2, hS3⟩ := hS
      rw [List.pairwise_append]
      refine ⟨hS1, ?_, ?_⟩
      · rw [List.pairwise_cons]
        exact ⟨fun b hb => hkeyges b hb, hS2⟩
      · intro a ha b hb
        rcases List.mem_cons.mp hb with rfl | hb2
        · exact hkeysles a ha
        · have h1 := hkeysles a ha
          have h2 := hkeyges b hb2
          omega
    · -- level bounds
      intro e he
      rcases List.mem_append.mp he with h1 | h1
      · exact hA.hLevels e (mem_lesOf_mem h1)
      · rcases List.mem_cons.mp h1 with rfl | h2
        · exact ⟨hlvl1, hlvl18⟩
        · exact hA.hLevels e (mem_gesOf_mem h2)
    · -- id nodup
      have h7 : liveIds es = liveIds (lesOf k es) ++ liveIds (gesOf k es) := by
        conv_lhs => rw [← lesOf_append_gesOf k es]
        simp [liveIds]
      have h8 := hA.hIds
      rw [h7] at h8
      obtain ⟨hn1, hn2, hdisj2⟩ := List.nodup_append.mp h8
      have h9 : liveIds (lesOf k es ++
          { id := s.store.length, key := k, value := v, level := lvl } :: gesOf k es) =
          liveIds (lesOf k es) ++ s.store.length :: liveIds (gesOf k es) := by
        simp [liveIds]
      rw [h9]
      refine List.nodup_append.mpr ⟨hn1, ?_, ?_⟩
      · refine List.nodup_cons.mpr ⟨?_, hn2⟩
        intro hc
        obtain ⟨g2, hg2, hg2x⟩ := List.mem_map.mp hc
        have := hgesid g2 hg2
        omega
      · intro x hx hc
        obtain ⟨p, hp1, hp2⟩ := List.mem_map.mp hx
        rcases List.mem_cons.mp hc with h5 | h5
        · have := hlesid p hp1
          omega
        · exact hdisj2 hx h5
    · -- id bounds
      intro e he
      show e.id < s4.store.length
      rw [hs4_store]
      rcases List.mem_append.mp he with h1 | h1
      · have := hlesid e h1
        omega
      · rcases List.mem_cons.mp h1 with rfl | h2
        · show s.store.length < s.store.length + 1
          omega
        · have := hgesid e h2
          omega
    · -- header slots
      intro j hj
      show s4.headerBacking.getD j none = _
      rw [hs4_backing, ← ptrPH_header_getD hu_headerLen hu_backLen j]
      exact splice_read_header hA k v hFval hlvl18 hinv hj
    · -- per-node shapes
      intro i hi
      rcases Nat.lt_trichotomy i (lesOf k es).length with hz | hz | hz
      · -- a below-key node
        have hgetD : (lesOf k es ++
            { id := s.store.length, key := k, value := v, level := lvl } ::
              gesOf k es).getD i defaultEntry = (lesOf k es).getD i defaultEntry :=
          getD_append_left hz _
        have htake : (lesOf k es ++
            { id := s.store.length, key := k, value := v, level := lvl } ::
              gesOf k es).take i = (lesOf k es).take i :=
          List.take_append_of_le_length (by omega)
        have hdrop : (lesOf k es ++
            { id := s.store.length, key := k, value := v, level := lvl } ::
              gesOf k es).drop (i + 1) =
            (lesOf k es).drop (i + 1) ++
              { id := s.store.length, key := k, value := v, level := lvl } :: gesOf k es :=
          List.drop_append_of_le_length (by omega)
        rw [hgetD, htake, hdrop]
        show nodeAt s4 ((lesOf k es).getD i defaultEntry).id = _
        have he_mem0 : (lesOf k es).getD i defaultEntry ∈ lesOf k es := by
          rw [List.getD_eq_getElem _ _ hz]
          exact List.getElem_mem ..
        have hnotup : ¬ (((lesOf k es).getD i defaultEntry).id ∈
            liveIds ((records 0 (gesOf k es)).takeWhile fun g => decide (g.level ≤ lvl)) ∧
            ((lesOf k es).getD i defaultEntry).id < s3.store.length) := by
          rintro ⟨hmem, _⟩
          exact hdisj (List.mem_map.mpr ⟨_, he_mem0, rfl⟩) (upds_ids_sub hmem)
        have hnode_a : nodeAt s4 ((lesOf k es).getD i defaultEntry).id =
            nodeAt u ((lesOf k es).getD i defaultEntry).id := by
          rw [hs4_node _, if_neg hnotup]
          rcases hs3cases with ⟨_, h3⟩ | ⟨g0, gt, hges, h3⟩
          · rw [h3]
          · rw [h3]
            refine nodeAt_updNode_ne u g0.id _ _ ?_
            intro hc
            exact hdisj (List.mem_map.mpr ⟨_, he_mem0, rfl⟩)
              (List.mem_map.mpr ⟨g0, by rw [hges]; exact List.mem_cons_self .., hc⟩)
        rw [hnode_a]
        exact insert_les_node hA k v hFval hlvl18 hinv hz
      · -- the inserted node
        subst hz
        rw [getD_append_mid, List.take_left, drop_append_cons]
        show nodeAt s4 s.store.length = _
        have hnotup : ¬ (s.store.length ∈
            liveIds ((records 0 (gesOf k es)).takeWhile fun g => decide (g.level ≤ lvl)) ∧
            s.store.length < s3.store.length) := by
          rintro ⟨hmem, _⟩
          obtain ⟨g2, hg2, hg2x⟩ := List.mem_map.mp (upds_ids_sub hmem)
          have := hgesid g2 hg2
          omega
        have hnode_b : nodeAt s4 s.store.length = nodeAt u s.store.length := by
          rw [hs4_node _, if_neg hnotup]
          exact hs3_nid
        rw [hnode_b]
        exact hnew
      · -- an at-or-above node
        obtain ⟨m, rfl⟩ : ∃ m, i = (lesOf k es).length + (m + 1) :=
          ⟨i - (lesOf k es).length - 1, by omega⟩
        rw [hlen'] at hi
        have hm : m < (gesOf k es).length := by omega
        have hgetD : (lesOf k es ++
            { id := s.store.length, key := k, value := v, level := lvl } ::
              gesOf k es).getD ((lesOf k es).length + (m + 1)) defaultEntry =
            (gesOf k es).getD m defaultEntry := by
          rw [getD_append_right_entry (by omega) _]
          rw [show (lesOf k es).length + (m + 1) - (lesOf k es).length = m + 1 from by omega]
          rfl
        have htake : (lesOf k es ++
            { id := s.store.length, key := k, value := v, level := lvl } ::
              gesOf k es).take ((lesOf k es).length + (m + 1)) =
            lesOf k es ++
              { id := s.store.length, key := k, value := v, level := lvl } ::
                (gesOf k es).take m := by
          rw [List.take_append]
          rfl
        have hdrop : (lesOf k es ++
            { id := s.store.length, key := k, value := v, level := lvl } ::
              gesOf k es).drop ((lesOf k es).length + (m + 1) + 1) =
            (gesOf k es).drop (m + 1) := by
          rw [show (lesOf k es).length + (m + 1) + 1 = (lesOf k es).length + (m + 2) from by
            omega]
          rw [List.drop_append]
          rfl
        rw [hgetD, htake, hdrop]
        have hg_mem0 : (gesOf k es).getD m defaultEntry ∈ gesOf k es := by
          rw [List.getD_eq_getElem _ _ hm]
          exact List.getElem_mem ..
        have hg_mem : (gesOf k es).getD m defaultEntry ∈ es := mem_gesOf_mem hg_mem0
        have hg_id : ((gesOf k es).getD m defaultEntry).id < s.store.length :=
          hgesid _ hg_mem0
        have hg_lev : 1 ≤ ((gesOf k es).getD m defaultEntry).level := hgeslev _ hg_mem0
        have hold := abs_nodeAt hA (ges_decomp hm)
        show nodeAt s4 ((gesOf k es).getD m defaultEntry).id = _
        refine node_eq_of_fields ?_ ?_ ?_ ?_ ?_ ?_
        · rw [hs4_keyf, hs3_key, (hunodes _).1, nodeAt_store_append_old s nd hg_id, hold]
          rfl
        · rw [hs4_valuef, hs3_value, (hunodes _).2.1,
            nodeAt_store_append_old s nd hg_id, hold]
          rfl
        · rw [hs4_levels, hs3_levels,
            splice_ges_node_levels hA k hFval hlvl18 hinv hg_mem0, hold]
          rfl
        · -- prev
          cases m with
          | zero =>
              rcases hs3cases with ⟨hgesnil, _⟩ | ⟨g0, gt, hges, h3⟩
              · rw [hgesnil] at hm
                simp at hm
              · have hg_is_g0 : (gesOf k es).getD 0 defaultEntry = g0 := by
                  rw [hges]
                  rfl
                rw [hs4_prevf, hg_is_g0, h3,
                  nodeAt_updNode_self u g0.id _ (by have := hg0lt g0 gt hges; omega)]
                show some s.store.length = prevSpec (lesOf k es ++
                  { id := s.store.length, key := k, value := v, level := lvl } ::
                    (gesOf k es).take 0)
                rw [show (gesOf k es).take 0 = ([] : List Entry) from rfl]
                rw [prevSpec, List.getLast?_concat]
                rfl
          | succ m2 =>
              have hne_g0 : ∀ g0 gt, gesOf k es = g0 :: gt →
                  ((gesOf k es).getD (m2 + 1) defaultEntry).id ≠ g0.id := by
                intro g0 gt hges hc
                have hd := ids_distinct hgesnodup hm
                  (show 0 < (gesOf k es).length by omega) (by omega)
                apply hd
                rw [hc, hges]
                rfl
              have hprev_chain : (nodeAt s4 ((gesOf k es).getD (m2 + 1) defaultEntry).id).prev =
                  (nodeAt s ((gesOf k es).getD (m2 + 1) defaultEntry).id).prev := by
                rw [hs4_prevf, hs3_prev_ne _ hne_g0, (hunodes _).2.2.1,
                  nodeAt_store_append_old s nd hg_id]
              rw [hprev_chain, hold]
              show prevSpec (lesOf k es ++ (gesOf k es).take (m2 + 1)) =
                prevSpec (lesOf k es ++
                  { id := s.store.length, key := k, value := v, level := lvl } ::
                    (gesOf k es).take (m2 + 1))
              have htkne : (gesOf k es).take (m2 + 1) ≠ [] := by
                intro hc
                have h6 := congrArg List.length hc
                rw [List.length_take] at h6
                simp only [List.length_nil] at h6
                omega
              rw [prevSpec, prevSpec,
                List.getLast?_append_of_ne_nil (lesOf k es) htkne,
                List.getLast?_append_of_ne_nil (lesOf k es)
                  (show ({ id := s.store.length, key := k, value := v, level := lvl } ::
                    (gesOf k es).take (m2 + 1)) ≠ [] by simp)]
              cases htk : (gesOf k es).take (m2 + 1) with
              | nil => exact absurd htk htkne
              | cons t0 tt => rw [List.getLast?_cons_cons]
        · -- prevTopLevel
          have hmemiff := @upds_mem_iff lvl (gesOf k es) hgesnodup hgeslev m hm
          have hstore3 : ((gesOf k es).getD m defaultEntry).id < s3.store.length := by
            rw [hs3_store, hustore]
            omega
          by_cases hmem : (gesOf k es).getD m defaultEntry ∈
              (records 0 (gesOf k es)).takeWhile fun g2 => decide (g2.level ≤ lvl)
          · have hidmem : ((gesOf k es).getD m defaultEntry).id ∈
                liveIds ((records 0 (gesOf k es)).takeWhile fun g =>
                  decide (g.level ≤ lvl)) :=
              List.mem_map.mpr ⟨_, hmem, rfl⟩
            rw [hs4_node _, if_pos ⟨hidmem, hstore3⟩]
            show some s.store.length =
              ptlSpec ((gesOf k es).getD m defaultEntry).level (lesOf k es ++
                { id := s.store.length, key := k, value := v, level := lvl } ::
                  (gesOf k es).take m)
            obtain ⟨hA1, hB1⟩ := hmemiff.mp hmem
            rw [(ptlSpec_insert_cases (lesOf k es) ((gesOf k es).take m) rfl hg_lev).1
              ⟨hA1, hB1⟩]
          · have hidnotmem : ((gesOf k es).getD m defaultEntry).id ∉
                liveIds ((records 0 (gesOf k es)).takeWhile fun g =>
                  decide (g.level ≤ lvl)) := by
              intro hc
              exact hmem ((id_mem_upds_iff hA.hIds hg_mem).mp hc)
            rw [hs4_node _, if_neg (by rintro ⟨h5, _⟩; exact hidnotmem h5)]
            rw [hs3_ptl _, (hunodes _).2.2.2.1, nodeAt_store_append_old s nd hg_id, hold]
            show ptlSpec ((gesOf k es).getD m defaultEntry).level
                (lesOf k es ++ (gesOf k es).take m) =
              ptlSpec ((gesOf k es).getD m defaultEntry).level (lesOf k es ++
                { id := s.store.length, key := k, value := v, level := lvl } ::
                  (gesOf k es).take m)
            exact ((ptlSpec_insert_cases (lesOf k es) ((gesOf k es).take m) rfl hg_lev).2
              fun hc => hmem (hmemiff.mpr hc)).symm
        · -- owner
          rw [hs4_ownerf, hs3_owner, (hunodes _).2.2.2.2.1,
            nodeAt_store_append_old s nd hg_id, hold]
          rfl
    · -- dead nodes stay foreign
      intro id hid hnotin
      show (nodeAt s4 id).ownerId ≠ some 0
      have hid2 : id < s4.store.length := hid
      rw [hs4_store] at hid2
      have hidnid : id ≠ s.store.length := by
        intro hc
        apply hnotin
        refine List.mem_map.mpr ⟨{ id := s.store.length, key := k, value := v, level := lvl },
          List.mem_append_right _ (List.mem_cons_self ..), ?_⟩
        rw [hc]
      have hidlt : id < s.store.length := by omega
      have hnotines : id ∉ liveIds es := by
        intro hc
        apply hnotin
        obtain ⟨p, hp1, hp2⟩ := List.mem_map.mp hc
        refine List.mem_map.mpr ⟨p, ?_, hp2⟩
        have hp3 : p ∈ lesOf k es ++ gesOf k es := by
          rw [lesOf_append_gesOf]
          exact hp1
        rcases List.mem_append.mp hp3 with h5 | h5
        · exact List.mem_append_left _ h5
        · exact List.mem_append_right _ (List.mem_cons_of_mem _ h5)
      have hown : (nodeAt s4 id).ownerId = (nodeAt s id).ownerId := by
        rw [hs4_ownerf id, hs3_owner id, (hunodes id).2.2.2.2.1,
          nodeAt_store_append_old s nd hidlt]
      rw [hown]
      exact hA.hDead id hidlt hnotines
    · -- back pointer
      exact hbk
    · -- length
      show s4.length + 1 = _
      rw [hs4_len, hA.hLen, hlen']
      conv_lhs => rw [← lesOf_append_gesOf k es]
      simp only [List.length_append]
      omega
  by_cases hc0 : (nodeAt s4 s.store.length).levels.getD 0 none = none
  · rw [if_pos hc0]
    refine hmain (some s.store.length) ?_
    have hgesnil : gesOf k es = [] := by
      cases hg : gesOf k es with
      | nil => rfl
      | cons g0 gt =>
          exfalso
          have h9 : nextGT 0 (gesOf k es) = none := by
            rw [← hcond0]
            exact hc0
          rw [hg] at h9
          have h5 := nextGT_eq_none.mp h9 g0 (List.mem_cons_self ..)
          have h6 := hgeslev g0 (by rw [hg]; exact List.mem_cons_self ..)
          omega
    rw [hgesnil, List.getLast?_concat]
    rfl
  · rw [if_neg hc0]
    refine hmain s4.back ?_
    have hgesne : gesOf k es ≠ [] := by
      intro hg
      apply hc0
      rw [hcond0, hg]
      rfl
    rw [hs4_back, hA.hBack]
    conv_lhs => rw [← lesOf_append_gesOf k es]
    rw [List.getLast?_append_of_ne_nil (lesOf k es) hgesne,
      List.getLast?_append_of_ne_nil (lesOf k es)
        (show ({ id := s.store.length, key := k, value := v, level := lvl } ::
          gesOf k es) ≠ [] by simp)]
    cases hg : gesOf k es with
    | nil => exact absurd hg hgesne
    | cons g0 gt => rw [List.getLast?_cons_cons]

theorem lastGT_up {j i : Nat} {l : List Entry} {p : Entry} (h : lastGT j l = some p)
    (hji : j ≤ i) (hip : i < p.level) : lastGT i l = some p := by
  obtain ⟨l1, l2, hdec, hall⟩ := lastGT_decomp h
  rw [hdec]
  exact lastGT_mid_all_le (fun x hx => by have := hall x hx; omega) hip l1

theorem lastGT_none_mono {j i : Nat} {l : List Entry} (h : lastGT j l = none) (hij : j ≤ i) :
    lastGT i l = none :=
  lastGT_eq_none.mpr fun x hx => by have := lastGT_eq_none.mp h x hx; omega

theorem getD_len_le {l : List (Option Nat)} {j : Nat} (h : l.length ≤ j) :
    l.getD j none = none := by
  simp only [List.getD, List.get?_eq_getElem?, List.getElem?_eq_none h]
  rfl

theorem fillRange_length (v : Option Nat) : ∀ cnt i (pe : List (Option Nat)),
    (fillRange v i cnt pe).length = pe.length := by
  intro cnt
  induction cnt with
  | zero => intro i pe; rfl
  | succ n ih =>
      intro i pe
      rw [fillRange, ih, List.length_set]

theorem fillRange_getD (v : Option Nat) : ∀ cnt i (pe : List (Option Nat)) (j : Nat),
    (fillRange v i cnt pe).getD j none =
      if i ≤ j ∧ j < i + cnt ∧ j < pe.length then v else pe.getD j none := by
  intro cnt
  induction cnt with
  | zero =>
      intro i pe j
      rw [fillRange, if_neg (by omega)]
  | succ n ih =>
      intro i pe j
      rw [fillRange, ih]
      have hlen : (pe.set i v).length = pe.length := List.length_set ..
      by_cases h1 : i + 1 ≤ j ∧ j < i + 1 + n ∧ j < (pe.set i v).length
      · rw [if_pos h1, if_pos (by rw [hlen] at h1; omega)]
      · rw [if_neg h1]
        by_cases h2 : j = i
        · subst h2
          by_cases h3 : j < pe.length
          · rw [getD_set_self h3, if_pos (by omega)]
          · rw [if_neg (by omega)]
            rw [getD_len_le (by rw [hlen]; omega), getD_len_le (by omega)]
        · rw [getD_set_ne (fun hc => h2 hc.symm), if_neg (by rw [hlen] at h1; omega)]

/-- The backward skip of `RemoveElement`: starting from the last entry of a
prefix whose level is at least `pl`, it lands on the last entry whose level
exceeds `pl`. -/
theorem removeSkip_spec {s : SL} {es : List Entry} (hA : Abs s es) (pl : Nat) (hpl : 1 ≤ pl) :
    ∀ fuel (c d : List Entry), es = c ++ d → c.length < fuel →
      removeSkip s pl fuel (posOf (lastGT (pl - 1) c)) = posOf (lastGT pl c) := by
  intro fuel
  induction fuel with
  | zero =>
      intro c d h hf
      omega
  | succ n ih =>
      intro c d hcd hf
      cases hq : lastGT (pl - 1) c with
      | none =>
          rw [lastGT_none_mono hq (show pl - 1 ≤ pl from by omega)]
          rfl
      | some q =>
          obtain ⟨c1, c2, hc, hc2⟩ := lastGT_decomp hq
          have hq2 := lastGT_mem hq
          have hdes : es = c1 ++ q :: (c2 ++ d) := by
            rw [hcd, hc]
            simp
          have hnode := abs_nodeAt hA hdes
          have hlen : (nodeAt s q.id).levels.length = q.level := by
            rw [hnode]
            exact levelsSpec_length ..
          show removeSkip s pl (n + 1) (some q.id) = posOf (lastGT pl c)
          rw [removeSkip]
          by_cases hql : q.level = pl
          · rw [hlen, if_pos hql]
            have hptl : (nodeAt s q.id).prevTopLevel =
                posOf (lastGT (q.level - 1) c1) := by
              rw [hnode]
              rfl
            rw [hptl, hql]
            have hc1lt : c1.length < c.length := by
              rw [hc]
              simp
            rw [ih c1 (q :: (c2 ++ d)) hdes (by omega)]
            rw [hc, lastGT_append]
            rw [show lastGT pl (q :: c2) = none from by
              rw [lastGT_cons_none fun x hx => by have := hc2 x hx; omega]
              rw [if_neg (by omega)]]
          · rw [hlen, if_neg hql]
            have hqgt : pl < q.level := by omega
            rw [lastGT_up hq (by omega) hqgt]
            rfl

/-- The predecessor-collection loop of `RemoveElement`: it fills the vector
of per-level predecessors of the removal position, and its counter either
reaches the removed node's level or stops where no predecessor exists. -/
theorem removePrevLoop_spec {s : SL} {es : List Entry} (hA : Abs s es)
    {pre rest : List Entry} (hdec : es = pre ++ rest) (lvl : Nat) :
    ∀ fuel mx prev pe,
      mx ≤ lvl →
      pe.length = lvl →
      (∀ i, i < mx → pe.getD i none = posOf (lastGT i pre)) →
      (∀ i, mx ≤ i → pe.getD i none = none) →
      (mx = lvl ∨ prev = posOf (lastGT mx pre)) →
      (mx < lvl → ∀ c1 p c2, pre = c1 ++ p :: c2 → lastGT mx pre = some p →
        c1.length + 2 ≤ fuel) →
      1 ≤ fuel →
      (removePrevLoop s lvl fuel mx prev pe).2.length = lvl ∧
      (∀ i, i < lvl → (removePrevLoop s lvl fuel mx prev pe).2.getD i none =
        posOf (lastGT i pre)) ∧
      ((removePrevLoop s lvl fuel mx prev pe).1 = lvl ∨
        ∀ i, (removePrevLoop s lvl fuel mx prev pe).1 ≤ i → lastGT i pre = none) ∧
      (removePrevLoop s lvl fuel mx prev pe).1 ≤ lvl := by
  have hprenodup : (liveIds pre).Nodup := liveIds_prefix_nodup hA.hIds hdec
  intro fuel
  induction fuel with
  | zero =>
      intro mx prev pe _ _ _ _ _ _ hfuel
      exact absurd hfuel (by omega)
  | succ n ih =>
      intro mx prev pe hmx hpelen hpe1 hpe2 hprev hbound _
      cases prev with
      | none =>
          have hstep : removePrevLoop s lvl (n + 1) mx none pe = (mx, pe) := by
            rw [removePrevLoop]
          rw [hstep]
          rcases hprev with heq | h5
          · refine ⟨hpelen, ?_, Or.inl heq, by omega⟩
            intro i hi
            exact hpe1 i (by omega)
          · have hnone : ∀ i, mx ≤ i → lastGT i pre = none := by
              intro i hi
              cases hl : lastGT mx pre with
              | none => exact lastGT_none_mono hl hi
              | some p =>
                  rw [hl] at h5
                  cases h5
            refine ⟨hpelen, ?_, Or.inr hnone, hmx⟩
            intro i hi
            rcases Nat.lt_or_ge i mx with h6 | h6
            · exact hpe1 i h6
            · rw [hpe2 i h6, hnone i h6]
              rfl
      | some pid =>
          by_cases hmxl : mx < lvl
          · have hne : mx ≠ lvl := by omega
            have h5 : some pid = posOf (lastGT mx pre) := by
              rcases hprev with h | h
              · exact absurd h hne
              · exact h
            obtain ⟨p, hq, hpid⟩ : ∃ p, lastGT mx pre = some p ∧ p.id = pid := by
              cases hl : lastGT mx pre with
              | none =>
                  rw [hl] at h5
                  cases h5
              | some p =>
                  rw [hl] at h5
                  refine ⟨p, rfl, ?_⟩
                  injection h5 with h5
                  exact h5.symm
            obtain ⟨c1, c2, hc, hc2⟩ := lastGT_decomp hq
            have hpm := lastGT_mem hq
            have hdes : es = c1 ++ p :: (c2 ++ rest) := by
              rw [hdec, hc]
              simp
            have hnode := abs_nodeAt hA hdes
            have hpes : p ∈ es := by
              rw [hdes]
              exact List.mem_append_right _ (List.mem_cons_self ..)
            have hplev1 : 1 ≤ p.level := (hA.hLevels p hpes).1
            have hlenp : (nodeAt s pid).levels.length = p.level := by
              rw [← hpid, hnode]
              exact levelsSpec_length ..
            have hptlp : (nodeAt s pid).prevTopLevel =
                posOf (lastGT (p.level - 1) c1) := by
              rw [← hpid, hnode]
              rfl
            have hstep : removePrevLoop s lvl (n + 1) mx (some pid) pe =
                removePrevLoop s lvl n (max mx (min (nodeAt s pid).levels.length lvl))
                  (removeSkip s (nodeAt s pid).levels.length (s.store.length + 1)
                    (nodeAt s pid).prevTopLevel)
                  (fillRange (some pid) mx
                    (min (nodeAt s pid).levels.length lvl - mx) pe) := by
              rw [removePrevLoop, if_pos hmxl]
            rw [hlenp, hptlp] at hstep
            have hc1len : c1.length < es.length := by
              rw [hdes]
              simp
            have hstorelen := es_length_le_store hA
            have hskip := removeSkip_spec hA p.level hplev1 (s.store.length + 1)
              c1 (p :: (c2 ++ rest)) hdes (by omega)
            rw [hskip] at hstep
            have hlast : lastGT p.level c1 = lastGT p.level pre := by
              rw [hc, lastGT_append]
              rw [show lastGT p.level (p :: c2) = none from by
                rw [lastGT_cons_none fun x hx => by have := hc2 x hx; omega]
                rw [if_neg (by omega)]]
            rw [hlast] at hstep
            have hmaxeq : max mx (min p.level lvl) = min p.level lvl := by
              have := hpm.2
              omega
            rw [hmaxeq] at hstep
            rw [hstep]
            have hhi1 : mx < min p.level lvl := by
              have := hpm.2
              omega
            refine ih (min p.level lvl) (posOf (lastGT p.level pre))
              (fillRange (some pid) mx (min p.level lvl - mx) pe)
              (by omega) (by rw [fillRange_length]; exact hpelen) ?_ ?_ ?_ ?_ ?_
            · intro i hi
              rw [fillRange_getD]
              rcases Nat.lt_or_ge i mx with h6 | h6
              · rw [if_neg (by omega)]
                exact hpe1 i h6
              · rw [if_pos ⟨h6, by omega, by rw [hpelen]; omega⟩]
                rw [lastGT_up hq h6 (show i < p.level by omega), ← hpid]
                rfl
            · intro i hi
              rw [fillRange_getD, if_neg (by omega)]
              exact hpe2 i (by omega)
            · by_cases hple : p.level ≤ lvl
              · refine Or.inr ?_
                rw [Nat.min_eq_left hple]
              · refine Or.inl ?_
                rw [Nat.min_eq_right (by omega)]
            · intro hlt2 a p2 b hdec2 hq2
              have hp2mem := lastGT_mem hq2
              have hp2lev : min p.level lvl < p2.level := hp2mem.2
              have hminp : min p.level lvl = p.level := by omega
              rw [hminp] at hq2
              rw [hminp] at hp2lev
              have hp2pre := hp2mem.1
              have hp2c1 : p2 ∈ c1 := by
                rw [hc] at hp2pre
                rcases List.mem_append.mp hp2pre with h7 | h7
                · exact h7
                · exfalso
                  rcases List.mem_cons.mp h7 with rfl | h8
                  · omega
                  · have := hc2 p2 h8
                    have := hpm.2
                    omega
              obtain ⟨a0, b0, hc1dec⟩ := List.append_of_mem hp2c1
              have hpredec2 : pre = a0 ++ p2 :: (b0 ++ p :: c2) := by
                rw [hc, hc1dec]
                simp
              obtain ⟨haeq, _⟩ := unique_mid hprenodup hdec2 hpredec2
              have halen : a.length = a0.length := by rw [haeq]
              have hc1l : c1.length = a0.length + b0.length + 1 := by
                rw [hc1dec]
                simp
                omega
              have hold := hbound hmxl c1 p c2 hc hq
              omega
            · have hold := hbound hmxl c1 p c2 hc hq
              omega
          · have hstep : removePrevLoop s lvl (n + 1) mx (some pid) pe = (mx, pe) := by
              rw [removePrevLoop, if_neg hmxl]
            rw [hstep]
            have hmxeq : mx = lvl := by omega
            refine ⟨hpelen, ?_, Or.inl hmxeq, hmx⟩
            intro i hi
            exact hpe1 i (by omega)

theorem unspliceInv_init (s0 : SL) (eid : Nat) (W : Nat → Option Nat) :
    unspliceInv s0 s0 eid W 0 :=
  ⟨frameEq_refl s0, rfl, rfl, fun _ => eqExceptLevels_refl _, fun _ _ _ => rfl,
    fun _ j hj => absurd hj (by omega)⟩

/-- One write of the unsplice loops preserves the invariant. -/
theorem unspliceInv_step (s0 : SL) (eid : Nat) (W : Nat → Option Nat) (i : Nat) (t : SL)
    (hWne : W i ≠ some eid) (hWid : ∀ tid, W i = some tid → tid < s0.store.length)
    (hWlen : i < lenPH s0 (W i))
    (hinv : unspliceInv s0 t eid W i) :
    unspliceInv s0 (setPtrPH t (W i) i ((nodeAt t eid).levels.getD i none)) eid W (i + 1) := by
  obtain ⟨hfr, hlen, hback, hnodes, hhigh, hlow⟩ := hinv
  have hval : (nodeAt t eid).levels.getD i none = ptrPH s0 (some eid) i :=
    hhigh (some eid) i (Nat.le_refl i)
  refine ⟨frameEq_trans hfr (frameEq_setPtrPH ..), ?_, ?_, ?_, ?_, ?_⟩
  · rw [setPtrPH_length]
    exact hlen
  · rw [setPtrPH_back]
    exact hback
  · intro id
    exact eqExceptLevels_trans (eqExceptLevels_setPtrPH ..) (hnodes id)
  · intro ph j hj
    rw [ptrPH_setPtrPH_ne _ _ _ _ _ _ (Or.inr (by omega))]
    exact hhigh ph j (by omega)
  · intro ph j hj
    rcases Nat.lt_or_ge j i with hji | hji
    · rw [ptrPH_setPtrPH_ne _ _ _ _ _ _ (Or.inr (by omega))]
      exact hlow ph j hji
    · have hji2 : j = i := by omega
      subst hji2
      by_cases hph : ph = W j
      · rw [if_pos hph, hph]
        rw [ptrPH_setPtrPH_self t (W j) j _ ?_ ?_]
        · exact hval
        · rw [lenPH_of_inv hfr hnodes (W j)]
          exact hWlen
        · intro tid htid
          have := hWid tid htid
          rw [hfr.1]
          omega
      · rw [if_neg hph]
        rw [ptrPH_setPtrPH_ne _ _ _ _ _ _ (Or.inl fun hc => hph hc.symm)]
        exact hhigh ph j (Nat.le_refl j)

/-- The node-predecessor unsplice loop, characterised through the invariant. -/
theorem removeUnspliceNodes_invar (eid : Nat) (pe : List (Option Nat)) (s0 : SL)
    (W : Nat → Option Nat)
    (hWne : ∀ j, W j ≠ some eid)
    (hWid : ∀ j tid, W j = some tid → tid < s0.store.length) :
    ∀ cnt i t, (∀ j, i ≤ j → j < i + cnt → W j = pe.getD j none ∧ j < lenPH s0 (W j)) →
      unspliceInv s0 t eid W i →
      unspliceInv s0 (removeUnspliceNodes eid pe i cnt t) eid W (i + cnt) := by
  intro cnt
  induction cnt with
  | zero =>
      intro i t _ hinv
      exact hinv
  | succ n ih =>
      intro i t hrange hinv
      rw [removeUnspliceNodes]
      have hWi := hrange i (Nat.le_refl i) (by omega)
      have hstep := unspliceInv_step s0 eid W i t (hWne i) (hWid i) hWi.2 hinv
      rw [hWi.1] at hstep
      have h9 := ih (i + 1) _ (fun j h1 h2 => hrange j (by omega) (by omega)) hstep
      rw [show i + (n + 1) = i + 1 + n from by omega]
      exact h9

/-- The header unsplice loop, characterised through the invariant. -/
theorem removeUnspliceHeader_invar (eid : Nat) (s0 : SL) (W : Nat → Option Nat)
    (hWne : ∀ j, W j ≠ some eid)
    (hWid : ∀ j tid, W j = some tid → tid < s0.store.length) :
    ∀ cnt i t, (∀ j, i ≤ j → j < i + cnt → W j = none ∧ j < lenPH s0 (W j)) →
      unspliceInv s0 t eid W i →
      unspliceInv s0 (removeUnspliceHeader eid i cnt t) eid W (i + cnt) := by
  intro cnt
  induction cnt with
  | zero =>
      intro i t _ hinv
      exact hinv
  | succ n ih =>
      intro i t hrange hinv
      rw [removeUnspliceHeader]
      have hWi := hrange i (Nat.le_refl i) (by omega)
      have hstep := unspliceInv_step s0 eid W i t (hWne i) (hWid i) hWi.2 hinv
      rw [hWi.1] at hstep
      have h9 := ih (i + 1) _ (fun j h1 h2 => hrange j (by omega) (by omega)) hstep
      rw [show i + (n + 1) = i + 1 + n from by omega]
      exact h9

theorem removePtlResult_nil (pe : List (Option Nat)) (t : SL) :
    removePtlResult pe [] t = t := rfl

theorem removePtlResult_cons (pe : List (Option Nat)) (g : Entry) (L : List Entry) (t : SL) :
    removePtlResult pe (g :: L) t =
      removePtlResult pe L (updNode t g.id fun nd =>
        { nd with prevTopLevel := pe.getD (g.level - 1) none }) := rfl

theorem removePtlResult_append (pe : List (Option Nat)) (u1 u2 : List Entry) (t : SL) :
    removePtlResult pe (u1 ++ u2) t = removePtlResult pe u2 (removePtlResult pe u1 t) :=
  List.foldl_append ..

theorem nodeAt_removePtlResult_notmem (pe : List (Option Nat)) :
    ∀ (upds : List Entry) (t : SL) (id : Nat), id ∉ liveIds upds →
      nodeAt (removePtlResult pe upds t) id = nodeAt t id := by
  intro upds
  induction upds with
  | nil =>
      intro t id _
      rfl
  | cons g L ih =>
      intro t id hid
      have hid1 : id ≠ g.id := by
        intro hc
        apply hid
        rw [show liveIds (g :: L) = g.id :: liveIds L from rfl, hc]
        exact List.mem_cons_self ..
      have hid2 : id ∉ liveIds L := by
        intro hc
        apply hid
        rw [show liveIds (g :: L) = g.id :: liveIds L from rfl]
        exact List.mem_cons_of_mem _ hc
      rw [removePtlResult_cons, ih _ _ hid2]
      exact nodeAt_updNode_ne t g.id id _ fun hc => hid1 hc.symm

theorem removePtlResult_frame (pe : List (Option Nat)) : ∀ (upds : List Entry) (t : SL),
    frameEq t (removePtlResult pe upds t) ∧ (removePtlResult pe upds t).length = t.length ∧
      (removePtlResult pe upds t).back = t.back ∧
      (removePtlResult pe upds t).headerBacking = t.headerBacking := by
  intro upds
  induction upds with
  | nil =>
      intro t
      exact ⟨frameEq_refl t, rfl, rfl, rfl⟩
  | cons g L ih =>
      intro t
      rw [removePtlResult_cons]
      obtain ⟨h1, h2, h3, h4⟩ := ih (updNode t g.id fun nd =>
        { nd with prevTopLevel := pe.getD (g.level - 1) none })
      refine ⟨frameEq_trans (frameEq_updNode ..) h1, ?_, ?_, ?_⟩
      · rw [h2, updNode_length]
      · rw [h3, updNode_back]
      · rw [h4]
        rfl

theorem ptrPH_removePtlResult (pe : List (Option Nat)) :
    ∀ (upds : List Entry) (t : SL) (ph : Option Nat) (j : Nat),
      ptrPH (removePtlResult pe upds t) ph j = ptrPH t ph j := by
  intro upds
  induction upds with
  | nil =>
      intro t ph j
      rfl
  | cons g L ih =>
      intro t ph j
      rw [removePtlResult_cons, ih, ptrPH_updNode_keepLevels]
      intro nd
      rfl

theorem removePtlResult_fields (pe : List (Option Nat)) :
    ∀ (upds : List Entry) (t : SL) (id : Nat),
      (nodeAt (removePtlResult pe upds t) id).key = (nodeAt t id).key ∧
      (nodeAt (removePtlResult pe upds t) id).value = (nodeAt t id).value ∧
      (nodeAt (removePtlResult pe upds t) id).levels = (nodeAt t id).levels ∧
      (nodeAt (removePtlResult pe upds t) id).prev = (nodeAt t id).prev ∧
      (nodeAt (removePtlResult pe upds t) id).ownerId = (nodeAt t id).ownerId := by
  intro upds
  induction upds with
  | nil =>
      intro t id
      exact ⟨rfl, rfl, rfl, rfl, rfl⟩
  | cons g L ih =>
      intro t id
      rw [removePtlResult_cons]
      obtain ⟨h1, h2, h3, h4, h5⟩ := ih (updNode t g.id fun nd =>
        { nd with prevTopLevel := pe.getD (g.level - 1) none }) id
      rw [h1, h2, h3, h4, h5, nodeAt_updNode]
      split
      · exact ⟨rfl, rfl, rfl, rfl, rfl⟩
      · exact ⟨rfl, rfl, rfl, rfl, rfl⟩

theorem nodeAt_removePtlResult_mem (pe : List (Option Nat)) (u1 : List Entry) (g : Entry)
    (u2 : List Entry) (t : SL) (hnd : (liveIds (u1 ++ g :: u2)).Nodup)
    (hlt : g.id < t.store.length) :
    nodeAt (removePtlResult pe (u1 ++ g :: u2) t) g.id =
      { nodeAt t g.id with prevTopLevel := pe.getD (g.level - 1) none } := by
  have hids : liveIds (u1 ++ g :: u2) = liveIds u1 ++ g.id :: liveIds u2 := by
    simp [liveIds]
  rw [hids] at hnd
  obtain ⟨hn1, hn2, hdisj⟩ := List.nodup_append.mp hnd
  rw [removePtlResult_append, removePtlResult_cons]
  rw [nodeAt_removePtlResult_notmem pe u2 _ g.id (List.nodup_cons.mp hn2).1]
  have hlt2 : g.id < (removePtlResult pe u1 t).store.length := by
    rw [(removePtlResult_frame pe u1 t).1.1]
    exact hlt
  rw [nodeAt_updNode_self _ g.id _ hlt2]
  rw [nodeAt_removePtlResult_notmem pe u1 t g.id
    (fun hc => hdisj hc (List.mem_cons_self ..))]

/-- The `prevTopLevel` fix-up loop of `RemoveElement`: it repoints exactly
the staircase of at-or-above successors whose levels do not exceed the
removed node's, stopping at the first that points elsewhere. -/
theorem removePtlFix_spec (eid lvl : Nat) (pe : List (Option Nat)) :
    ∀ fuel (rest : List Entry) (i : Nat) (t : SL),
      lvl - i < fuel →
      (∀ j, i ≤ j → j < lvl → (nodeAt t eid).levels.getD j none = nextGT j rest) →
      (∀ g ∈ rest, (nodeAt t g.id).levels.length = g.level ∧ g.id ≠ eid) →
      (∀ g ∈ records i rest, ((nodeAt t g.id).prevTopLevel = some eid ↔ g.level ≤ lvl)) →
      (liveIds rest).Nodup →
      removePtlFix eid lvl pe fuel i t =
        removePtlResult pe ((records i rest).takeWhile fun g => decide (g.level ≤ lvl)) t := by
  intro fuel
  induction fuel with
  | zero =>
      intro rest i t hf _ _ _ _
      omega
  | succ n ih =>
      intro rest i t hf hreads hrest hrec hnodup
      rw [removePtlFix]
      by_cases hil : i < lvl
      · rw [if_pos hil]
        rw [hreads i (Nat.le_refl i) hil]
        cases hnx : nextGT i rest with
        | none =>
            rw [records_eq_nil (nextGT_eq_none.mp hnx)]
            rfl
        | some nxid =>
            dsimp only
            obtain ⟨c, g, d, hcd, hcle, hglev, hgid⟩ := nextGT_some hnx
            have hgrest : g ∈ rest := by
              rw [hcd]
              exact List.mem_append_right _ (by simp)
            obtain ⟨hglen, hgne⟩ := hrest g hgrest
            have hgrec : g ∈ records i rest := by
              rw [hcd, records_append_skip hcle, records_cons_pos d hglev]
              exact List.mem_cons_self ..
            have hptlg := hrec g hgrec
            rw [← hgid, hglen]
            rw [hcd, records_append_skip hcle, records_cons_pos d hglev]
            have hdnodup : (liveIds d).Nodup := by
              refine liveIds_suffix_nodup hnodup (show rest = (c ++ [g]) ++ d from ?_)
              rw [hcd]
              simp
            have hgne2 : ∀ g2 ∈ d, g2.id ≠ g.id := by
              intro g2 hg2 hcc
              have hids : liveIds rest = liveIds c ++ g.id :: liveIds d := by
                rw [hcd]
                simp [liveIds]
              have h8 := hnodup
              rw [hids] at h8
              have h9 := (List.nodup_append.mp h8).2.1
              exact (List.nodup_cons.mp h9).1 (hcc ▸ List.mem_map.mpr ⟨g2, hg2, rfl⟩)
            have hlift : ∀ g2 ∈ records g.level d, g2 ∈ records i rest := by
              intro g2 h2
              rw [hcd, records_append_skip hcle, records_cons_pos d hglev]
              exact List.mem_cons_of_mem _ h2
            by_cases hgl : g.level ≤ lvl
            · rw [if_neg (by simp [hptlg.mpr hgl])]
              rw [List.takeWhile_cons_of_pos (by simp [hgl]), removePtlResult_cons]
              refine ih d g.level _ (by omega) ?_ ?_ ?_ hdnodup
              · intro j h1 h2
                rw [show nodeAt (updNode t g.id fun nd =>
                    { nd with prevTopLevel := pe.getD (g.level - 1) none }) eid = nodeAt t eid
                  from nodeAt_updNode_ne t g.id eid _ hgne]
                rw [hreads j (by omega) h2, hcd,
                  show c ++ g :: d = (c ++ [g]) ++ d from by simp]
                refine nextGT_append ?_
                intro e he
                rcases List.mem_append.mp he with h7 | h7
                · have := hcle e h7
                  omega
                · rw [List.mem_singleton.mp h7]
                  omega
              · intro g2 hg2
                have hg2rest : g2 ∈ rest := by
                  rw [hcd]
                  exact List.mem_append_right _ (List.mem_cons_of_mem _ hg2)
                obtain ⟨ha, hb⟩ := hrest g2 hg2rest
                refine ⟨?_, hb⟩
                rw [show (nodeAt (updNode t g.id fun nd =>
                    { nd with prevTopLevel := pe.getD (g.level - 1) none }) g2.id).levels.length
                  = (nodeAt t g2.id).levels.length from by rw [nodeAt_updNode]; split <;> rfl]
                exact ha
              · intro g2 hg2
                have hg2d : g2 ∈ d := (records_mem hg2).1
                rw [nodeAt_updNode_ne t g.id g2.id _ fun hc => hgne2 g2 hg2d hc.symm]
                exact hrec g2 (hlift g2 hg2)
            · have hne3 : (nodeAt t g.id).prevTopLevel ≠ some eid := by
                intro hc
                exact hgl (hptlg.mp hc)
              rw [if_pos hne3]
              rw [List.takeWhile_cons_of_neg (by simp [hgl])]
              rfl
      · rw [if_neg hil]
        rw [records_takeWhile_nil rest (by omega)]
        rfl

theorem mid_id_facts {es pre post : List Entry} {e : Entry} (hn : (liveIds es).Nodup)
    (hdec : es = pre ++ e :: post) :
    (∀ p ∈ pre, p.id ≠ e.id) ∧ (∀ g ∈ post, g.id ≠ e.id) ∧
      List.Disjoint (liveIds pre) (liveIds post) := by
  have hids : liveIds es = liveIds pre ++ e.id :: liveIds post := by
    rw [hdec]
    simp [liveIds]
  rw [hids] at hn
  obtain ⟨hn1, hn2, hdisj⟩ := List.nodup_append.mp hn
  refine ⟨?_, ?_, ?_⟩
  · intro p hp hc
    refine hdisj (List.mem_map.mpr ⟨p, hp, rfl⟩) ?_
    rw [hc]
    exact List.mem_cons_self ..
  · intro g hg hc
    exact (List.nodup_cons.mp hn2).1 (hc ▸ List.mem_map.mpr ⟨g, hg, rfl⟩)
  · intro x hx1 hx2
    exact hdisj hx1 (List.mem_cons_of_mem _ hx2)

/-- `removeCore`, written out with its intermediate states named. -/
theorem removeCore_unfold (s : SL) (eid : Nat) :
    ∀ (lvl : Nat) (mp : Nat × List (Option Nat)) (s1 s2 s3 s4 s5 : SL),
      lvl = (nodeAt s eid).levels.length →
      mp = removePrevLoop s lvl (s.store.length + 1) 0 (nodeAt s eid).prev
        (List.replicate lvl none) →
      s1 = removeUnspliceNodes eid mp.2 0 mp.1 s →
      s2 = removeUnspliceHeader eid mp.1 (lvl - mp.1) s1 →
      s3 = (match (nodeAt s2 eid).levels.getD 0 none with
            | none => s2
            | some nx => updNode s2 nx fun nd => { nd with prev := (nodeAt s2 eid).prev }) →
      s4 = removePtlFix eid lvl mp.2 (lvl + 1) 0 s3 →
      s5 = (if s4.back = some eid then { s4 with back := (nodeAt s4 eid).prev } else s4) →
      removeCore s eid = { s5 with length := s5.length - 1 } := by
  intro lvl mp s1 s2 s3 s4 s5 h0 h1 h2 h3 h4 h5 h6
  subst h0
  subst h1
  subst h2
  subst h3
  subst h4
  subst h5
  subst h6
  rfl

/-- After the unsplice, the removed node's own pointers are unchanged. -/
theorem unsplice_read_eid {s u2 : SL} {es pre post : List Entry} {e : Entry}
    (hA : Abs s es) (hdec : es = pre ++ e :: post)
    (hinv : unspliceInv s u2 e.id (prevW pre) e.level) (j : Nat) :
    ptrPH u2 (some e.id) j = ptrPH s (some e.id) j := by
  obtain ⟨hprene, hpostne, hdisj0⟩ := mid_id_facts hA.hIds hdec
  obtain ⟨_, _, _, _, hhigh, hlow⟩ := hinv
  rcases Nat.lt_or_ge j e.level with hj | hj
  · have hcond : ¬ (some e.id = prevW pre j) := by
      rw [prevW]
      intro hc
      cases hl : lastGT j pre with
      | none =>
          rw [hl] at hc
          cases hc
      | some p =>
          rw [hl] at hc
          injection hc with hc
          exact hprene p (lastGT_mem hl).1 hc.symm
    have h9 := hlow (some e.id) j hj
    rw [if_neg hcond] at h9
    exact h9
  · exact hhigh (some e.id) j hj

/-- After the unsplice, the header's pointers read as the spec of the entry
sequence with the removed entry deleted. -/
theorem unsplice_read_header {s u2 : SL} {es pre post : List Entry} {e : Entry}
    (hA : Abs s es) (hdec : es = pre ++ e :: post)
    (hinv : unspliceInv s u2 e.id (prevW pre) e.level) {j : Nat} (hj : j < 18) :
    ptrPH u2 none j = nextGT j (pre ++ post) := by
  have heidlev : ptrPH s (some e.id) j = if j < e.level then nextGT j post else none := by
    rw [show ptrPH s (some e.id) j = (nodeAt s e.id).levels.getD j none from rfl,
      abs_nodeAt hA hdec]
    exact levelsSpec_getD ..
  obtain ⟨_, _, _, _, hhigh, hlow⟩ := hinv
  rcases Nat.lt_or_ge j e.level with hjl | hjl
  · have h9 := hlow none j hjl
    cases hl : lastGT j pre with
    | none =>
        rw [prevW, hl, show posOf (none : Option Entry) = none from rfl,
          if_pos rfl] at h9
        rw [h9, heidlev, if_pos hjl, nextGT_append (lastGT_eq_none.mp hl)]
    | some p =>
        have hcond : ¬ ((none : Option Nat) = prevW pre j) := by
          rw [prevW, hl]
          intro hc
          cases hc
        rw [if_neg hcond] at h9
        rw [h9, abs_ptr_header hA hj]
        have hpm := lastGT_mem hl
        cases hw : nextGT j pre with
        | none =>
            exfalso
            have := nextGT_eq_none.mp hw p hpm.1
            omega
        | some w =>
            rw [hdec, nextGT_append_some hw, nextGT_append_some hw]
  · have h9 := hhigh none j hjl
    rw [h9, abs_ptr_header hA hj, hdec, nextGT_middle_skip hjl pre post]

/-- After the unsplice, a prefix node's pointers read as the spec over its
successor sequence with the removed entry deleted. -/
theorem unsplice_read_pre {s u2 : SL} {es pre post : List Entry} {e : Entry}
    (hA : Abs s es) (hdec : es = pre ++ e :: post)
    (hinv : unspliceInv s u2 e.id (prevW pre) e.level)
    {l1 : List Entry} {x : Entry} {l2 : List Entry} (hxdec : pre = l1 ++ x :: l2)
    {j : Nat} (hj : j < x.level) :
    ptrPH u2 (some x.id) j = nextGT j (l2 ++ post) := by
  obtain ⟨hprene, hpostne, hdisj0⟩ := mid_id_facts hA.hIds hdec
  have hxpre : x ∈ pre := by
    rw [hxdec]
    exact List.mem_append_right _ (List.mem_cons_self ..)
  have hxes : x ∈ es := by
    rw [hdec]
    exact List.mem_append_left _ hxpre
  have hdes : es = l1 ++ x :: (l2 ++ e :: post) := by
    rw [hdec, hxdec]
    simp
  have hold : ptrPH s (some x.id) j = nextGT j (l2 ++ e :: post) := abs_ptr_node hA hdes hj
  have heidlev : ptrPH s (some e.id) j = if j < e.level then nextGT j post else none := by
    rw [show ptrPH s (some e.id) j = (nodeAt s e.id).levels.getD j none from rfl,
      abs_nodeAt hA hdec]
    exact levelsSpec_getD ..
  have hprenodup : (liveIds pre).Nodup := liveIds_prefix_nodup hA.hIds hdec
  obtain ⟨_, _, _, _, hhigh, hlow⟩ := hinv
  rcases Nat.lt_or_ge j e.level with hjl | hjl
  · have h9 := hlow (some x.id) j hjl
    by_cases hhit : prevW pre j = some x.id
    · rw [hhit, if_pos rfl] at h9
      rw [h9, heidlev, if_pos hjl]
      rw [prevW] at hhit
      obtain ⟨p, hp1, hp2⟩ : ∃ p, lastGT j pre = some p ∧ p.id = x.id := by
        cases hl : lastGT j pre with
        | none =>
            rw [hl] at hhit
            cases hhit
        | some p =>
            rw [hl] at hhit
            injection hhit with hhit
            exact ⟨p, rfl, hhit⟩
      have hpx : p = x := abs_id_inj hA.hIds
        (by rw [hdec]; exact List.mem_append_left _ (lastGT_mem hp1).1) hxes hp2
      subst hpx
      obtain ⟨l1x, l2x, hlx, hl2x⟩ := lastGT_decomp hp1
      obtain ⟨_, hx2⟩ := unique_mid hprenodup hlx hxdec
      rw [hx2] at hl2x
      rw [nextGT_append hl2x]
    · rw [if_neg fun hc => hhit hc.symm] at h9
      rw [h9, hold]
      by_cases hall : ∀ y ∈ l2, y.level ≤ j
      · exfalso
        apply hhit
        rw [prevW, hxdec, lastGT_append]
        rw [show lastGT j (x :: l2) = some x from by
          rw [lastGT_cons_none hall, if_pos hj]]
        rfl
      · push_neg at hall
        obtain ⟨y, hy1, hy2⟩ := hall
        cases hw : nextGT j l2 with
        | none =>
            exfalso
            have := nextGT_eq_none.mp hw y hy1
            omega
        | some w => rw [nextGT_append_some hw, nextGT_append_some hw]
  · have h9 := hhigh (some x.id) j hjl
    rw [h9, hold, nextGT_middle_skip hjl l2 post]

/-- The unsplice does not change the pointers of any successor node. -/
theorem unsplice_read_post {s u2 : SL} {es pre post : List Entry} {e : Entry}
    (hA : Abs s es) (hdec : es = pre ++ e :: post)
    (hinv : unspliceInv s u2 e.id (prevW pre) e.level)
    {g : Entry} (hg : g ∈ post) (j : Nat) :
    ptrPH u2 (some g.id) j = ptrPH s (some g.id) j := by
  obtain ⟨hprene, hpostne, hdisj0⟩ := mid_id_facts hA.hIds hdec
  obtain ⟨_, _, _, _, hhigh, hlow⟩ := hinv
  rcases Nat.lt_or_ge j e.level with hjl | hjl
  · have hcond : ¬ (some g.id = prevW pre j) := by
      rw [prevW]
      intro hc
      cases hl : lastGT j pre with
      | none =>
          rw [hl] at hc
          cases hc
      | some p =>
          rw [hl, show posOf (some p) = some p.id from rfl] at hc
          injection hc with hc
          refine hdisj0 (List.mem_map.mpr ⟨p, (lastGT_mem hl).1, rfl⟩) ?_
          rw [← hc]
          exact List.mem_map.mpr ⟨g, hg, rfl⟩
    have h9 := hlow (some g.id) j hjl
    rw [if_neg hcond] at h9
    exact h9
  · exact hhigh (some g.id) j hjl

theorem records_sublist (i : Nat) : ∀ l : List Entry, List.Sublist (records i l) l := by
  intro l
  induction l generalizing i with
  | nil => exact List.Sublist.refl []
  | cons x rest ih =>
      rw [records]
      by_cases h : i < x.level
      · rw [if_pos h]
        exact List.Sublist.cons₂ x (ih ..)
      · rw [if_neg h]
        exact List.Sublist.cons x (ih ..)

theorem upds_nodup {lvl : Nat} {post : List Entry} (hnd : (liveIds post).Nodup) :
    (liveIds ((records 0 post).takeWhile fun g => decide (g.level ≤ lvl))).Nodup := by
  refine List.Nodup.sublist (List.Sublist.map _ ?_) hnd
  exact List.Sublist.trans (List.takeWhile_sublist _) (records_sublist 0 post)

theorem id_mem_upds_iff_gen {post es : List Entry} (hids : (liveIds es).Nodup)
    {lvl : Nat} {g : Entry} (hg : g ∈ es) (hsub : ∀ x ∈ post, x ∈ es) :
    (g.id ∈ liveIds ((records 0 post).takeWhile fun g2 => decide (g2.level ≤ lvl)) ↔
      g ∈ (records 0 post).takeWhile fun g2 => decide (g2.level ≤ lvl)) := by
  constructor
  · intro hc
    obtain ⟨g2, hg2, hg2x⟩ := List.mem_map.mp hc
    have hg2post : g2 ∈ post := (records_mem (mem_takeWhile_records.mp hg2).1).1
    have h5 : g2 = g := abs_id_inj hids (hsub g2 hg2post) hg hg2x
    rw [← h5]
    exact hg2
  · intro hc
    exact List.mem_map.mpr ⟨g, hc, rfl⟩

/-- A prefix node, as stored after the unsplice, is the spec node of its
entry with the removed entry deleted from its successors. -/
theorem remove_pre_node {s u2 : SL} {es pre post : List Entry} {e : Entry}
    (hA : Abs s es) (hdec : es = pre ++ e :: post)
    (hinv : unspliceInv s u2 e.id (prevW pre) e.level)
    {i : Nat} (hi : i < pre.length) :
    nodeAt u2 (pre.getD i defaultEntry).id =
      nodeSpec 0 (pre.take i) (pre.getD i defaultEntry)
        (pre.drop (i + 1) ++ post) := by
  have hsplit := list_split_at hi
  have hme0 : pre.getD i defaultEntry ∈ pre := by
    rw [List.getD_eq_getElem _ _ hi]
    exact List.getElem_mem ..
  have hme : pre.getD i defaultEntry ∈ es := by
    rw [hdec]
    exact List.mem_append_left _ hme0
  have hdes : es = pre.take i ++ pre.getD i defaultEntry ::
      (pre.drop (i + 1) ++ e :: post) := by
    conv_lhs => rw [hdec]
    conv_lhs => rw [hsplit]
    simp
  have hold := abs_nodeAt hA hdes
  have heq := hinv.2.2.2.1 (pre.getD i defaultEntry).id
  obtain ⟨e1, e2, e3, e4, e5, e6⟩ := heq
  refine node_eq_of_fields ?_ ?_ ?_ ?_ ?_ ?_
  · rw [e1, hold]
    rfl
  · rw [e2, hold]
    rfl
  · refine list_eq_of_getD ?_ ?_
    · rw [e6, hold]
      show (levelsSpec (pre.getD i defaultEntry).level
        (pre.drop (i + 1) ++ e :: post)).length = _
      rw [levelsSpec_length]
      show _ = (levelsSpec (pre.getD i defaultEntry).level
        (pre.drop (i + 1) ++ post)).length
      rw [levelsSpec_length]
    · intro j hj
      rw [e6, hold] at hj
      have hjlev : j < (pre.getD i defaultEntry).level := by
        simpa [nodeSpec, levelsSpec_length] using hj
      have hread := unsplice_read_pre hA hdec hinv hsplit hjlev
      show ptrPH u2 (some (pre.getD i defaultEntry).id) j = _
      rw [hread]
      show _ = (levelsSpec (pre.getD i defaultEntry).level
        (pre.drop (i + 1) ++ post)).getD j none
      rw [levelsSpec_getD, if_pos hjlev]
  · rw [e3, hold]
    rfl
  · rw [e4, hold]
    rfl
  · rw [e5, hold]
    rfl

/-- The unsplice does not change the stored forward array of any successor
node. -/
theorem remove_post_levels {s u2 : SL} {es pre post : List Entry} {e : Entry}
    (hA : Abs s es) (hdec : es = pre ++ e :: post)
    (hinv : unspliceInv s u2 e.id (prevW pre) e.level)
    {g : Entry} (hg : g ∈ post) :
    (nodeAt u2 g.id).levels = (nodeAt s g.id).levels := by
  have hge : g ∈ es := by
    rw [hdec]
    exact List.mem_append_right _ (List.mem_cons_of_mem _ hg)
  refine list_eq_of_getD ?_ ?_
  · exact (hinv.2.2.2.1 g.id).2.2.2.2.2
  · intro j hj
    exact unsplice_read_post hA hdec hinv hg j

/-- Core correctness of `RemoveElement`: removing a live entry's node turns a
state realising `pre ++ e :: post` into one realising `pre ++ post`. -/
theorem remove_elem_abs_core {s : SL} {es : List Entry} (hA : Abs s es)
    {pre : List Entry} {e : Entry} {post : List Entry} (hdec : es = pre ++ e :: post)
    (mp : Nat × List (Option Nat)) (u1 u2 s3 s4 s5 : SL)
    (hmp : mp = removePrevLoop s e.level (s.store.length + 1) 0 (nodeAt s e.id).prev
      (List.replicate e.level none))
    (hu1 : u1 = removeUnspliceNodes e.id mp.2 0 mp.1 s)
    (hu2 : u2 = removeUnspliceHeader e.id mp.1 (e.level - mp.1) u1)
    (hs3 : s3 = (match (nodeAt u2 e.id).levels.getD 0 none with
          | none => u2
          | some nx => updNode u2 nx fun nd => { nd with prev := (nodeAt u2 e.id).prev }))
    (hs4 : s4 = removePtlFix e.id e.level mp.2 (e.level + 1) 0 s3)
    (hs5 : s5 = (if s4.back = some e.id then { s4 with back := (nodeAt s4 e.id).prev }
      else s4)) :
    Abs (updNode { s5 with length := s5.length - 1 } e.id resetNode) (pre ++ post) := by
  have hemem : e ∈ es := by
    rw [hdec]
    exact List.mem_append_right _ (List.mem_cons_self ..)
  have helev := hA.hLevels e hemem
  have heid : e.id < s.store.length := hA.hIdLt e hemem
  obtain ⟨hprene, hpostne, hdisj0⟩ := mid_id_facts hA.hIds hdec
  have hprenodup : (liveIds pre).Nodup := liveIds_prefix_nodup hA.hIds hdec
  have hpostnodup : (liveIds post).Nodup := by
    refine liveIds_suffix_nodup hA.hIds (show es = (pre ++ [e]) ++ post from ?_)
    rw [hdec]
    simp
  have hprelev : ∀ p ∈ pre, 1 ≤ p.level ∧ p.level ≤ 18 := by
    intro p hp
    exact hA.hLevels p (by rw [hdec]; exact List.mem_append_left _ hp)
  have hpostlev : ∀ g ∈ post, 1 ≤ g.level ∧ g.level ≤ 18 := by
    intro g hg
    exact hA.hLevels g (by rw [hdec]; exact List.mem_append_right _ (List.mem_cons_of_mem _ hg))
  have hpreid : ∀ p ∈ pre, p.id < s.store.length := by
    intro p hp
    exact hA.hIdLt p (by rw [hdec]; exact List.mem_append_left _ hp)
  have hpostid : ∀ g ∈ post, g.id < s.store.length := by
    intro g hg
    exact hA.hIdLt g (by rw [hdec]; exact List.mem_append_right _ (List.mem_cons_of_mem _ hg))
  have hstlen := es_length_le_store hA
  have hprelen : pre.length < es.length := by
    rw [hdec]
    simp
  have hnodee : nodeAt s e.id = nodeSpec 0 pre e post := abs_nodeAt hA hdec
  have hprev_e : (nodeAt s e.id).prev = posOf (lastGT 0 pre) := by
    rw [hnodee]
    show prevSpec pre = posOf (lastGT 0 pre)
    exact (posOf_lastGT_zero (fun p hp => (hprelev p hp).1)).symm
  have hmpfacts := removePrevLoop_spec hA hdec e.level (s.store.length + 1) 0
    (nodeAt s e.id).prev (List.replicate e.level none)
    (by omega) (by simp) (fun i hi => absurd hi (by omega))
    (fun i _ => getD_replicate_none ..) (Or.inr hprev_e)
    (by
      intro _ c1 p c2 hc1 _
      have h7 : c1.length < pre.length := by
        rw [hc1]
        simp
      omega)
    (by omega)
  rw [← hmp] at hmpfacts
  obtain ⟨hpelen, hpeval, hmxdisj, hmxle⟩ := hmpfacts
  have hWne : ∀ j, prevW pre j ≠ some e.id := by
    intro j hc
    rw [prevW] at hc
    cases hl : lastGT j pre with
    | none =>
        rw [hl] at hc
        cases hc
    | some p =>
        rw [hl] at hc
        have hc2 : some p.id = some e.id := hc
        injection hc2 with hc3
        exact hprene p (lastGT_mem hl).1 hc3
  have hWid : ∀ j tid, prevW pre j = some tid → tid < s.store.length := by
    intro j tid hc
    rw [prevW] at hc
    cases hl : lastGT j pre with
    | none =>
        rw [hl] at hc
        cases hc
    | some p =>
        rw [hl] at hc
        have hc2 : some p.id = some tid := hc
        injection hc2 with hc3
        rw [← hc3]
        exact hpreid p (lastGT_mem hl).1
  have hWlen : ∀ j, j < e.level → j < lenPH s (prevW pre j) := by
    intro j hj
    rw [prevW]
    cases hl : lastGT j pre with
    | none =>
        show j < lenPH s (posOf none)
        rw [show posOf (none : Option Entry) = none from rfl, abs_lenPH_header hA]
        omega
    | some p =>
        show j < lenPH s (posOf (some p))
        show j < (nodeAt s p.id).levels.length
        rw [abs_levels_len hA (by rw [hdec]; exact List.mem_append_left _ (lastGT_mem hl).1)]
        exact (lastGT_mem hl).2
  have hinv1 := removeUnspliceNodes_invar e.id mp.2 s (prevW pre) hWne hWid mp.1 0 s
    (fun j h1 h2 => ⟨(hpeval j (by omega)).symm, hWlen j (by omega)⟩)
    (unspliceInv_init s e.id (prevW pre))
  rw [Nat.zero_add] at hinv1
  rw [← hu1] at hinv1
  have hinv2pre := removeUnspliceHeader_invar e.id s (prevW pre) hWne hWid
    (e.level - mp.1) mp.1 u1
    (by
      intro j h1 h2
      rcases hmxdisj with heq | hnone
      · exact absurd h2 (by omega)
      · refine ⟨?_, hWlen j (by omega)⟩
        rw [prevW, hnone j h1]
        rfl)
    hinv1
  rw [show mp.1 + (e.level - mp.1) = e.level from by omega, ← hu2] at hinv2pre
  have hinv2 : unspliceInv s u2 e.id (prevW pre) e.level := hinv2pre
  have hfr : frameEq s u2 := hinv2.1
  have hu2len : u2.length = s.length := hinv2.2.1
  have hu2back : u2.back = s.back := hinv2.2.2.1
  have hu2nodes : ∀ id, eqExceptLevels (nodeAt u2 id) (nodeAt s id) := hinv2.2.2.2.1
  have heid_levels_getD : ∀ j, (nodeAt u2 e.id).levels.getD j none =
      if j < e.level then nextGT j post else none := by
    intro j
    have h9 : (nodeAt u2 e.id).levels.getD j none = (nodeAt s e.id).levels.getD j none :=
      unsplice_read_eid hA hdec hinv2 j
    rw [h9, hnodee]
    exact levelsSpec_getD ..
  have hlev0u2 : (nodeAt u2 e.id).levels.getD 0 none = nextGT 0 post := by
    rw [heid_levels_getD 0, if_pos (by omega)]
  have hg0lt : ∀ g0 gt, post = g0 :: gt → g0.id < s.store.length := by
    intro g0 gt hps
    exact hpostid g0 (by rw [hps]; exact List.mem_cons_self ..)
  have hs3cases : (post = [] ∧ s3 = u2) ∨
      ∃ g0 gt, post = g0 :: gt ∧
        s3 = updNode u2 g0.id fun nd => { nd with prev := (nodeAt u2 e.id).prev } := by
    cases post with
    | nil =>
        left
        refine ⟨rfl, ?_⟩
        rw [hs3, hlev0u2]
        rfl
    | cons g0 gt =>
        right
        have h1 : 0 < g0.level := by
          have := hpostlev g0 (List.mem_cons_self ..)
          omega
        refine ⟨g0, gt, rfl, ?_⟩
        rw [hs3, hlev0u2, nextGT_cons_gt gt h1]
  have hs3_levels : ∀ id, (nodeAt s3 id).levels = (nodeAt u2 id).levels := by
    rcases hs3cases with ⟨_, h3⟩ | ⟨g0, gt, _, h3⟩
    · rw [h3]
      intro id
      rfl
    · intro id
      rw [h3, nodeAt_updNode]
      split
      · rfl
      · rfl
  have hs3_key : ∀ id, (nodeAt s3 id).key = (nodeAt u2 id).key := by
    rcases hs3cases with ⟨_, h3⟩ | ⟨g0, gt, _, h3⟩
    · rw [h3]
      intro id
      rfl
    · intro id
      rw [h3, nodeAt_updNode]
      split
      · rfl
      · rfl
  have hs3_value : ∀ id, (nodeAt s3 id).value = (nodeAt u2 id).value := by
    rcases hs3cases with ⟨_, h3⟩ | ⟨g0, gt, _, h3⟩
    · rw [h3]
      intro id
      rfl
    · intro id
      rw [h3, nodeAt_updNode]
      split
      · rfl
      · rfl
  have hs3_owner : ∀ id, (nodeAt s3 id).ownerId = (nodeAt u2 id).ownerId := by
    rcases hs3cases with ⟨_, h3⟩ | ⟨g0, gt, _, h3⟩
    · rw [h3]
      intro id
      rfl
    · intro id
      rw [h3, nodeAt_updNode]
      split
      · rfl
      · rfl
  have hs3_ptl : ∀ id, (nodeAt s3 id).prevTopLevel = (nodeAt u2 id).prevTopLevel := by
    rcases hs3cases with ⟨_, h3⟩ | ⟨g0, gt, _, h3⟩
    · rw [h3]
      intro id
      rfl
    · intro id
      rw [h3, nodeAt_updNode]
      split
      · rfl
      · rfl
  have hs3_prev_ne : ∀ id, (∀ g0 gt, post = g0 :: gt → id ≠ g0.id) →
      (nodeAt s3 id).prev = (nodeAt u2 id).prev := by
    rcases hs3cases with ⟨_, h3⟩ | ⟨g0, gt, hps, h3⟩
    · rw [h3]
      intro id _
      rfl
    · intro id hne
      rw [h3, nodeAt_updNode_ne u2 g0.id id _ fun hc => hne g0 gt hps hc.symm]
  have hs3_store : s3.store.length = u2.store.length := by
    rcases hs3cases with ⟨_, h3⟩ | ⟨g0, gt, _, h3⟩
    · rw [h3]
    · rw [h3, updNode_storeLen]
  have hs3_len : s3.length = u2.length := by
    rcases hs3cases with ⟨_, h3⟩ | ⟨g0, gt, _, h3⟩
    · rw [h3]
    · rw [h3, updNode_length]
  have hs3_back : s3.back = u2.back := by
    rcases hs3cases with ⟨_, h3⟩ | ⟨g0, gt, _, h3⟩
    · rw [h3]
    · rw [h3, updNode_back]
  have hs3_backing : s3.headerBacking = u2.headerBacking := by
    rcases hs3cases with ⟨_, h3⟩ | ⟨g0, gt, _, h3⟩
    · rw [h3]
    · rw [h3]
      rfl
  have hs3_frame : frameEq s s3 := by
    refine frameEq_trans hfr ?_
    rcases hs3cases with ⟨_, h3⟩ | ⟨g0, gt, _, h3⟩
    · rw [h3]
      exact frameEq_refl u2
    · rw [h3]
      exact frameEq_updNode ..
  have hs3_eid : nodeAt s3 e.id = nodeAt u2 e.id := by
    rcases hs3cases with ⟨_, h3⟩ | ⟨g0, gt, hps, h3⟩
    · rw [h3]
    · rw [h3]
      exact nodeAt_updNode_ne u2 g0.id e.id _
        (hpostne g0 (by rw [hps]; exact List.mem_cons_self ..))
  have hpostlevlen : ∀ g ∈ post, (nodeAt s3 g.id).levels.length = g.level ∧ g.id ≠ e.id := by
    intro g hg
    refine ⟨?_, hpostne g hg⟩
    rw [hs3_levels g.id, (hu2nodes g.id).2.2.2.2.2]
    exact abs_levels_len hA
      (by rw [hdec]; exact List.mem_append_right _ (List.mem_cons_of_mem _ hg))
  have hrec_ptl : ∀ g ∈ records 0 post,
      ((nodeAt s3 g.id).prevTopLevel = some e.id ↔ g.level ≤ e.level) := by
    intro g hg
    obtain ⟨a, b, hab⟩ := List.append_of_mem (records_mem hg).1
    have hrecpos := (records_iff_decomp hpostnodup hab).mp hg
    have hgmemp : g ∈ post := (records_mem hg).1
    have hglev1 : 1 ≤ g.level := (hpostlev g hgmemp).1
    have hdesg : es = (pre ++ e :: a) ++ g :: b := by
      rw [hdec, hab]
      simp
    have holdg := abs_nodeAt hA hdesg
    have hchain : (nodeAt s3 g.id).prevTopLevel = ptlSpec g.level (pre ++ e :: a) := by
      rw [hs3_ptl g.id, (hu2nodes g.id).2.2.2.1, holdg]
      rfl
    rw [hchain]
    have hcases := @ptlSpec_insert_cases e.level e g pre a rfl hglev1
    constructor
    · intro hc
      by_contra hgl
      rw [hcases.2 (fun hc2 => hgl hc2.1)] at hc
      have hc2 : (lastGT (g.level - 1) (pre ++ a)).map (fun x => x.id) = some e.id := hc
      cases hl : lastGT (g.level - 1) (pre ++ a) with
      | none =>
          rw [hl] at hc2
          exact Option.noConfusion (show (none : Option Nat) = some e.id from hc2)
      | some r =>
          rw [hl] at hc2
          have hc3 : some r.id = some e.id := hc2
          injection hc3 with hc4
          have hrm := (lastGT_mem hl).1
          rcases List.mem_append.mp hrm with h8 | h8
          · exact hprene r h8 hc4
          · refine hpostne r ?_ hc4
            rw [hab]
            exact List.mem_append_left _ h8
    · intro hgl
      exact hcases.1 ⟨hgl, hrecpos.2⟩
  have hs4eq : s4 = removePtlResult mp.2
      ((records 0 post).takeWhile fun g => decide (g.level ≤ e.level)) s3 := by
    rw [hs4]
    refine removePtlFix_spec e.id e.level mp.2 (e.level + 1) post 0 s3 (by omega) ?_
      hpostlevlen hrec_ptl hpostnodup
    intro j _ hj
    rw [hs3_eid, heid_levels_getD j, if_pos hj]
  have hupds := removePtlResult_frame mp.2
    ((records 0 post).takeWhile fun g => decide (g.level ≤ e.level)) s3
  have hs4_frame : frameEq s s4 := by
    rw [hs4eq]
    exact frameEq_trans hs3_frame hupds.1
  have hs4_store : s4.store.length = s.store.length := hs4_frame.1
  have hs4_len : s4.length = s.length := by
    rw [hs4eq, hupds.2.1, hs3_len, hu2len]
  have hs4_back : s4.back = s.back := by
    rw [hs4eq, hupds.2.2.1, hs3_back, hu2back]
  have hs4_backing : s4.headerBacking = u2.headerBacking := by
    rw [hs4eq, hupds.2.2.2, hs3_backing]
  have hs4_keyf : ∀ id, (nodeAt s4 id).key = (nodeAt s3 id).key := by
    intro id
    rw [hs4eq]
    exact (removePtlResult_fields mp.2 _ s3 id).1
  have hs4_valuef : ∀ id, (nodeAt s4 id).value = (nodeAt s3 id).value := by
    intro id
    rw [hs4eq]
    exact (removePtlResult_fields mp.2 _ s3 id).2.1
  have hs4_levelsf : ∀ id, (nodeAt s4 id).levels = (nodeAt s3 id).levels := by
    intro id
    rw [hs4eq]
    exact (removePtlResult_fields mp.2 _ s3 id).2.2.1
  have hs4_prevf : ∀ id, (nodeAt s4 id).prev = (nodeAt s3 id).prev := by
    intro id
    rw [hs4eq]
    exact (removePtlResult_fields mp.2 _ s3 id).2.2.2.1
  have hs4_ownerf : ∀ id, (nodeAt s4 id).ownerId = (nodeAt s3 id).ownerId := by
    intro id
    rw [hs4eq]
    exact (removePtlResult_fields mp.2 _ s3 id).2.2.2.2
  have hupds_sub : ∀ g2 ∈ (records 0 post).takeWhile fun g => decide (g.level ≤ e.level),
      g2 ∈ post :=
    fun g2 hg2 => (records_mem (mem_takeWhile_records.mp hg2).1).1
  have hupds_notmem_pre : ∀ p ∈ pre,
      p.id ∉ liveIds ((records 0 post).takeWhile fun g => decide (g.level ≤ e.level)) := by
    intro p hp hc
    obtain ⟨g2, hg2, hg2x⟩ := List.mem_map.mp hc
    refine hdisj0 (List.mem_map.mpr ⟨p, hp, rfl⟩) ?_
    rw [← hg2x]
    exact List.mem_map.mpr ⟨g2, hupds_sub g2 hg2, rfl⟩
  have hupds_notmem_e :
      e.id ∉ liveIds ((records 0 post).takeWhile fun g => decide (g.level ≤ e.level)) := by
    intro hc
    obtain ⟨g2, hg2, hg2x⟩ := List.mem_map.mp hc
    exact hpostne g2 (hupds_sub g2 hg2) hg2x
  have hupdsnodup :
      (liveIds ((records 0 post).takeWhile fun g => decide (g.level ≤ e.level))).Nodup :=
    upds_nodup hpostnodup
  have hs4_eid : nodeAt s4 e.id = nodeAt u2 e.id := by
    rw [hs4eq, nodeAt_removePtlResult_notmem mp.2 _ s3 e.id hupds_notmem_e, hs3_eid]
  have hu2_headerLen : u2.headerLen = 18 := by
    rw [hfr.2.2.1]
    exact hA.hHeadLen
  have hu2_backLen : u2.headerBacking.length = 18 := by
    rw [hfr.2.1]
    exact hA.hBackLen
  have hmain : ∀ bk, bk = ((pre ++ post).getLast?.map fun x => x.id) →
      Abs (updNode
        { store := s4.store, headerBacking := s4.headerBacking,
          headerLen := s4.headerLen, maxLevel := s4.maxLevel, length := s4.length - 1,
          back := bk, listId := s4.listId } e.id resetNode) (pre ++ post) := by
    intro bk hbk
    refine ⟨?_, ?_, ?_, ?_, ?_, ?_, ?_, ?_, ?_, ?_, ?_, ?_, ?_⟩
    · show s4.headerBacking.length = 18
      rw [hs4_backing]
      exact hu2_backLen
    · show s4.headerLen = 18
      rw [hs4_frame.2.2.1]
      exact hA.hHeadLen
    · show s4.maxLevel = 18
      rw [hs4_frame.2.2.2.1]
      exact hA.hMax
    · show s4.listId = 0
      rw [hs4_frame.2.2.2.2]
      exact hA.hListId
    · -- sortedness
      have hS := hA.hSorted
      rw [hdec, List.pairwise_append] at hS
      obtain ⟨hS1, hS2, hS3⟩ := hS
      rw [List.pairwise_append]
      exact ⟨hS1, (List.pairwise_cons.mp hS2).2,
        fun a ha b hb => hS3 a ha b (List.mem_cons_of_mem _ hb)⟩
    · -- level bounds
      intro x hx
      rcases List.mem_append.mp hx with h1 | h1
      · exact hprelev x h1
      · exact hpostlev x h1
    · -- id nodup
      have h7 : liveIds es = liveIds pre ++ e.id :: liveIds post := by
        rw [hdec]
        simp [liveIds]
      have h8 := hA.hIds
      rw [h7] at h8
      obtain ⟨hn1, hn2, hdisj2⟩ := List.nodup_append.mp h8
      have h9 : liveIds (pre ++ post) = liveIds pre ++ liveIds post := by
        simp [liveIds]
      rw [h9]
      refine List.nodup_append.mpr ⟨hn1, (List.nodup_cons.mp hn2).2, ?_⟩
      intro x hx hc
      exact hdisj2 hx (List.mem_cons_of_mem _ hc)
    · -- id bounds
      intro x hx
      rw [updNode_storeLen]
      show x.id < s4.store.length
      rw [hs4_store]
      rcases List.mem_append.mp hx with h1 | h1
      · exact hpreid x h1
      · exact hpostid x h1
    · -- header slots
      intro j hj
      show s4.headerBacking.getD j none = nextGT j (pre ++ post)
      rw [hs4_backing, ← ptrPH_header_getD hu2_headerLen hu2_backLen j]
      exact unsplice_read_header hA hdec hinv2 hj
    · -- per-node shapes
      intro i hi
      rw [List.length_append] at hi
      rcases Nat.lt_or_ge i pre.length with hz | hz
      · -- a prefix node
        have hgetD : (pre ++ post).getD i defaultEntry = pre.getD i defaultEntry :=
          getD_append_left hz _
        have htake : (pre ++ post).take i = pre.take i :=
          List.take_append_of_le_length (by omega)
        have hdrop : (pre ++ post).drop (i + 1) = pre.drop (i + 1) ++ post :=
          List.drop_append_of_le_length (by omega)
        rw [hgetD, htake, hdrop]
        have he_mem0 : pre.getD i defaultEntry ∈ pre := by
          rw [List.getD_eq_getElem _ _ hz]
          exact List.getElem_mem ..
        rw [nodeAt_updNode, if_neg (by
          rintro ⟨hc, _⟩
          exact hprene _ he_mem0 hc.symm)]
        show nodeAt s4 (pre.getD i defaultEntry).id = _
        have hs4x : nodeAt s4 (pre.getD i defaultEntry).id =
            nodeAt s3 (pre.getD i defaultEntry).id := by
          rw [hs4eq]
          exact nodeAt_removePtlResult_notmem mp.2 _ s3 _ (hupds_notmem_pre _ he_mem0)
        have hs3x : nodeAt s3 (pre.getD i defaultEntry).id =
            nodeAt u2 (pre.getD i defaultEntry).id := by
          rcases hs3cases with ⟨_, h3⟩ | ⟨g0, gt, hps, h3⟩
          · rw [h3]
          · rw [h3]
            refine nodeAt_updNode_ne u2 g0.id _ _ ?_
            intro hc
            refine hdisj0 (List.mem_map.mpr ⟨_, he_mem0, rfl⟩) ?_
            rw [← hc]
            exact List.mem_map.mpr ⟨g0, by rw [hps]; exact List.mem_cons_self .., rfl⟩
        rw [hs4x, hs3x]
        exact remove_pre_node hA hdec hinv2 hz
      · -- a successor node
        obtain ⟨m, rfl⟩ : ∃ m, i = pre.length + m := ⟨i - pre.length, by omega⟩
        have hm : m < post.length := by omega
        have hgetD : (pre ++ post).getD (pre.length + m) defaultEntry =
            post.getD m defaultEntry := by
          rw [getD_append_right_entry (by omega) _]
          rw [show pre.length + m - pre.length = m from by omega]
        have htake : (pre ++ post).take (pre.length + m) = pre ++ post.take m := by
          rw [List.take_append]
        have hdrop : (pre ++ post).drop (pre.length + m + 1) = post.drop (m + 1) := by
          rw [show pre.length + m + 1 = pre.length + (m + 1) from by omega]
          rw [List.drop_append]
        rw [hgetD, htake, hdrop]
        have hg_mem0 : post.getD m defaultEntry ∈ post := by
          rw [List.getD_eq_getElem _ _ hm]
          exact List.getElem_mem ..
        have hg_mem : post.getD m defaultEntry ∈ es := by
          rw [hdec]
          exact List.mem_append_right _ (List.mem_cons_of_mem _ hg_mem0)
        have hg_lev1 : 1 ≤ (post.getD m defaultEntry).level := (hpostlev _ hg_mem0).1
        have hdesg : es = (pre ++ e :: post.take m) ++ post.getD m defaultEntry ::
            post.drop (m + 1) := by
          rw [hdec]
          conv_lhs => rw [list_split_at hm]
          simp
        have hold := abs_nodeAt hA hdesg
        rw [nodeAt_updNode, if_neg (by
          rintro ⟨hc, _⟩
          exact hpostne _ hg_mem0 hc.symm)]
        show nodeAt s4 (post.getD m defaultEntry).id = _
        refine node_eq_of_fields ?_ ?_ ?_ ?_ ?_ ?_
        · rw [hs4_keyf, hs3_key, (hu2nodes _).1, hold]
          rfl
        · rw [hs4_valuef, hs3_value, (hu2nodes _).2.1, hold]
          rfl
        · rw [hs4_levelsf, hs3_levels, remove_post_levels hA hdec hinv2 hg_mem0, hold]
          rfl
        · -- prev
          cases m with
          | zero =>
              rcases hs3cases with ⟨hpostnil, _⟩ | ⟨g0, gt, hps, h3⟩
              · rw [hpostnil] at hm
                simp at hm
              · have hg_is_g0 : post.getD 0 defaultEntry = g0 := by
                  rw [hps]
                  rfl
                rw [hs4_prevf, hg_is_g0, h3,
                  nodeAt_updNode_self u2 g0.id _ (by rw [hfr.1]; exact hg0lt g0 gt hps)]
                show (nodeAt u2 e.id).prev = prevSpec (pre ++ post.take 0)
                rw [(hu2nodes e.id).2.2.1, hnodee,
                  show post.take 0 = ([] : List Entry) from rfl, List.append_nil]
                rfl
          | succ m2 =>
              have hne_g0 : ∀ g0 gt, post = g0 :: gt →
                  (post.getD (m2 + 1) defaultEntry).id ≠ g0.id := by
                intro g0 gt hps hc
                have hd := ids_distinct hpostnodup hm
                  (show 0 < post.length from by omega) (by omega)
                apply hd
                rw [hc, hps]
                rfl
              rw [hs4_prevf, hs3_prev_ne _ hne_g0, (hu2nodes _).2.2.1, hold]
              show prevSpec (pre ++ e :: post.take (m2 + 1)) =
                prevSpec (pre ++ post.take (m2 + 1))
              have htkne : post.take (m2 + 1) ≠ [] := by
                intro hc
                have h6 := congrArg List.length hc
                rw [List.length_take] at h6
                simp only [List.length_nil] at h6
                omega
              rw [prevSpec, prevSpec,
                List.getLast?_append_of_ne_nil pre htkne,
                List.getLast?_append_of_ne_nil pre
                  (show (e :: post.take (m2 + 1)) ≠ [] by simp)]
              cases htk : post.take (m2 + 1) with
              | nil => exact absurd htk htkne
              | cons t0 tt => rw [List.getLast?_cons_cons]
        · -- prevTopLevel
          have hmemiff := @upds_mem_iff e.level post hpostnodup
            (fun g hg => (hpostlev g hg).1) m hm
          by_cases hmem : post.getD m defaultEntry ∈
              (records 0 post).takeWhile fun g2 => decide (g2.level ≤ e.level)
          · have hglev_le : (post.getD m defaultEntry).level ≤ e.level := (hmemiff.mp hmem).1
            obtain ⟨a2, b2, hab2⟩ := List.append_of_mem hmem
            have hnode4 : nodeAt s4 (post.getD m defaultEntry).id =
                { nodeAt s3 (post.getD m defaultEntry).id with
                  prevTopLevel := mp.2.getD ((post.getD m defaultEntry).level - 1) none } := by
              rw [hs4eq, hab2]
              exact nodeAt_removePtlResult_mem mp.2 a2 _ b2 s3
                (by rw [← hab2]; exact hupdsnodup)
                (by rw [hs3_store, hfr.1]; exact hpostid _ hg_mem0)
            rw [hnode4]
            show mp.2.getD ((post.getD m defaultEntry).level - 1) none =
              ptlSpec (post.getD m defaultEntry).level (pre ++ post.take m)
            rw [hpeval _ (by omega)]
            have hnone9 : lastGT ((post.getD m defaultEntry).level - 1) (post.take m) =
                none :=
              lastGT_eq_none.mpr (fun x hx => by
                have := (hmemiff.mp hmem).2 x hx
                omega)
            show posOf (lastGT ((post.getD m defaultEntry).level - 1) pre) =
              posOf (lastGT ((post.getD m defaultEntry).level - 1) (pre ++ post.take m))
            rw [lastGT_append, hnone9]
          · have hidnotmem : (post.getD m defaultEntry).id ∉
                liveIds ((records 0 post).takeWhile fun g2 =>
                  decide (g2.level ≤ e.level)) := by
              intro hc
              exact hmem ((id_mem_upds_iff_gen hA.hIds hg_mem (fun x hx => by
                rw [hdec]
                exact List.mem_append_right _ (List.mem_cons_of_mem _ hx))).mp hc)
            have hnode4 : nodeAt s4 (post.getD m defaultEntry).id =
                nodeAt s3 (post.getD m defaultEntry).id := by
              rw [hs4eq]
              exact nodeAt_removePtlResult_notmem mp.2 _ s3 _ hidnotmem
            rw [hnode4, hs3_ptl _, (hu2nodes _).2.2.2.1, hold]
            show ptlSpec (post.getD m defaultEntry).level (pre ++ e :: post.take m) =
              ptlSpec (post.getD m defaultEntry).level (pre ++ post.take m)
            exact (@ptlSpec_insert_cases e.level e (post.getD m defaultEntry) pre
              (post.take m) rfl hg_lev1).2 (fun hc => hmem (hmemiff.mpr hc))
        · rw [hs4_ownerf, hs3_owner, (hu2nodes _).2.2.2.2.1, hold]
          rfl
    · -- dead nodes stay foreign
      intro id hid hnotin
      rw [updNode_storeLen] at hid
      have hid2 : id < s.store.length := by
        rw [← hs4_store]
        exact hid
      rw [nodeAt_updNode]
      split
      · intro hc
        exact Option.noConfusion hc
      · rename_i hcond
        have hne : id ≠ e.id := by
          intro hc
          exact hcond ⟨hc.symm, hid⟩
        show (nodeAt s4 id).ownerId ≠ some 0
        have hnotes : id ∉ liveIds es := by
          rw [hdec]
          intro hc
          apply hnotin
          obtain ⟨p, hp1, hp2⟩ := List.mem_map.mp hc
          rcases List.mem_append.mp hp1 with h5 | h5
          · exact List.mem_map.mpr ⟨p, List.mem_append_left _ h5, hp2⟩
          · rcases List.mem_cons.mp h5 with rfl | h6
            · exact absurd hp2.symm hne
            · exact List.mem_map.mpr ⟨p, List.mem_append_right _ h6, hp2⟩
        have hown : (nodeAt s4 id).ownerId = (nodeAt s id).ownerId := by
          rw [hs4_ownerf id, hs3_owner id, (hu2nodes id).2.2.2.2.1]
        rw [hown]
        exact hA.hDead id hid2 hnotes
    · -- back pointer
      exact hbk
    · -- length
      show s4.length - 1 = (pre ++ post).length
      rw [hs4_len, hA.hLen, hdec]
      simp only [List.length_append, List.length_cons]
      omega
  subst hs5
  by_cases hc0 : s4.back = some e.id
  · rw [if_pos hc0]
    have hpostnil : post = [] := by
      cases post with
      | nil => rfl
      | cons g0 gt =>
          exfalso
          rw [hs4_back, hA.hBack, hdec,
            List.getLast?_append_of_ne_nil pre (show (e :: g0 :: gt) ≠ [] by simp),
            List.getLast?_cons_cons] at hc0
          cases hq : (g0 :: gt).getLast? with
          | none =>
              rw [hq] at hc0
              exact Option.noConfusion (show (none : Option Nat) = some e.id from hc0)
          | some gl =>
              rw [hq] at hc0
              have hc2 : some gl.id = some e.id := hc0
              injection hc2 with hc3
              exact hpostne gl (List.mem_of_mem_getLast? hq) hc3
    refine hmain (nodeAt s4 e.id).prev ?_
    rw [hpostnil, List.append_nil, hs4_eid, (hu2nodes e.id).2.2.1, hnodee]
    rfl
  · rw [if_neg hc0]
    refine hmain s4.back ?_
    have hpostne2 : post ≠ [] := by
      intro hps
      apply hc0
      rw [hs4_back, hA.hBack, hdec, hps, List.getLast?_concat]
      rfl
    rw [hs4_back, hA.hBack, hdec,
      List.getLast?_append_of_ne_nil pre (show (e :: post) ≠ [] by simp),
      List.getLast?_append_of_ne_nil pre hpostne2]
    cases hps : post with
    | nil => exact absurd hps hpostne2
    | cons g0 gt => rw [List.getLast?_cons_cons]

theorem writeHeaderSlots_back (nid : Nat) :
    ∀ cnt i s, (writeHeaderSlots nid i cnt s).back = s.back := by
  intro cnt
  induction cnt with
  | zero =>
      intro i s
      rfl
  | succ n ih =>
      intro i s
      rw [writeHeaderSlots, ih, setPtrPH_back]

theorem writeHeaderSlots_length (nid : Nat) :
    ∀ cnt i s, (writeHeaderSlots nid i cnt s).length = s.length := by
  intro cnt
  induction cnt with
  | zero =>
      intro i s
      rfl
  | succ n ih =>
      intro i s
      rw [writeHeaderSlots, ih, setPtrPH_length]

/-- The header slots written by the empty-insert fast path. -/
theorem backing_writeHeaderSlots (nid : Nat) :
    ∀ cnt i s, i + cnt ≤ s.headerBacking.length → ∀ j,
      (writeHeaderSlots nid i cnt s).headerBacking.getD j none =
        if i ≤ j ∧ j < i + cnt then some nid else s.headerBacking.getD j none := by
  intro cnt
  induction cnt with
  | zero =>
      intro i s _ j
      rw [writeHeaderSlots, if_neg (by rintro ⟨h1, h2⟩; omega)]
  | succ n ih =>
      intro i s hb j
      rw [writeHeaderSlots, ih (i + 1) _ (by
        show i + 1 + n ≤ (s.headerBacking.set i (some nid)).length
        rw [List.length_set]
        omega) j]
      by_cases hc : i + 1 ≤ j ∧ j < i + 1 + n
      · rw [if_pos hc, if_pos (by omega)]
      · rw [if_neg hc]
        by_cases hij : i = j
        · subst hij
          rw [if_pos (by omega)]
          show (s.headerBacking.set i (some nid)).getD i none = some nid
          simp only [List.getD, List.get?_eq_getElem?,
            List.getElem?_set_self (show i < s.headerBacking.length from by omega)]
          rfl
        · rw [if_neg (by omega)]
          show (s.headerBacking.set i (some nid)).getD j none = s.headerBacking.getD j none
          simp only [List.getD, List.get?_eq_getElem?, List.getElem?_set_ne hij]

theorem setEmptyCore_unfold (s : SL) (k v : Int) (lvl : Nat) :
    ∀ (nd : Node) (s1 s2 : SL),
      nd = { key := k, value := v, levels := List.replicate lvl none, prev := none,
             prevTopLevel := none, ownerId := some s.listId } →
      s1 = { s with store := s.store ++ [nd] } →
      s2 = writeHeaderSlots s.store.length 0 lvl s1 →
      setEmptyCore s k v lvl =
        ({ s2 with back := some s.store.length, length := s.length + 1 },
          s.store.length) := by
  intro nd s1 s2 h1 h2 h3
  subst h1
  subst h2
  subst h3
  rfl

theorem replicate_eq_levelsSpec_nil (lvl : Nat) :
    List.replicate lvl (none : Option Nat) = levelsSpec lvl [] := by
  refine list_eq_of_getD ?_ ?_
  · rw [List.length_replicate, levelsSpec_length]
  · intro j hj
    rw [getD_replicate_none, levelsSpec_getD]
    by_cases h : j < lvl
    · rw [if_pos h]
      rfl
    · rw [if_neg h]

/-- The empty-list fast path of `Set` produces a one-entry well-formed
state. -/
theorem setEmptyCore_abs {s : SL} (hA : Abs s []) (k v : Int) {lvl : Nat}
    (hlvl1 : 1 ≤ lvl) (hlvl18 : lvl ≤ 18) :
    Abs (setEmptyCore s k v lvl).1
      [{ id := s.store.length, key := k, value := v, level := lvl }] := by
  rw [setEmptyCore_unfold s k v lvl _ _ _ rfl rfl rfl]
  have hb1 : ({ s with store := s.store ++
      [{ key := k, value := v, levels := List.replicate lvl none, prev := none,
         prevTopLevel := none, ownerId := some s.listId }] } : SL).headerBacking.length =
      18 := hA.hBackLen
  have hslots := backing_writeHeaderSlots s.store.length lvl 0 _ (by rw [hb1]; omega)
  refine ⟨?_, ?_, ?_, ?_, ?_, ?_, ?_, ?_, ?_, ?_, ?_, ?_, ?_⟩
  · show (writeHeaderSlots s.store.length 0 lvl _).headerBacking.length = 18
    rw [writeHeaderSlots_backingLen]
    exact hA.hBackLen
  · show (writeHeaderSlots s.store.length 0 lvl _).headerLen = 18
    rw [writeHeaderSlots_headerLen]
    exact hA.hHeadLen
  · show (writeHeaderSlots s.store.length 0 lvl _).maxLevel = 18
    rw [writeHeaderSlots_maxLevel]
    exact hA.hMax
  · show (writeHeaderSlots s.store.length 0 lvl _).listId = 0
    rw [writeHeaderSlots_listId]
    exact hA.hListId
  · simp
  · intro x hx
    rcases List.mem_singleton.mp hx with rfl
    exact ⟨hlvl1, hlvl18⟩
  · simp [liveIds]
  · intro x hx
    rcases List.mem_singleton.mp hx with rfl
    show s.store.length < (writeHeaderSlots s.store.length 0 lvl _).store.length
    rw [writeHeaderSlots_storeLen]
    simp
  · intro j hj
    show (writeHeaderSlots s.store.length 0 lvl _).headerBacking.getD j none = _
    rw [hslots j]
    have hold : s.headerBacking.getD j none = none := by
      rw [hA.hHeader j hj]
      rfl
    by_cases h : j < lvl
    · rw [if_pos (by omega)]
      rw [show nextGT j [{ id := s.store.length, key := k, value := v, level := lvl }] =
        some s.store.length from by rw [nextGT, if_pos h]]
    · rw [if_neg (by rintro ⟨h1, h2⟩; omega)]
      show s.headerBacking.getD j none = _
      rw [hold, show nextGT j [{ id := s.store.length, key := k, value := v, level := lvl }] =
        none from by rw [nextGT, if_neg h]; rfl]
  · intro i hi
    have hi0 : i = 0 := by
      simp only [List.length_singleton] at hi
      omega
    subst hi0
    show nodeAt (writeHeaderSlots s.store.length 0 lvl _) s.store.length = _
    rw [nodeAt_writeHeaderSlots, nodeAt_store_append_self]
    refine node_eq_of_fields ?_ ?_ ?_ ?_ ?_ ?_
    · rfl
    · rfl
    · show List.replicate lvl none = _
      rw [replicate_eq_levelsSpec_nil]
      rfl
    · rfl
    · rfl
    · show some s.listId = some 0
      rw [hA.hListId]
  · intro id hid hnotin
    have hidlt : id < s.store.length + 1 := by
      rw [show (writeHeaderSlots s.store.length 0 lvl ({ s with store := s.store ++
        [{ key := k, value := v, levels := List.replicate lvl none, prev := none,
           prevTopLevel := none, ownerId := some s.listId }] } : SL)).store.length =
        s.store.length + 1 from by rw [writeHeaderSlots_storeLen]; simp] at hid
      exact hid
    have hne : id ≠ s.store.length := by
      intro hc
      apply hnotin
      rw [hc]
      exact List.mem_map.mpr ⟨_, List.mem_singleton.mpr rfl, rfl⟩
    show (nodeAt (writeHeaderSlots s.store.length 0 lvl _) id).ownerId ≠ some 0
    rw [nodeAt_writeHeaderSlots, nodeAt_store_append_old s _ (by omega)]
    exact hA.hDead id (by omega) (by simp [liveIds])
  · show some s.store.length = _
    rfl
  · show s.length + 1 = _
    rw [hA.hLen]
    rfl

/-- `RemoveElement` on a live entry's node realises the entry sequence with
that entry deleted. -/
theorem removeElementOp_abs {s : SL} {es : List Entry} (hA : Abs s es)
    {pre : List Entry} {e : Entry} {post : List Entry} (hdec : es = pre ++ e :: post) :
    Abs (RemoveElementOp s (some e.id)) (pre ++ post) := by
  have hemem : e ∈ es := by
    rw [hdec]
    exact List.mem_append_right _ (List.mem_cons_self ..)
  have hown : (nodeAt s e.id).ownerId = some s.listId := by
    rw [abs_nodeAt hA hdec, hA.hListId]
    rfl
  have hstep : RemoveElementOp s (some e.id) =
      updNode (removeCore s e.id) e.id resetNode := by
    simp [RemoveElementOp, hown]
  rw [hstep]
  have hlvl : e.level = (nodeAt s e.id).levels.length := (abs_levels_len hA hemem).symm
  rw [removeCore_unfold s e.id e.level _ _ _ _ _ _ hlvl rfl rfl rfl rfl rfl rfl]
  exact remove_elem_abs_core hA hdec _ _ _ _ _ _ rfl rfl rfl rfl rfl rfl

/-- `Set` preserves realisability (with the level draw in range). -/
theorem setOp_abs {s : SL} {es : List Entry} (hA : Abs s es) (k v : Int) {lvl : Nat}
    (hlvl1 : 1 ≤ lvl) (hlvl18 : lvl ≤ 18) :
    ∃ es2, Abs (SetOp s k v lvl).1 es2 := by
  cases hfe : findEq k es with
  | some ek =>
      have hekmem : ek ∈ es := List.mem_of_find?_eq_some hfe
      obtain ⟨a, b, hab⟩ := List.append_of_mem hekmem
      refine ⟨a ++ { ek with value := v } :: b, ?_⟩
      rw [setOp_hit hA k v lvl hfe]
      exact abs_set_value hA hab v
  | none =>
      by_cases hlen : s.length = 0
      · have hesnil : es = [] := by
          have h1 := hA.hLen
          rw [hlen] at h1
          exact List.length_eq_zero.mp h1.symm
        refine ⟨[{ id := s.store.length, key := k, value := v, level := lvl }], ?_⟩
        rw [SetOp, if_pos hlen]
        exact setEmptyCore_abs (hesnil ▸ hA) k v hlvl1 hlvl18
      · obtain ⟨F, hsr, hFlen, hFval⟩ := setSearch_miss hA k hfe (s.headerLen + 1)
          s.headerLen none (List.replicate s.headerLen none) [] es rfl (by simp)
          (Or.inl ⟨rfl, rfl⟩) hA.hHeadLen.le (by omega)
          (by simp [hA.hHeadLen])
          (fun i h1 h2 => absurd h2 (by have h3 := hA.hHeadLen; omega))
        refine ⟨lesOf k es ++
          { id := s.store.length, key := k, value := v, level := lvl } :: gesOf k es, ?_⟩
        rw [SetOp, if_neg hlen, hsr]
        show Abs (setMissCore s k v lvl F).1 _
        rw [setMissCore_unfold s k v lvl F _ _ _ _ _ rfl rfl rfl rfl rfl]
        exact set_insert_abs_core hA k v hfe hlvl1 hlvl18 hFval _ _ _ _ _
          rfl rfl rfl rfl rfl

/-- `Remove` preserves realisability. -/
theorem removeOp_abs {s : SL} {es : List Entry} (hA : Abs s es) (k : Int) :
    ∃ es2, Abs (RemoveOp s k).2 es2 := by
  rw [RemoveOp, getOp_spec hA k]
  cases hfe : findEq k es with
  | none => exact ⟨es, hA⟩
  | some ek =>
      obtain ⟨a, b, hab⟩ := List.append_of_mem (List.mem_of_find?_eq_some hfe)
      exact ⟨a ++ b, removeElementOp_abs hA hab⟩

/-- `RemoveFront` preserves realisability. -/
theorem removeFrontOp_abs {s : SL} {es : List Entry} (hA : Abs s es) :
    ∃ es2, Abs (RemoveFrontOp s).2 es2 := by
  rw [RemoveFrontOp]
  by_cases hlen : s.length = 0
  · rw [if_pos hlen]
    exact ⟨es, hA⟩
  · rw [if_neg hlen]
    have heslen : es ≠ [] := by
      intro hc
      apply hlen
      rw [hA.hLen, hc]
      rfl
    obtain ⟨e0, rest, hes⟩ := List.exists_cons_of_ne_nil heslen
    subst hes
    have hfront : FrontOp s = some e0.id := by
      rw [show FrontOp s = ptrPH s none 0 from rfl, abs_ptr_header hA (by omega)]
      exact nextGT_cons_gt rest (by
        have := hA.hLevels e0 (List.mem_cons_self ..)
        omega)
    rw [hfront]
    refine ⟨rest, ?_⟩
    have h2 := removeElementOp_abs hA (show e0 :: rest = [] ++ e0 :: rest from rfl)
    rw [List.nil_append] at h2
    exact h2

/-- `RemoveBack` preserves realisability. -/
theorem removeBackOp_abs {s : SL} {es : List Entry} (hA : Abs s es) :
    ∃ es2, Abs (RemoveBackOp s).2 es2 := by
  rw [RemoveBackOp]
  by_cases hlen : s.length = 0
  · rw [if_pos hlen]
    exact ⟨es, hA⟩
  · rw [if_neg hlen]
    have heslen : es ≠ [] := by
      intro hc
      apply hlen
      rw [hA.hLen, hc]
      rfl
    rcases List.eq_nil_or_concat es with hes | ⟨L, b, hes⟩
    · exact absurd hes heslen
    · subst hes
      have hback : s.back = some b.id := by
        rw [hA.hBack, List.concat_eq_append, List.getLast?_concat]
        rfl
      rw [hback]
      refine ⟨L, ?_⟩
      have h2 := removeElementOp_abs hA
        (show L.concat b = L ++ b :: [] from by rw [List.concat_eq_append])
      rw [List.append_nil] at h2
      exact h2

/-- `RemoveElement` on an arbitrary argument preserves realisability. -/
theorem removeElemAny_abs {s : SL} {es : List Entry} (hA : Abs s es) (oe : Option Nat) :
    ∃ es2, Abs (RemoveElementOp s oe) es2 := by
  cases oe with
  | none => exact ⟨es, hA⟩
  | some eid =>
      by_cases hown : (nodeAt s eid).ownerId ≠ some s.listId
      · rw [removeElement_foreign_noop s eid hown]
        exact ⟨es, hA⟩
      · push_neg at hown
        have hmem : eid ∈ liveIds es := by
          by_contra hnm
          exact hA.hDead eid (ownerId_some_lt hown) hnm (by rw [hown, hA.hListId])
        obtain ⟨e, hemem, heid⟩ := List.mem_map.mp hmem
        obtain ⟨a, b, hab⟩ := List.append_of_mem hemem
        refine ⟨a ++ b, ?_⟩
        rw [← heid]
        exact removeElementOp_abs hA hab

/-- Every state reachable by `Set` and removals realises a sorted entry
sequence. -/
theorem reachS_abs {s : SL} (h : ReachS s) : ∃ es, Abs s es := by
  induction h with
  | init => exact ⟨[], abs_of_absD new0 [] (by decide)⟩
  | set k v lvl _ h1 h2 ih =>
      obtain ⟨es, hA⟩ := ih
      exact setOp_abs hA k v h1 (hA.hMax ▸ h2)
  | removeKey k _ ih =>
      obtain ⟨es, hA⟩ := ih
      exact removeOp_abs hA k
  | removeFront _ ih =>
      obtain ⟨es, hA⟩ := ih
      exact removeFrontOp_abs hA
  | removeBack _ ih =>
      obtain ⟨es, hA⟩ := ih
      exact removeBackOp_abs hA
  | removeElem oe _ ih =>
      obtain ⟨es, hA⟩ := ih
      exact removeElemAny_abs hA oe

theorem chain0Aux_abs {s : SL} {es : List Entry} (hA : Abs s es) :
    ∀ suf pre, es = pre ++ suf → ∀ fuel, suf.length < fuel →
      chain0Aux s fuel (nextGT 0 suf) = liveIds suf := by
  intro suf
  induction suf with
  | nil =>
      intro pre h fuel hf
      cases fuel with
      | zero => omega
      | succ f => rfl
  | cons g rest ih =>
      intro pre h fuel hf
      have hg1 := (hA.hLevels g
        (by rw [h]; exact List.mem_append_right _ (List.mem_cons_self ..))).1
      rw [nextGT_cons_gt rest (by omega)]
      cases fuel with
      | zero => exact absurd hf (by omega)
      | succ f =>
          rw [chain0Aux]
          have hnode : (nodeAt s g.id).levels.getD 0 none = nextGT 0 rest := by
            rw [abs_nodeAt hA h]
            rw [show (nodeSpec 0 pre g rest).levels = levelsSpec g.level rest from rfl,
              levelsSpec_getD, if_pos (by omega)]
          rw [hnode, ih (pre ++ [g]) (by rw [h]; simp) f (by
            simp only [List.length_cons] at hf
            omega)]
          rfl

/-- The level-0 chain of a well-formed state is exactly the id sequence of
the realised entries. -/
theorem chain0_abs {s : SL} {es : List Entry} (hA : Abs s es) : chain0 s = liveIds es := by
  rw [chain0, show FrontOp s = nextGT 0 es from by
    rw [show FrontOp s = ptrPH s none 0 from rfl]
    exact abs_ptr_header hA (by omega)]
  exact chain0Aux_abs hA es [] rfl (s.store.length + 1) (by
    have := es_length_le_store hA
    omega)

/-- C3: in every state reachable by `Set`, `Remove`, `RemoveFront`,
`RemoveBack` and `RemoveElement`, each live node's `prevTopLevel` points to
the nearest preceding node (in level-0 order) whose own level is at least
this node's level, and is `none` exactly when no preceding node reaches
this node's level; `Set`'s splice and `RemoveElement`'s unsplice
re-establish this for all affected successors. -/
theorem prevTopLevel_invariant {s : SL} (h : ReachS s) :
    ∃ es, Abs s es ∧ ∀ pre e post, es = pre ++ e :: post →
      ((nodeAt s e.id).prevTopLevel = none → ∀ p ∈ pre, p.level < e.level) ∧
      (∀ pid, (nodeAt s e.id).prevTopLevel = some pid →
        ∃ p1 p p2, pre = p1 ++ p :: p2 ∧ p.id = pid ∧ e.level ≤ p.level ∧
          ∀ x ∈ p2, x.level < e.level) := by
  obtain ⟨es, hA⟩ := reachS_abs h
  refine ⟨es, hA, ?_⟩
  intro pre e post hdec
  have he1 : 1 ≤ e.level := (hA.hLevels e
    (by rw [hdec]; exact List.mem_append_right _ (List.mem_cons_self ..))).1
  have hptl : (nodeAt s e.id).prevTopLevel = ptlSpec e.level pre := by
    rw [abs_nodeAt hA hdec]
    rfl
  constructor
  · intro hnone p hp
    rw [hptl] at hnone
    cases hl : lastGT (e.level - 1) pre with
    | some r =>
        exfalso
        have h7 : ptlSpec e.level pre = some r.id := by
          show (lastGT (e.level - 1) pre).map (fun x => x.id) = some r.id
          rw [hl]
          rfl
        rw [h7] at hnone
        exact Option.noConfusion hnone
    | none =>
        have h5 := lastGT_eq_none.mp hl p hp
        omega
  · intro pid hsome
    rw [hptl] at hsome
    have hsome2 : (lastGT (e.level - 1) pre).map (fun x => x.id) = some pid := hsome
    cases hl : lastGT (e.level - 1) pre with
    | none =>
        rw [hl] at hsome2
        exact Option.noConfusion (show (none : Option Nat) = some pid from hsome2)
    | some r =>
        rw [hl] at hsome2
        have hc2 : some r.id = some pid := hsome2
        injection hc2 with hc3
        obtain ⟨l1, l2, hld, hall⟩ := lastGT_decomp hl
        have hrlev := (lastGT_mem hl).2
        exact ⟨l1, r, l2, hld, hc3, by omega, fun x hx => by have := hall x hx; omega⟩

theorem prevTopLevel_invariant_witness :
    ∃ es, Abs (SetOp new0 5 50 1).1 es ∧ ∀ pre e post, es = pre ++ e :: post →
      ((nodeAt (SetOp new0 5 50 1).1 e.id).prevTopLevel = none →
        ∀ p ∈ pre, p.level < e.level) ∧
      (∀ pid, (nodeAt (SetOp new0 5 50 1).1 e.id).prevTopLevel = some pid →
        ∃ p1 p p2, pre = p1 ++ p :: p2 ∧ p.id = pid ∧ e.level ≤ p.level ∧
          ∀ x ∈ p2, x.level < e.level) :=
  prevTopLevel_invariant (ReachS.set 5 50 1 ReachS.init (by decide) (by decide))

/-- C4: in every state reachable by `Set` and the removal operations, the
level-0 chain from the header carries strictly ascending keys (so keys are
unique), `Len()` equals the chain's node count, and `Back()` is the last
chain node — absent exactly when `Len()` is zero. -/
theorem level0_chain_len_back_invariant {s : SL} (h : ReachS s) :
    ((chain0 s).map fun id => (nodeAt s id).key).Pairwise (fun a b => a < b) ∧
    LenOp s = (chain0 s).length ∧
    BackOp s = (chain0 s).getLast? ∧
    (BackOp s = none ↔ LenOp s = 0) := by
  obtain ⟨es, hA⟩ := reachS_abs h
  have hchain := chain0_abs hA
  have hkeys : (chain0 s).map (fun id => (nodeAt s id).key) = es.map fun e => e.key := by
    rw [hchain, liveIds, List.map_map]
    refine List.map_eq_map_iff.mpr ?_
    intro e he
    show (nodeAt s e.id).key = e.key
    obtain ⟨a, b, hab⟩ := List.append_of_mem he
    rw [abs_nodeAt hA hab]
    rfl
  refine ⟨?_, ?_, ?_, ?_⟩
  · rw [hkeys]
    exact List.pairwise_map.mpr hA.hSorted
  · show s.length = (chain0 s).length
    rw [hchain, liveIds, List.length_map, hA.hLen]
  · show s.back = (chain0 s).getLast?
    rw [hchain, liveIds, List.getLast?_map, hA.hBack]
  · rcases List.eq_nil_or_concat es with rfl | ⟨L, b, hes⟩
    · constructor
      · intro _
        show s.length = 0
        rw [hA.hLen]
        rfl
      · intro _
        show s.back = none
        rw [hA.hBack]
        rfl
    · subst hes
      constructor
      · intro hb
        exfalso
        rw [show BackOp s = s.back from rfl, hA.hBack, List.concat_eq_append,
          List.getLast?_concat] at hb
        exact Option.noConfusion (show some b.id = (none : Option Nat) from hb)
      · intro hl
        exfalso
        rw [show LenOp s = s.length from rfl, hA.hLen, List.concat_eq_append,
          List.length_append] at hl
        simp at hl

theorem level0_chain_len_back_invariant_witness :
    (((chain0 (SetOp new0 5 50 1).1).map fun id =>
        (nodeAt (SetOp new0 5 50 1).1 id).key).Pairwise fun a b => a < b) ∧
    LenOp (SetOp new0 5 50 1).1 = (chain0 (SetOp new0 5 50 1).1).length ∧
    BackOp (SetOp new0 5 50 1).1 = (chain0 (SetOp new0 5 50 1).1).getLast? ∧
    (BackOp (SetOp new0 5 50 1).1 = none ↔ LenOp (SetOp new0 5 50 1).1 = 0) :=
  level0_chain_len_back_invariant (ReachS.set 5 50 1 ReachS.init (by decide) (by decide))

end SkipListVerify
